import Mathlib

/-!
Verification development for the TP1 real-time scheduling system.

The system has two engines sharing a periodic-task model:
* an EDF discrete-event simulator (package ordonnanceur_edf), and
* a fixed-priority response-time analyzer, implemented twice
  (ordonnanceur_statique/analysis.py over StaticTask, and
  ordonnanceur_statique/hpf.py over the EDF Task type).

All Python floats are modelled as rationals; the code's fixed tolerance
EPSILON = 1e-9 is exact in ℚ, so every epsilon-guarded comparison of the
source is reproduced exactly.
-/

-- Batteries marks the rational-number operations irreducible, which blocks
-- kernel evaluation of concrete rationals in decide; restore semireducibility
-- so that witnesses and counterexamples evaluate.
set_option allowUnsafeReducibility true in
attribute [semireducible] Rat.add

set_option allowUnsafeReducibility true in
attribute [semireducible] Rat.mul

set_option allowUnsafeReducibility true in
attribute [semireducible] Rat.sub

set_option allowUnsafeReducibility true in
attribute [semireducible] Rat.div

set_option allowUnsafeReducibility true in
attribute [semireducible] Rat.inv

/-- The fixed comparison tolerance used throughout the source (1e-9). -/
def EPSILON : ℚ := 1 / 1000000000

/-- A raw descriptor field: either a numeric value, or a value on which
Python float() conversion fails (models the non-numeric case). -/
inductive PyVal where
  | num (q : ℚ)
  | nonnum
deriving DecidableEq

/-- Construction failures: TypeError (non-numeric field) and ValueError
(bound violation / bad name); the specification classes both as
ValidationError. -/
inductive BuildError where
  | typeError
  | valueError
deriving DecidableEq

deriving instance DecidableEq for Except

/-- Python int() truncation toward zero, on a rational. -/
def pyInt (q : ℚ) : ℤ := q.num.tdiv q.den

/-- Python str.upper() for the ASCII policy names (String.toUpper is not
kernel-reducible, this map is). -/
def pyUpper (s : String) : String := String.mk (s.data.map Char.toUpper)

namespace Edf

/-- A validated periodic task (ordonnanceur_edf/task.py, class Task). -/
structure Task where
  name : String
  computation_time : ℚ
  period : ℚ
  deadline : ℚ
  offset : ℚ
deriving DecidableEq

/-- Raw constructor input for Task: numeric fields may be non-numeric and
deadline may be omitted (None). -/
structure TaskDesc where
  name : String
  computation_time : PyVal
  period : PyVal
  deadline : Option PyVal
  offset : PyVal
deriving DecidableEq

/-- The bound checks of Task.__post_init__, run after float conversion. -/
def buildChecks (name : String) (c t dl off : ℚ) : Except BuildError Task :=
  if c ≤ 0 then Except.error BuildError.valueError
  else if t ≤ 0 then Except.error BuildError.valueError
  else if dl ≤ 0 then Except.error BuildError.valueError
  else if off < 0 then Except.error BuildError.valueError
  else Except.ok ⟨name, c, t, dl, off⟩

/-- Task.__post_init__ (ordonnanceur_edf/task.py): float conversions of
computation_time, period, offset, then deadline defaulting to period,
then the bound checks.  There is no check on the name. -/
def Task.build (d : TaskDesc) : Except BuildError Task :=
  match d.computation_time, d.period, d.offset with
  | PyVal.num c, PyVal.num t, PyVal.num off =>
    match d.deadline with
    | none => buildChecks d.name c t t off
    | some (PyVal.num dl) => buildChecks d.name c t dl off
    | some PyVal.nonnum => Except.error BuildError.typeError
  | _, _, _ => Except.error BuildError.typeError

end Edf

namespace Statique

/-- A validated static-analysis task (ordonnanceur_statique/task.py). -/
structure StaticTask where
  name : String
  computation_time : ℚ
  period : ℚ
  deadline : ℚ
  priority : Option ℤ
deriving DecidableEq

/-- Raw constructor input for StaticTask (note: no offset field exists). -/
structure StaticTaskDesc where
  name : String
  computation_time : PyVal
  period : PyVal
  deadline : Option PyVal
  priority : Option PyVal
deriving DecidableEq

/-- The bound checks of StaticTask.__post_init__. -/
def staticChecks (name : String) (c t dl : ℚ) (p : Option ℤ) :
    Except BuildError StaticTask :=
  if c ≤ 0 then Except.error BuildError.valueError
  else if t ≤ 0 then Except.error BuildError.valueError
  else if dl ≤ 0 then Except.error BuildError.valueError
  else Except.ok ⟨name, c, t, dl, p⟩

/-- StaticTask.__post_init__ (ordonnanceur_statique/task.py): the name must
be a non-blank string and is stored stripped; numeric conversions of
computation_time, period, deadline (defaulting to period) and of the
optional priority (int conversion); then the bound checks. -/
def StaticTask.build (d : StaticTaskDesc) : Except BuildError StaticTask :=
  if d.name.trim = "" then Except.error BuildError.valueError
  else
    match d.computation_time, d.period with
    | PyVal.num c, PyVal.num t =>
      match d.deadline with
      | some PyVal.nonnum => Except.error BuildError.typeError
      | some (PyVal.num dl) =>
        match d.priority with
        | some PyVal.nonnum => Except.error BuildError.typeError
        | some (PyVal.num p) => staticChecks d.name.trim c t dl (some (pyInt p))
        | none => staticChecks d.name.trim c t dl none
      | none =>
        match d.priority with
        | some PyVal.nonnum => Except.error BuildError.typeError
        | some (PyVal.num p) => staticChecks d.name.trim c t t (some (pyInt p))
        | none => staticChecks d.name.trim c t t none
    | _, _ => Except.error BuildError.typeError

end Statique

/-- Python max() over a list of rationals, with 0 for the empty list (the
empty case is only reached where the source guards it or passes default=0.0). -/
def listMax0 : List ℚ → ℚ
  | [] => 0
  | c :: cs => cs.foldl max c

namespace Edf

/-- The incremental lcm loop of compute_default_horizon, with the break once
the running value exceeds 500 (the running value of the final, possibly
interrupted iteration is kept, as in the source). -/
def lcmFold : ℤ → List ℤ → ℤ
  | acc, [] => acc
  | acc, p :: rest =>
    let acc' : ℤ := (Int.lcm acc p : ℕ)
    if 500 < acc' then acc' else lcmFold acc' rest

/-- The int_periods list of compute_default_horizon: the rounded periods when
every period is within EPSILON of its rounding, none otherwise (the source
clears the list and breaks at the first non-integer period).  Mathlib round
is round-half-up while Python round is round-half-to-even; they agree
whenever the |v - round v| < EPSILON test passes, since EPSILON < 1/2. -/
def intPeriods : List ℚ → Option (List ℤ)
  | [] => some []
  | v :: rest =>
    if |v - (round v : ℚ)| < EPSILON then
      match intPeriods rest with
      | some l => some (round v :: l)
      | none => none
    else none

/-- compute_default_horizon (ordonnanceur_edf/main.py): the fallback value
max(period) * max(3, len(tasks)) is returned when int_periods is empty
(some period not integral within EPSILON) or when the possibly
short-circuited lcm exceeds 500. -/
def compute_default_horizon (tasks : List Task) : ℚ :=
  match tasks with
  | [] => 0
  | _ :: _ =>
    match intPeriods (tasks.map (fun t => t.period)) with
    | some (p :: rest) =>
      if lcmFold p rest ≤ 500 then ((lcmFold p rest : ℤ) : ℚ)
      else listMax0 (tasks.map (fun t => t.period)) * ((max 3 tasks.length : ℕ) : ℚ)
    | _ => listMax0 (tasks.map (fun t => t.period)) * ((max 3 tasks.length : ℕ) : ℚ)

end Edf

namespace Hpf

/-- The blocking term computed inline by hpf.check_feasibility:
max of lower-priority computation times with default 0. -/
def blockingOf (idx : ℕ) (ordered : List Edf.Task) (preemptive : Bool) : ℚ :=
  if preemptive then 0
  else listMax0 ((ordered.drop (idx + 1)).map (fun t => t.computation_time))

end Hpf

namespace Analysis

/-- _compute_blocking_time (ordonnanceur_statique/analysis.py): 0 when
preemptive, otherwise the max computation time among the tasks after
position idx in the ordered list (0 when there are none). -/
def _compute_blocking_time (idx : ℕ) (ordered : List Statique.StaticTask)
    (preemptive : Bool) : ℚ :=
  if preemptive then 0
  else
    match ordered.drop (idx + 1) with
    | [] => 0
    | lower => listMax0 (lower.map (fun t => t.computation_time))

end Analysis

/-- The plain (break-free) incremental lcm over a list, for stating the
specification-side hyperperiod. -/
def lcmAll (acc : ℤ) (l : List ℤ) : ℤ :=
  l.foldl (fun a b => ((Int.lcm a b : ℕ) : ℤ)) acc

/-- Specification-side hyperperiod of a task set: the lcm of the rounded
periods. -/
def specHyper (tasks : List Edf.Task) : ℤ :=
  lcmAll 1 (tasks.map (fun t => round t.period))


/-- Stable insertion: x is placed before the first strictly greater element
(after all elements with an equal key), as Python's stable sort does. -/
def insertS {α : Type} (lt : α → α → Bool) (x : α) : List α → List α
  | [] => [x]
  | y :: ys => if lt x y then x :: y :: ys else y :: insertS lt x ys

/-- Stable sort by a strict comparison, modelling Python sorted(key=...). -/
def sortS {α : Type} (lt : α → α → Bool) (l : List α) : List α :=
  l.foldl (fun acc x => insertS lt x acc) []

/-- Strict lexicographic comparison on a pair. -/
def lex2Lt {α β : Type} [LinearOrder α] [LinearOrder β] (a b : α × β) : Bool :=
  if a.1 < b.1 then true
  else if a.1 = b.1 then decide (a.2 < b.2)
  else false

/-- Strict lexicographic comparison on a triple. -/
def lex3Lt {α β γ : Type} [LinearOrder α] [LinearOrder β] [LinearOrder γ]
    (a b : α × β × γ) : Bool :=
  if a.1 < b.1 then true
  else if a.1 = b.1 then lex2Lt a.2 b.2
  else false

namespace Analysis

/-- ValueErrors raised by _order_tasks; the missing-priority error carries
the names listed in its message. -/
inductive OrderError where
  | missingPriorities (names : List String)
  | duplicatePriorities
  | unknownPolicy
deriving DecidableEq

/-- The HPF sort key of _order_tasks: ascending (-priority, name).  Rejected
inputs never reach the sort, so the getD default is never relevant. -/
def hpfKey (t : Statique.StaticTask) : ℤ × String := (-(t.priority.getD 0), t.name)

/-- The RM sort key: ascending (period, deadline, name). -/
def rmKey (t : Statique.StaticTask) : ℚ × ℚ × String := (t.period, t.deadline, t.name)

/-- The DM sort key: ascending (deadline, period, name). -/
def dmKey (t : Statique.StaticTask) : ℚ × ℚ × String := (t.deadline, t.period, t.name)

/-- _order_tasks (ordonnanceur_statique/analysis.py). -/
def _order_tasks (tasks : List Statique.StaticTask) (policy : String) :
    Except OrderError (List Statique.StaticTask) :=
  if pyUpper policy = "HPF" then
    if (tasks.filter (fun t => t.priority.isNone)).map (fun t => t.name) = [] then
      if ((tasks.filter (fun t => t.priority.isSome)).map
            (fun t => t.priority)).Nodup then
        Except.ok (sortS (fun a b => lex2Lt (hpfKey a) (hpfKey b)) tasks)
      else Except.error OrderError.duplicatePriorities
    else Except.error (OrderError.missingPriorities
      ((tasks.filter (fun t => t.priority.isNone)).map (fun t => t.name)))
  else if pyUpper policy = "RM" then
    Except.ok (sortS (fun a b => lex3Lt (rmKey a) (rmKey b)) tasks)
  else if pyUpper policy = "DM" then
    Except.ok (sortS (fun a b => lex3Lt (dmKey a) (dmKey b)) tasks)
  else Except.error OrderError.unknownPolicy

/-- analysis.MAX_ITERATIONS. -/
def MAX_ITERATIONS : ℕ := 1000

/-- Result of analysis._compute_response_time: a (response, iterations)
pair, or the RuntimeError raised when the loop exhausts its bound. -/
inductive RTA where
  | ok (response : ℚ) (iters : ℕ)
  | convErr
deriving DecidableEq

/-- The interference sum of analysis._compute_response_time:
sum of ceil(response / T_h - EPSILON) * C_h over the higher tasks. -/
def interferenceA (higher : List Statique.StaticTask) (response : ℚ) : ℚ :=
  (higher.map (fun h =>
    ((⌈response / h.period - EPSILON⌉ : ℤ) : ℚ) * h.computation_time)).sum

/-- The bounded while loop of analysis._compute_response_time; iters counts
completed iterations and fuel = MAX_ITERATIONS - iters. -/
def rtLoopA (task : Statique.StaticTask) (higher : List Statique.StaticTask)
    (blocking : ℚ) : ℚ → ℕ → ℕ → RTA
  | _, _, 0 => RTA.convErr
  | response, iters, fuel + 1 =>
    if task.computation_time + blocking + interferenceA higher response
        - task.deadline > EPSILON then
      RTA.ok (task.computation_time + blocking + interferenceA higher response)
        (iters + 1)
    else if |task.computation_time + blocking + interferenceA higher response
        - response| ≤ EPSILON then
      RTA.ok (task.computation_time + blocking + interferenceA higher response)
        (iters + 1)
    else
      rtLoopA task higher blocking
        (task.computation_time + blocking + interferenceA higher response)
        (iters + 1) fuel

/-- analysis._compute_response_time, with its early return when the
higher-priority list is empty. -/
def _compute_response_time (task : Statique.StaticTask)
    (higher : List Statique.StaticTask) (blocking : ℚ) : RTA :=
  if higher.isEmpty then RTA.ok (task.computation_time + blocking) 0
  else rtLoopA task higher blocking (task.computation_time + blocking) 0
    MAX_ITERATIONS

/-- analysis.ResponseTimeResult. -/
structure ResponseTimeResult where
  task : Statique.StaticTask
  response_time : ℚ
  deadline_met : Bool
  iterations : ℕ
  blocking_time : ℚ
  priority_rank : ℕ
deriving DecidableEq

/-- analysis.FeasibilityReport. -/
structure FeasibilityReport where
  feasible : Bool
  policy : String
  preemptive : Bool
  results : List ResponseTimeResult
deriving DecidableEq

/-- Analysis failures: ordering ValueErrors or the RTA RuntimeError. -/
inductive AnalysisError where
  | order (e : OrderError)
  | convergence
deriving DecidableEq

/-- The per-task loop of analysis.check_feasibility over the ordered list. -/
def feasLoop (ordered : List Statique.StaticTask) (preemptive : Bool) :
    ℕ → List Statique.StaticTask → Except Unit (List ResponseTimeResult)
  | _, [] => Except.ok []
  | idx, t :: rest =>
    match _compute_response_time t (ordered.take idx)
        (_compute_blocking_time idx ordered preemptive) with
    | RTA.convErr => Except.error ()
    | RTA.ok response iters =>
      match feasLoop ordered preemptive (idx + 1) rest with
      | Except.error e => Except.error e
      | Except.ok rs =>
        Except.ok (⟨t, response, decide (response - t.deadline ≤ EPSILON), iters,
          _compute_blocking_time idx ordered preemptive, idx + 1⟩ :: rs)

/-- analysis.check_feasibility: order, analyze each task against its
higher-priority prefix, and report; feasible is the conjunction of the
per-task deadline_met flags. -/
def check_feasibility (tasks : List Statique.StaticTask) (policy : String)
    (preemptive : Bool) : Except AnalysisError FeasibilityReport :=
  match _order_tasks tasks policy with
  | Except.error e => Except.error (AnalysisError.order e)
  | Except.ok ordered =>
    match feasLoop ordered preemptive 0 ordered with
    | Except.error _ => Except.error AnalysisError.convergence
    | Except.ok results =>
      Except.ok ⟨results.all (fun r => r.deadline_met), pyUpper policy,
        preemptive, results⟩

end Analysis

namespace Hpf

/-- Failures raised by the hpf module: ValueError (unknown policy or
positive offset) and the non-convergence RuntimeError. -/
inductive HpfError where
  | valueError
  | convergenceError
deriving DecidableEq

/-- The RM sort key of assign_priorities: ascending (period, deadline, name). -/
def rmKeyE (t : Edf.Task) : ℚ × ℚ × String := (t.period, t.deadline, t.name)

/-- The DM sort key of assign_priorities: ascending (deadline, period, name). -/
def dmKeyE (t : Edf.Task) : ℚ × ℚ × String := (t.deadline, t.period, t.name)

/-- assign_priorities (ordonnanceur_statique/hpf.py): HPF is an alias of RM
(no explicit priorities exist on the EDF Task type); RM sorts by
(period, deadline, name) and DM by (deadline, period, name). -/
def assign_priorities (tasks : List Edf.Task) (policy : String) :
    Except HpfError (List Edf.Task) :=
  if (if pyUpper policy = "HPF" then "RM" else pyUpper policy) = "RM" then
    Except.ok (sortS (fun a b => lex3Lt (rmKeyE a) (rmKeyE b)) tasks)
  else if (if pyUpper policy = "HPF" then "RM" else pyUpper policy) = "DM" then
    Except.ok (sortS (fun a b => lex3Lt (dmKeyE a) (dmKeyE b)) tasks)
  else Except.error HpfError.valueError

/-- Outcome of hpf._compute_response_time: the ValueError for a positive
offset, None (infeasible), a converged response, or the RuntimeError. -/
inductive RTH where
  | valErr
  | infeasible
  | ok (r : ℚ)
  | convErr
deriving DecidableEq

/-- The interference sum of hpf._compute_response_time: plain
ceil(response / T_h) * C_h, with no EPSILON subtraction. -/
def interferenceH (higher : List Edf.Task) (response : ℚ) : ℚ :=
  (higher.map (fun h =>
    ((⌈response / h.period⌉ : ℤ) : ℚ) * h.computation_time)).sum

/-- The 1000-round for loop of hpf._compute_response_time. -/
def rtLoopH (task : Edf.Task) (higher : List Edf.Task) (blocking : ℚ) :
    ℚ → ℕ → RTH
  | _, 0 => RTH.convErr
  | response, fuel + 1 =>
    if task.computation_time + blocking + interferenceH higher response
        > task.deadline + EPSILON then RTH.infeasible
    else if |task.computation_time + blocking + interferenceH higher response
        - response| ≤ EPSILON then
      RTH.ok (task.computation_time + blocking + interferenceH higher response)
    else
      rtLoopH task higher blocking
        (task.computation_time + blocking + interferenceH higher response) fuel

/-- hpf._compute_response_time: rejects a positive offset, then iterates. -/
def _compute_response_time (task : Edf.Task) (higher : List Edf.Task)
    (blocking : ℚ) : RTH :=
  if task.offset > EPSILON then RTH.valErr
  else rtLoopH task higher blocking (task.computation_time + blocking) 1000

/-- The per-task loop of hpf.check_feasibility over the ordered tasks. -/
def checkLoop (ordered : List Edf.Task) (preemptive : Bool) :
    ℕ → List Edf.Task → Except HpfError Bool
  | _, [] => Except.ok true
  | idx, t :: rest =>
    match _compute_response_time t (ordered.take idx)
        (blockingOf idx ordered preemptive) with
    | RTH.valErr => Except.error HpfError.valueError
    | RTH.convErr => Except.error HpfError.convergenceError
    | RTH.infeasible => Except.ok false
    | RTH.ok _ => checkLoop ordered preemptive (idx + 1) rest

/-- hpf.check_feasibility. -/
def check_feasibility (tasks : List Edf.Task) (policy : String)
    (preemptive : Bool) : Except HpfError Bool :=
  match assign_priorities tasks policy with
  | Except.error e => Except.error e
  | Except.ok ordered => checkLoop ordered preemptive 0 ordered

end Hpf

/-- The specification-side recurrence: R 0 = base, R (n+1) = base + I(R n),
with base = C + B and I the interference function. -/
def Rseq (base : ℚ) (interf : ℚ → ℚ) : ℕ → ℚ
  | 0 => base
  | n + 1 => base + interf (Rseq base interf n)

/-- The claimed interference formula (spec words): sum over higher tasks of
ceil(R / T_h - EPSILON) * C_h, stated over the EDF task type for comparison
with the hpf implementation. -/
def claimInterf (higher : List Edf.Task) (r : ℚ) : ℚ :=
  (higher.map (fun h =>
    ((⌈r / h.period - EPSILON⌉ : ℤ) : ℚ) * h.computation_time)).sum

/-- The claimed stop condition at index n (n ≥ 1): the iterate overshoots
the deadline by more than EPSILON, or two consecutive iterates agree
within EPSILON. -/
def stopAt (D : ℚ) (R : ℕ → ℚ) (n : ℕ) : Prop :=
  R n - D > EPSILON ∨ |R n - R (n - 1)| ≤ EPSILON

instance stopAtDecidable (D : ℚ) (R : ℕ → ℚ) (n : ℕ) : Decidable (stopAt D R n) := by
  unfold stopAt
  exact inferInstance


namespace Edf

/-- A job instance (ordonnanceur_edf/task.py, class Job).  The inst field
models the source attribute named instance (a Lean keyword). -/
structure Job where
  task : Task
  release_time : ℚ
  inst : ℕ
  absolute_deadline : ℚ
  remaining_time : ℚ
  started_at : Option ℚ := none
  completed_at : Option ℚ := none
deriving DecidableEq

/-- Job.deadline_missed: completed and past the deadline by more than
EPSILON. -/
def Job.deadline_missed (j : Job) : Bool :=
  match j.completed_at with
  | none => false
  | some c => decide (c - j.absolute_deadline > EPSILON)

/-- The job of task t with 1-based index k, as constructed by
generate_jobs. -/
def mkJob (t : Task) (k : ℕ) : Job :=
  { task := t
    release_time := t.offset + ((k : ℚ) - 1) * t.period
    inst := k
    absolute_deadline := t.offset + ((k : ℚ) - 1) * t.period + t.deadline
    remaining_time := t.computation_time }

/-- The generation loop of Task.generate_jobs from index k, with fuel. -/
def genAux (t : Task) (limit : ℚ) : ℕ → ℕ → List Job
  | 0, _ => []
  | fuel + 1, k =>
    if t.offset + ((k : ℚ) - 1) * t.period > limit + EPSILON then []
    else mkJob t k :: genAux t limit fuel (k + 1)

/-- Fuel sufficient for the generation loop when the period is positive
(proved below); 0 for a non-positive period, where the Python loop would
not terminate. -/
def jobFuel (t : Task) (limit : ℚ) : ℕ :=
  if t.period ≤ 0 then 0
  else ((⌈(limit + EPSILON - t.offset) / t.period⌉ : ℤ).toNat + 2)

/-- The loop body of Task.generate_jobs: jobs from instance 1, limit
horizon (+EPSILON when include_job_at_horizon). -/
def generateJobsList (t : Task) (horizon : ℚ)
    (include_job_at_horizon : Bool) : List Job :=
  genAux t (if include_job_at_horizon then horizon + EPSILON else horizon)
    (jobFuel t (if include_job_at_horizon then horizon + EPSILON else horizon)) 1

/-- Task.generate_jobs with its negative-horizon ValueError. -/
def generate_jobs (t : Task) (horizon : ℚ)
    (include_job_at_horizon : Bool) : Except BuildError (List Job) :=
  if horizon < 0 then Except.error BuildError.valueError
  else Except.ok (generateJobsList t horizon include_job_at_horizon)

end Edf


namespace Edf

/-- A timeline segment attributed to a job or to IDLE; the stop field
models the source attribute named end (a Lean keyword). -/
structure TimelineEntry where
  task : String
  job : Option ℕ
  start : ℚ
  stop : ℚ
  deadline : Option ℚ
  completed : Bool
deriving DecidableEq

/-- TimelineEntry.duration. -/
def TimelineEntry.duration (e : TimelineEntry) : ℚ := e.stop - e.start

/-- The name used for idle timeline entries. -/
def idleName : String := "IDLE"

/-- One step of merge_timeline: drop entries of duration at most EPSILON,
merge an entry into the previous one when it continues the same job
contiguously within EPSILON (the accumulator is kept reversed, its head
being the last emitted entry, which the source mutates in place). -/
def mergeStep (acc : List TimelineEntry) (e : TimelineEntry) :
    List TimelineEntry :=
  if e.duration ≤ EPSILON then acc
  else
    match acc with
    | last :: rest =>
      if e.task = last.task ∧ e.job = last.job ∧ e.deadline = last.deadline ∧
          |e.start - last.stop| ≤ EPSILON then
        { last with stop := e.stop, completed := e.completed } :: rest
      else e :: last :: rest
    | [] => [e]

/-- merge_timeline (ordonnanceur_edf/main.py). -/
def merge_timeline (entries : List TimelineEntry) : List TimelineEntry :=
  (entries.foldl mergeStep []).reverse

/-- heapq push into the future queue, modelled as ordered insertion by the
(release_time, counter) key into a sorted list. -/
def pushFuture (e : (ℚ × ℕ) × Job) (h : List ((ℚ × ℕ) × Job)) :
    List ((ℚ × ℕ) × Job) :=
  insertS (fun a b => lex2Lt a.1 b.1) e h

/-- heapq push into the ready queue, keyed by
(absolute_deadline, release_time, counter). -/
def pushReady (e : (ℚ × ℚ × ℕ) × Job) (h : List ((ℚ × ℚ × ℕ) × Job)) :
    List ((ℚ × ℚ × ℕ) × Job) :=
  insertS (fun a b => lex3Lt a.1 b.1) e h

/-- The initial future queue of simulate_edf: every job of every task
(jobs at the horizon excluded), pushed with an increasing release counter. -/
def initFuture (tasks : List Task) (horizon : ℚ) :
    List ((ℚ × ℕ) × Job) × ℕ :=
  tasks.foldl
    (fun acc t =>
      (generateJobsList t horizon false).foldl
        (fun acc j => (pushFuture ((j.release_time, acc.2), j) acc.1, acc.2 + 1))
        acc)
    ([], 0)

/-- The mutable state of the simulate_edf while loop. -/
structure SimState where
  future : List ((ℚ × ℕ) × Job)
  ready : List ((ℚ × ℚ × ℕ) × Job)
  readyCtr : ℕ
  now : ℚ
  timeline : List TimelineEntry
  missed : List Job
  unfinished : List Job
deriving DecidableEq

/-- The inner drain loop: move every future job with release_time <= now
into the ready queue. -/
def drain (now : ℚ) : List ((ℚ × ℕ) × Job) → List ((ℚ × ℚ × ℕ) × Job) → ℕ →
    List ((ℚ × ℕ) × Job) × List ((ℚ × ℚ × ℕ) × Job) × ℕ
  | [], ready, ctr => ([], ready, ctr)
  | (k, j) :: rest, ready, ctr =>
    if k.1 ≤ now then
      drain now rest
        (pushReady ((j.absolute_deadline, j.release_time, ctr), j) ready) (ctr + 1)
    else ((k, j) :: rest, ready, ctr)

/-- Run the popped job for exec time units: append the timeline segment,
decrement remaining_time, advance the clock, and either complete the job
(recording a missed deadline when late), push it back, or record it as
unfinished at the horizon. -/
def execSegment (horizon : ℚ) (s : SimState) (fut : List ((ℚ × ℕ) × Job))
    (rdyRest : List ((ℚ × ℚ × ℕ) × Job)) (ctr : ℕ) (job : Job) (exec : ℚ) :
    SimState :=
  let segEnd := min (s.now + exec) horizon
  let job2 := { job with remaining_time := job.remaining_time - exec }
  let seg : TimelineEntry :=
    ⟨job.task.name, some job.inst, s.now, segEnd, some job.absolute_deadline, decide (job2.remaining_time ≤ EPSILON)⟩
  if job2.remaining_time ≤ EPSILON then
    let job3 := { job2 with completed_at := some segEnd }
    { s with
      future := fut
      ready := rdyRest
      readyCtr := ctr
      timeline := s.timeline ++ [seg]
      now := segEnd
      missed := if job3.deadline_missed then s.missed ++ [job3] else s.missed }
  else
    if segEnd < horizon then
      { s with
        future := fut
        ready := pushReady ((job2.absolute_deadline, job2.release_time, ctr), job2) rdyRest
        readyCtr := ctr + 1
        timeline := s.timeline ++ [seg]
        now := segEnd }
    else
      { s with
        future := fut
        ready := rdyRest
        readyCtr := ctr
        timeline := s.timeline ++ [seg]
        now := segEnd
        unfinished := s.unfinished ++ [job2] }

/-- The execution half of the loop body for the popped job (started_at
already set): compute the next event (job finish, next release, horizon),
run for that span, or re-run for min(remaining, horizon - now), breaking
out of the loop when even that span is negligible. -/
def simStepRun (horizon : ℚ) (s : SimState) (fut : List ((ℚ × ℕ) × Job))
    (rdyRest : List ((ℚ × ℚ × ℕ) × Job)) (ctr : ℕ) (job : Job) :
    SimState ⊕ SimState :=
  let next_event :=
    match fut.head?.map (fun e => e.1.1) with
    | some r => min (s.now + job.remaining_time) (min r horizon)
    | none => min (s.now + job.remaining_time) horizon
  let exec0 := max 0 (next_event - s.now)
  if exec0 ≤ EPSILON then
    if min job.remaining_time (horizon - s.now) ≤ EPSILON then
      Sum.inr { s with future := fut, ready := rdyRest, readyCtr := ctr }
    else
      Sum.inl (execSegment horizon s fut rdyRest ctr job (min job.remaining_time (horizon - s.now)))
  else
    Sum.inl (execSegment horizon s fut rdyRest ctr job exec0)

/-- One iteration of the simulate_edf while loop, evaluated only when the
loop condition holds.  Sum.inl continues the loop, Sum.inr breaks. -/
def simStep (horizon : ℚ) (s : SimState) : SimState ⊕ SimState :=
  match drain s.now s.future s.ready s.readyCtr with
  | (fut, rdy, ctr) =>
    match rdy with
    | [] =>
      match fut with
      | [] =>
        if s.now < horizon then
          Sum.inr
            { s with
              future := fut
              ready := rdy
              readyCtr := ctr
              timeline := s.timeline ++ [⟨idleName, none, s.now, horizon, none, true⟩]
              now := horizon }
        else
          Sum.inr { s with future := fut, ready := rdy, readyCtr := ctr }
      | (k, _) :: _ =>
        if min k.1 horizon > s.now + EPSILON then
          Sum.inl
            { s with
              future := fut
              ready := rdy
              readyCtr := ctr
              timeline := s.timeline ++ [⟨idleName, none, s.now, min k.1 horizon, none, true⟩]
              now := min k.1 horizon }
        else
          Sum.inl
            { s with
              future := fut
              ready := rdy
              readyCtr := ctr
              now := min k.1 horizon }
    | (_, job) :: rdyRest =>
      if job.remaining_time ≤ EPSILON then
        Sum.inl { s with future := fut, ready := rdyRest, readyCtr := ctr }
      else
        simStepRun horizon s fut rdyRest ctr
          (if job.started_at = none then { job with started_at := some s.now } else job)

/-- The fueled while loop of simulate_edf.  All invariant theorems below
hold for every fuel value; the concrete fuel is ample for the runs
evaluated in this file. -/
def simLoop (horizon : ℚ) : ℕ → SimState → SimState
  | 0, s => s
  | fuel + 1, s =>
    if (¬ s.future = [] ∨ ¬ s.ready = []) ∧ s.now < horizon then
      match simStep horizon s with
      | Sum.inl s2 => simLoop horizon fuel s2
      | Sum.inr s2 => s2
    else s

/-- The result dictionary of simulate_edf. -/
structure SimResult where
  timeline : List TimelineEntry
  missed_deadlines : List Job
  unfinished_jobs : List Job
  simulation_end : ℚ
deriving DecidableEq

/-- Fuel for the fueled loop. -/
def simFuel (tasks : List Task) (horizon : ℚ) : ℕ :=
  ((tasks.map (fun t => jobFuel t horizon)).sum + 2) * 4
    + ((⌈horizon * 2000000000⌉ : ℤ).toNat + 16)

/-- simulate_edf (ordonnanceur_edf/main.py): build the future queue, run
the event loop, sweep the leftover ready jobs into unfinished_jobs, and
merge the timeline. -/
def simulate_edf (tasks : List Task) (horizon : ℚ) :
    Except BuildError SimResult :=
  if horizon < 0 then Except.error BuildError.valueError
  else
    match simLoop horizon (simFuel tasks horizon)
        ⟨(initFuture tasks horizon).1, [], 0, 0, [], [], []⟩ with
    | s =>
      Except.ok ⟨merge_timeline s.timeline, s.missed,
        s.ready.foldl
          (fun acc e =>
            if e.2.remaining_time > EPSILON ∧ ¬ e.2 ∈ acc then acc ++ [e.2]
            else acc)
          s.unfinished,
        min s.now horizon⟩

end Edf


namespace Edf

/-- All jobs the simulator creates for a run (per task, jobs at the horizon
excluded as in simulate_edf). -/
def allJobs (tasks : List Task) (horizon : ℚ) : List Job :=
  (tasks.map (fun t => generateJobsList t horizon false)).join

/-- The identity under which a job is attributed in the timeline. -/
def jkey (j : Job) : String × ℕ := (j.task.name, j.inst)

/-- The immutable fields of a Job (the simulator only writes
remaining_time, started_at and completed_at). -/
def Job.core (j : Job) : Task × ℚ × ℕ × ℚ :=
  (j.task, j.release_time, j.inst, j.absolute_deadline)

/-- Provenance invariant of the simulation loop: future jobs are pristine
original jobs keyed by their release, ready jobs are original jobs
(modulo the mutable fields) released strictly before the horizon, and
every timeline attribution and recorded job stems from a job released
strictly before the horizon. -/
def ProvInv (tasks : List Task) (horizon : ℚ) (s : SimState) : Prop :=
  (∀ e ∈ s.future, e.1.1 = e.2.release_time ∧ e.2 ∈ allJobs tasks horizon) ∧
  (∀ e ∈ s.ready, ∃ j0 ∈ allJobs tasks horizon,
    e.2.core = j0.core ∧ e.2.release_time < horizon) ∧
  (∀ e ∈ s.timeline, ∀ i, e.job = some i → ∃ j0 ∈ allJobs tasks horizon,
    jkey j0 = (e.task, i) ∧ j0.release_time < horizon) ∧
  (∀ j ∈ s.missed ++ s.unfinished, ∃ j0 ∈ allJobs tasks horizon,
    j.core = j0.core ∧ j.release_time < horizon)

end Edf


namespace Edf

/-- The keys of the queued jobs of a pair of queues. -/
def qkeysOf (fut : List ((ℚ × ℕ) × Job))
    (rdy : List ((ℚ × ℚ × ℕ) × Job)) : List (String × ℕ) :=
  fut.map (fun e => jkey e.2) ++ rdy.map (fun e => jkey e.2)

/-- The keys of the jobs queued in a simulation state. -/
def qkeys (s : SimState) : List (String × ℕ) :=
  qkeysOf s.future s.ready

/-- Total duration of the timeline entries attributed to a
(task name, instance) key. -/
def sumDur (key : String × ℕ) (tl : List TimelineEntry) : ℚ :=
  ((tl.filter (fun e => e.task = key.1 ∧ e.job = some key.2)).map
    TimelineEntry.duration).sum

/-- The spec reading of "contiguous, non-overlapping entries covering
exactly [a, b]": each entry starts where its predecessor stopped, the
first at a, the last stopping at b. -/
def coversB (a b : ℚ) : List TimelineEntry → Bool
  | [] => decide (a = b)
  | e :: rest => decide (e.start = a) && coversB e.stop b rest

/-- A rational that is an integer. -/
def isIntQ (q : ℚ) : Prop := ∃ n : ℤ, q = (n : ℚ)

/-- Task sets with positive integral computation times and periods and
nonnegative integral offsets. -/
def IntTasks (tasks : List Task) : Prop :=
  ∀ t ∈ tasks, 0 < t.computation_time ∧ 0 < t.period ∧ 0 ≤ t.offset ∧
    isIntQ t.computation_time ∧ isIntQ t.period ∧ isIntQ t.offset

end Edf

/-- Accounting invariant of the simulate_edf loop under integral task
parameters: the clock is a nonnegative integer at most the horizon, future
jobs are pristine with no timeline entries, ready jobs have integral
remaining time at least 1 with their executed time on the timeline,
the timeline is an exact chain from 0 to the clock with every entry
longer than EPSILON, queued keys are distinct, and every completion
marker and missed job has its full computation time on the timeline
and no queued job left. -/
structure AccInv (tasks : List Edf.Task) (horizon : ℚ)
    (s : Edf.SimState) : Prop where
  now_int : Edf.isIntQ s.now
  now_nonneg : 0 ≤ s.now
  now_le : s.now ≤ horizon
  fut : ∀ e ∈ s.future, e.1.1 = e.2.release_time ∧
    e.2 ∈ Edf.allJobs tasks horizon ∧
    Edf.sumDur (Edf.jkey e.2) s.timeline = 0
  rdy : ∀ e ∈ s.ready,
    (∃ j0 ∈ Edf.allJobs tasks horizon, e.2.core = j0.core) ∧
    Edf.isIntQ e.2.remaining_time ∧ 1 ≤ e.2.remaining_time ∧
    Edf.sumDur (Edf.jkey e.2) s.timeline
      = e.2.task.computation_time - e.2.remaining_time
  chain : Edf.coversB 0 s.now s.timeline = true
  dur : ∀ e ∈ s.timeline, EPSILON < e.duration
  keys : (Edf.qkeys s).Nodup
  marked : ∀ e ∈ s.timeline, e.completed = true → ∀ i, e.job = some i →
    (e.task, i) ∉ Edf.qkeys s ∧
    ∃ j0 ∈ Edf.allJobs tasks horizon, Edf.jkey j0 = (e.task, i) ∧
      Edf.sumDur (e.task, i) s.timeline = j0.task.computation_time
  missedOk : ∀ j ∈ s.missed, Edf.jkey j ∉ Edf.qkeys s ∧
    Edf.sumDur (Edf.jkey j) s.timeline = j.task.computation_time

-- ===== theorems follow =====

lemma edf_buildChecks_isOk_false (name : String) (c t dl off : ℚ) :
    (Edf.buildChecks name c t dl off).isOk = false ↔
      (c ≤ 0 ∨ t ≤ 0 ∨ dl ≤ 0 ∨ off < 0) := by
  unfold Edf.buildChecks
  split_ifs <;> simp [Except.isOk] <;> tauto

lemma edf_buildChecks_ok (name : String) (c t dl off : ℚ) (task : Edf.Task)
    (h : Edf.buildChecks name c t dl off = Except.ok task) :
    task = ⟨name, c, t, dl, off⟩ := by
  unfold Edf.buildChecks at h
  split_ifs at h <;>
    first
    | exact Except.noConfusion h
    | (injection h with h2; exact h2.symm)

lemma statique_staticChecks_isOk_false (name : String) (c t dl : ℚ) (p : Option ℤ) :
    (Statique.staticChecks name c t dl p).isOk = false ↔
      (c ≤ 0 ∨ t ≤ 0 ∨ dl ≤ 0) := by
  unfold Statique.staticChecks
  split_ifs <;> simp [Except.isOk] <;> tauto

lemma statique_staticChecks_ok (name : String) (c t dl : ℚ) (p : Option ℤ)
    (task : Statique.StaticTask)
    (h : Statique.staticChecks name c t dl p = Except.ok task) :
    task = ⟨name, c, t, dl, p⟩ := by
  unfold Statique.staticChecks at h
  split_ifs at h <;>
    first
    | exact Except.noConfusion h
    | (injection h with h2; exact h2.symm)

/-- C3 counterexample: the claim requires construction to fail when the name
is empty, but the EDF Task constructor performs no name validation: building
a task with an empty name and otherwise valid fields succeeds. -/
theorem c3_counterexample :
    (⟨"", PyVal.num 1, PyVal.num 1, none, PyVal.num 0⟩ : Edf.TaskDesc).name = "" ∧
    (Edf.Task.build ⟨"", PyVal.num 1, PyVal.num 1, none, PyVal.num 0⟩).isOk = true := by
  constructor
  · rfl
  · rfl

/-- C3 amended: EDF Task construction fails iff a numeric field is
non-numeric or computation_time ≤ 0, period ≤ 0, deadline ≤ 0, offset < 0
(the name is never checked); StaticTask construction fails iff the stripped
name is empty, a numeric field (including the optional priority) is
non-numeric, or computation_time ≤ 0, period ≤ 0, deadline ≤ 0 (there is no
offset field); in both, a successful build carries the given fields with
deadline defaulting to period when unspecified. -/
theorem c3_amended :
    (∀ d : Edf.TaskDesc,
      (Edf.Task.build d).isOk = false ↔
        (d.computation_time = PyVal.nonnum ∨ d.period = PyVal.nonnum ∨
         d.offset = PyVal.nonnum ∨ d.deadline = some PyVal.nonnum ∨
         (∃ c, d.computation_time = PyVal.num c ∧ c ≤ 0) ∨
         (∃ t, d.period = PyVal.num t ∧ t ≤ 0) ∨
         (∃ dl, d.deadline = some (PyVal.num dl) ∧ dl ≤ 0) ∨
         (∃ o, d.offset = PyVal.num o ∧ o < 0))) ∧
    (∀ (d : Edf.TaskDesc) (task : Edf.Task), Edf.Task.build d = Except.ok task →
      task.name = d.name ∧ d.computation_time = PyVal.num task.computation_time ∧
      d.period = PyVal.num task.period ∧ d.offset = PyVal.num task.offset ∧
      (d.deadline = some (PyVal.num task.deadline) ∨
       (d.deadline = none ∧ task.deadline = task.period))) ∧
    (∀ d : Statique.StaticTaskDesc,
      (Statique.StaticTask.build d).isOk = false ↔
        (d.name.trim = "" ∨ d.computation_time = PyVal.nonnum ∨
         d.period = PyVal.nonnum ∨ d.deadline = some PyVal.nonnum ∨
         d.priority = some PyVal.nonnum ∨
         (∃ c, d.computation_time = PyVal.num c ∧ c ≤ 0) ∨
         (∃ t, d.period = PyVal.num t ∧ t ≤ 0) ∨
         (∃ dl, d.deadline = some (PyVal.num dl) ∧ dl ≤ 0))) ∧
    (∀ (d : Statique.StaticTaskDesc) (task : Statique.StaticTask),
      Statique.StaticTask.build d = Except.ok task →
      task.name = d.name.trim ∧ d.computation_time = PyVal.num task.computation_time ∧
      d.period = PyVal.num task.period ∧
      (d.deadline = some (PyVal.num task.deadline) ∨
       (d.deadline = none ∧ task.deadline = task.period))) := by
  refine ⟨?_, ?_, ?_, ?_⟩
  · rintro ⟨name, c, t, dl, off⟩
    rcases c with c | _ <;> rcases t with t | _ <;> rcases off with off | _ <;>
      rcases dl with _ | dl | _ <;>
      simp [Edf.Task.build, edf_buildChecks_isOk_false] <;> tauto
  · rintro ⟨name, c, t, dl, off⟩ task h
    rcases c with c | _ <;> rcases t with t | _ <;> rcases off with off | _ <;>
      rcases dl with _ | dl | _ <;>
      simp only [Edf.Task.build] at h <;> try exact absurd h (by simp)
    · have := edf_buildChecks_ok _ _ _ _ _ _ h
      subst this
      simp
    · have := edf_buildChecks_ok _ _ _ _ _ _ h
      subst this
      simp
  · rintro ⟨name, c, t, dl, p⟩
    rcases c with c | _ <;> rcases t with t | _ <;>
      rcases dl with _ | dl | _ <;> rcases p with _ | p | _ <;>
      by_cases hn : name.trim = "" <;>
      simp [Statique.StaticTask.build, hn, statique_staticChecks_isOk_false] <;> tauto
  · rintro ⟨name, c, t, dl, p⟩ task h
    rcases c with c | _ <;> rcases t with t | _ <;>
      rcases dl with _ | dl | _ <;> rcases p with _ | p | _ <;>
      by_cases hn : name.trim = "" <;>
      simp only [Statique.StaticTask.build, hn, if_true, if_false, reduceIte] at h <;>
      first
      | exact absurd h (by simp [hn])
      | · have := statique_staticChecks_ok _ _ _ _ _ _ h
          subst this
          simp [hn]

/-- C3 witness: the amended success characterization evaluated on a concrete
valid descriptor. -/
theorem c3_amended_witness :
    (⟨"A", PyVal.num 1, PyVal.num 4, none, PyVal.num 0⟩ : Edf.TaskDesc).name = "A" ∧
    ((⟨"A", 1, 4, 4, 0⟩ : Edf.Task).name = "A" ∧
      (⟨"A", PyVal.num 1, PyVal.num 4, none, PyVal.num 0⟩ : Edf.TaskDesc).computation_time
        = PyVal.num 1 ∧
      (⟨"A", PyVal.num 1, PyVal.num 4, none, PyVal.num 0⟩ : Edf.TaskDesc).period
        = PyVal.num 4 ∧
      (⟨"A", PyVal.num 1, PyVal.num 4, none, PyVal.num 0⟩ : Edf.TaskDesc).offset
        = PyVal.num 0 ∧
      ((⟨"A", PyVal.num 1, PyVal.num 4, none, PyVal.num 0⟩ : Edf.TaskDesc).deadline
          = some (PyVal.num (⟨"A", 1, 4, 4, 0⟩ : Edf.Task).deadline) ∨
        ((⟨"A", PyVal.num 1, PyVal.num 4, none, PyVal.num 0⟩ : Edf.TaskDesc).deadline = none ∧
          (⟨"A", 1, 4, 4, 0⟩ : Edf.Task).deadline = (⟨"A", 1, 4, 4, 0⟩ : Edf.Task).period))) :=
  ⟨rfl, c3_amended.2.1 ⟨"A", PyVal.num 1, PyVal.num 4, none, PyVal.num 0⟩ ⟨"A", 1, 4, 4, 0⟩ rfl⟩

lemma foldl_max_mem (cs : List ℚ) : ∀ a : ℚ, cs.foldl max a = a ∨ cs.foldl max a ∈ cs := by
  induction cs with
  | nil => intro a; left; rfl
  | cons x xs ih =>
    intro a
    simp only [List.foldl]
    rcases ih (max a x) with h | h
    · rcases max_choice a x with hm | hm
      · left
        exact h.trans hm
      · right
        rw [h, hm]
        exact List.mem_cons_self x xs
    · right
      exact List.mem_cons_of_mem x h

lemma le_foldl_max (cs : List ℚ) :
    ∀ a : ℚ, a ≤ cs.foldl max a ∧ ∀ x ∈ cs, x ≤ cs.foldl max a := by
  induction cs with
  | nil => intro a; exact ⟨le_refl a, by simp⟩
  | cons y ys ih =>
    intro a
    simp only [List.foldl]
    obtain ⟨h1, h2⟩ := ih (max a y)
    refine ⟨le_trans (le_max_left a y) h1, ?_⟩
    intro x hx
    rcases List.mem_cons.mp hx with rfl | hx
    · exact le_trans (le_max_right a x) h1
    · exact h2 x hx

lemma listMax0_mem (l : List ℚ) (h : l ≠ []) : listMax0 l ∈ l := by
  match l with
  | c :: cs =>
    rcases foldl_max_mem cs c with h2 | h2
    · simp [listMax0, h2]
    · simp [listMax0, h2]

lemma le_listMax0 (l : List ℚ) : ∀ x ∈ l, x ≤ listMax0 l := by
  match l with
  | [] => simp
  | c :: cs =>
    intro x hx
    obtain ⟨h1, h2⟩ := le_foldl_max cs c
    rcases List.mem_cons.mp hx with rfl | hx
    · exact h1
    · exact h2 x hx

lemma round_eq_of_abs_lt {v : ℚ} {n : ℤ} (h : |v - (n : ℚ)| < 1/2) : round v = n := by
  rw [round_eq]
  obtain ⟨h1, h2⟩ := abs_sub_lt_iff.mp h
  rw [Int.floor_eq_iff]
  constructor
  · push_cast
    linarith
  · push_cast
    linarith

lemma isIntNear_iff (v : ℚ) :
    (∃ n : ℤ, |v - (n : ℚ)| < EPSILON) ↔ |v - (round v : ℚ)| < EPSILON := by
  constructor
  · rintro ⟨n, hn⟩
    have he : EPSILON < 1/2 := by norm_num [EPSILON]
    have := round_eq_of_abs_lt (lt_trans hn he)
    rwa [this]
  · intro h
    exact ⟨round v, h⟩

lemma le_intLcm {a b : ℤ} (ha : 1 ≤ a) (hb : 1 ≤ b) :
    a ≤ ((Int.lcm a b : ℕ) : ℤ) := by
  have h1 : a.natAbs ∣ Int.lcm a b := Nat.dvd_lcm_left _ _
  have hpos : 0 < Int.lcm a b :=
    Nat.lcm_pos (Int.natAbs_pos.mpr (by omega)) (Int.natAbs_pos.mpr (by omega))
  have h2 : a.natAbs ≤ Int.lcm a b := Nat.le_of_dvd hpos h1
  calc a = (a.natAbs : ℤ) := (Int.natAbs_of_nonneg (by omega)).symm
    _ ≤ _ := by exact_mod_cast h2

lemma lcmAll_nil (acc : ℤ) : lcmAll acc [] = acc := rfl

lemma lcmAll_cons (acc p : ℤ) (rest : List ℤ) :
    lcmAll acc (p :: rest) = lcmAll ((Int.lcm acc p : ℕ) : ℤ) rest := rfl

lemma lcmAll_ge (l : List ℤ) :
    ∀ acc : ℤ, 1 ≤ acc → (∀ p ∈ l, 1 ≤ p) → acc ≤ lcmAll acc l := by
  induction l with
  | nil => intro acc _ _; exact le_refl acc
  | cons p rest ih =>
    intro acc hacc hl
    have hp : 1 ≤ p := hl p (List.mem_cons_self _ _)
    have h1 : acc ≤ ((Int.lcm acc p : ℕ) : ℤ) := le_intLcm hacc hp
    rw [lcmAll_cons]
    exact le_trans h1
      (ih _ (le_trans hacc h1) (fun q hq => hl q (List.mem_cons_of_mem _ hq)))

lemma lcmFold_cases (l : List ℤ) :
    ∀ acc : ℤ, 1 ≤ acc → (∀ p ∈ l, 1 ≤ p) →
      Edf.lcmFold acc l = lcmAll acc l ∨
      (500 < Edf.lcmFold acc l ∧ 500 < lcmAll acc l) := by
  induction l with
  | nil => intro acc _ _; left; rfl
  | cons p rest ih =>
    intro acc hacc hl
    have hp : 1 ≤ p := hl p (List.mem_cons_self _ _)
    have hlcm1 : (1 : ℤ) ≤ ((Int.lcm acc p : ℕ) : ℤ) :=
      le_trans hacc (le_intLcm hacc hp)
    have hrest : ∀ q ∈ rest, (1 : ℤ) ≤ q :=
      fun q hq => hl q (List.mem_cons_of_mem _ hq)
    rw [lcmAll_cons]
    by_cases hbig : 500 < ((Int.lcm acc p : ℕ) : ℤ)
    · right
      constructor
      · rw [Edf.lcmFold, if_pos hbig]
        exact hbig
      · exact lt_of_lt_of_le hbig (lcmAll_ge rest _ hlcm1 hrest)
    · rw [Edf.lcmFold, if_neg hbig]
      exact ih _ hlcm1 hrest

lemma intPeriods_all (l : List ℚ) (h : ∀ v ∈ l, |v - (round v : ℚ)| < EPSILON) :
    Edf.intPeriods l = some (l.map round) := by
  induction l with
  | nil => rfl
  | cons v rest ih =>
    have hv := h v (List.mem_cons_self _ _)
    have hr := ih (fun u hu => h u (List.mem_cons_of_mem _ hu))
    simp [Edf.intPeriods, hv, hr]

lemma intPeriods_none (l : List ℚ) (h : ∃ v ∈ l, ¬|v - (round v : ℚ)| < EPSILON) :
    Edf.intPeriods l = none := by
  induction l with
  | nil => simp at h
  | cons v rest ih =>
    rcases h with ⟨u, hu, hnu⟩
    rcases List.mem_cons.mp hu with rfl | hu2
    · simp [Edf.intPeriods, hnu]
    · by_cases hv : |v - (round v : ℚ)| < EPSILON
      · simp [Edf.intPeriods, hv, ih ⟨u, hu2, hnu⟩]
      · simp [Edf.intPeriods, hv]

lemma one_le_round {v : ℚ} (hv : 1 ≤ v) : (1 : ℤ) ≤ round v := by
  rw [round_eq]
  rw [Int.le_floor]
  push_cast
  linarith

lemma specHyper_cons (p : ℤ) (rest : List ℤ) (hp : 1 ≤ p) :
    lcmAll 1 (p :: rest) = lcmAll p rest := by
  rw [lcmAll_cons]
  congr 1
  rw [Int.lcm_one_left]
  exact Int.natAbs_of_nonneg (by omega)

lemma cdh_match (tasks : List Edf.Task) (h : tasks ≠ []) :
    Edf.compute_default_horizon tasks =
      match Edf.intPeriods (tasks.map (fun t => t.period)) with
      | some (p :: rest) =>
        if Edf.lcmFold p rest ≤ 500 then ((Edf.lcmFold p rest : ℤ) : ℚ)
        else listMax0 (tasks.map (fun t => t.period)) * ((max 3 tasks.length : ℕ) : ℚ)
      | _ => listMax0 (tasks.map (fun t => t.period)) * ((max 3 tasks.length : ℕ) : ℚ) := by
  match tasks with
  | t0 :: ts => rfl

/-- C5: compute_default_horizon maps the empty set to 0; when every period is
within EPSILON of an integer and the hyperperiod (lcm of rounded periods) is
at most 500 it returns the hyperperiod; otherwise (a non-integer period, or
hyperperiod above 500) it returns the largest period times max(3, task
count).  Stated for period values at least 1, where the incremental
short-circuited lcm loop agrees with the plain lcm. -/
theorem c5_default_horizon (tasks : List Edf.Task)
    (hT : ∀ t ∈ tasks, 1 ≤ t.period) :
    (tasks = [] → Edf.compute_default_horizon tasks = 0) ∧
    (tasks ≠ [] →
      ((∀ t ∈ tasks, ∃ n : ℤ, |t.period - (n : ℚ)| < EPSILON) →
        (specHyper tasks ≤ 500 →
          Edf.compute_default_horizon tasks = ((specHyper tasks : ℤ) : ℚ)) ∧
        (500 < specHyper tasks →
          ∃ t ∈ tasks, (∀ u ∈ tasks, u.period ≤ t.period) ∧
            Edf.compute_default_horizon tasks
              = t.period * ((max 3 tasks.length : ℕ) : ℚ))) ∧
      ((∃ t ∈ tasks, ∀ n : ℤ, ¬|t.period - (n : ℚ)| < EPSILON) →
        ∃ t ∈ tasks, (∀ u ∈ tasks, u.period ≤ t.period) ∧
          Edf.compute_default_horizon tasks
            = t.period * ((max 3 tasks.length : ℕ) : ℚ))) := by
  constructor
  · rintro rfl
    rfl
  · intro hne
    match tasks, hT with
    | t0 :: ts, hT =>
      have hmapne : ((t0 :: ts).map (fun t => t.period)) ≠ [] := by simp
      obtain hmax_mem := listMax0_mem _ hmapne
      obtain ⟨tmax, htmax_mem, htmax_eq⟩ := List.mem_map.mp hmax_mem
      have hmax_ge : ∀ u ∈ t0 :: ts, u.period ≤ tmax.period := by
        intro u hu
        rw [htmax_eq]
        exact le_listMax0 _ _ (List.mem_map_of_mem _ hu)
      have hfb : ∃ t ∈ t0 :: ts, (∀ u ∈ t0 :: ts, u.period ≤ t.period) ∧
          listMax0 ((t0 :: ts).map (fun t => t.period))
            * ((max 3 (t0 :: ts).length : ℕ) : ℚ)
          = t.period * ((max 3 (t0 :: ts).length : ℕ) : ℚ) := by
        exact ⟨tmax, htmax_mem, hmax_ge, by rw [htmax_eq]⟩
      constructor
      · intro hnear
        have hnear2 : ∀ v ∈ (t0 :: ts).map (fun t => t.period),
            |v - (round v : ℚ)| < EPSILON := by
          intro v hv
          obtain ⟨t, ht, rfl⟩ := List.mem_map.mp hv
          exact (isIntNear_iff _).mp (hnear t ht)
        have hip := intPeriods_all _ hnear2
        have hr0 : (1 : ℤ) ≤ round t0.period :=
          one_le_round (hT t0 (List.mem_cons_self _ _))
        have hrrest : ∀ p ∈ (ts.map (fun t => t.period)).map round, (1 : ℤ) ≤ p := by
          intro p hp
          obtain ⟨v, hv, rfl⟩ := List.mem_map.mp hp
          obtain ⟨t, ht, rfl⟩ := List.mem_map.mp hv
          exact one_le_round (hT t (List.mem_cons_of_mem _ ht))
        have hmapc : ((t0 :: ts).map (fun t => t.period)).map round
            = round t0.period :: (ts.map (fun t => t.period)).map round := by
          simp
        have hspec : specHyper (t0 :: ts)
            = lcmAll (round t0.period) ((ts.map (fun t => t.period)).map round) := by
          rw [specHyper]
          have h2 : (t0 :: ts).map (fun t => round t.period)
              = round t0.period :: (ts.map (fun t => t.period)).map round := by
            simp [List.map_map]
          rw [h2]
          exact specHyper_cons _ _ hr0
        have hcases := lcmFold_cases ((ts.map (fun t => t.period)).map round)
          (round t0.period) hr0 hrrest
        have hcdh : Edf.compute_default_horizon (t0 :: ts)
            = if Edf.lcmFold (round t0.period) ((ts.map (fun t => t.period)).map round) ≤ 500
              then ((Edf.lcmFold (round t0.period)
                      ((ts.map (fun t => t.period)).map round) : ℤ) : ℚ)
              else listMax0 ((t0 :: ts).map (fun t => t.period))
                * ((max 3 (t0 :: ts).length : ℕ) : ℚ) := by
          rw [cdh_match _ hne]
          rw [hip, hmapc]
        constructor
        · intro hle
          rw [hspec] at hle
          rcases hcases with hEq | ⟨hgt, hgt2⟩
          · rw [hcdh, hEq, if_pos hle, hspec]
          · exact absurd hle (not_le.mpr hgt2)
        · intro hgt
          rw [hspec] at hgt
          have hfold_gt : 500 <
              Edf.lcmFold (round t0.period) ((ts.map (fun t => t.period)).map round) := by
            rcases hcases with hEq | ⟨h1, _⟩
            · rw [hEq]
              exact hgt
            · exact h1
          rw [hcdh, if_neg (not_le.mpr hfold_gt)]
          exact hfb
      · intro hfar
        have hip : Edf.intPeriods ((t0 :: ts).map (fun t => t.period)) = none := by
          apply intPeriods_none
          obtain ⟨t, ht, hnt⟩ := hfar
          exact ⟨t.period, List.mem_map_of_mem _ ht, hnt (round t.period)⟩
        have hcdh : Edf.compute_default_horizon (t0 :: ts)
            = listMax0 ((t0 :: ts).map (fun t => t.period))
              * ((max 3 (t0 :: ts).length : ℕ) : ℚ) := by
          rw [cdh_match _ hne]
          rw [hip]
        rw [hcdh]
        exact hfb

/-- C5 witness: for periods 4 and 5 the hyperperiod 20 is returned. -/
theorem c5_default_horizon_witness :
    Edf.compute_default_horizon [⟨"A", 1, 4, 4, 0⟩, ⟨"B", 1, 5, 5, 0⟩]
      = ((specHyper [⟨"A", 1, 4, 4, 0⟩, ⟨"B", 1, 5, 5, 0⟩] : ℤ) : ℚ) := by
  have h := c5_default_horizon [⟨"A", 1, 4, 4, 0⟩, ⟨"B", 1, 5, 5, 0⟩] (by decide)
  refine ((h.2 (by decide)).1 ?_).1 (by decide)
  intro t ht
  fin_cases ht
  · exact ⟨4, by norm_num [EPSILON]⟩
  · exact ⟨5, by norm_num [EPSILON]⟩

/-- C6: the blocking time used by both analyzers is 0 when preemptive;
otherwise it is the maximum computation time among the strictly
lower-priority tasks (those after the task in the priority order), or 0
when no lower-priority task exists. -/
theorem c6_blocking (idx : ℕ) (ordered : List Statique.StaticTask)
    (orderedH : List Edf.Task) :
    (Analysis._compute_blocking_time idx ordered true = 0 ∧
     Hpf.blockingOf idx orderedH true = 0) ∧
    (ordered.drop (idx + 1) = [] →
      Analysis._compute_blocking_time idx ordered false = 0) ∧
    (orderedH.drop (idx + 1) = [] → Hpf.blockingOf idx orderedH false = 0) ∧
    (ordered.drop (idx + 1) ≠ [] →
      (∃ t ∈ ordered.drop (idx + 1),
        Analysis._compute_blocking_time idx ordered false = t.computation_time) ∧
      (∀ t ∈ ordered.drop (idx + 1),
        t.computation_time ≤ Analysis._compute_blocking_time idx ordered false)) ∧
    (orderedH.drop (idx + 1) ≠ [] →
      (∃ t ∈ orderedH.drop (idx + 1),
        Hpf.blockingOf idx orderedH false = t.computation_time) ∧
      (∀ t ∈ orderedH.drop (idx + 1),
        t.computation_time ≤ Hpf.blockingOf idx orderedH false)) := by
  refine ⟨⟨rfl, rfl⟩, ?_, ?_, ?_, ?_⟩
  · intro h
    simp [Analysis._compute_blocking_time, h]
  · intro h
    simp [Hpf.blockingOf, h, listMax0]
  · intro h
    cases hdrop : ordered.drop (idx + 1) with
    | nil => exact absurd hdrop h
    | cons x xs =>
      have hmapne : ((x :: xs).map (fun t => t.computation_time)) ≠ [] := by simp
      have hunfold : Analysis._compute_blocking_time idx ordered false
          = listMax0 ((x :: xs).map (fun t => t.computation_time)) := by
        simp [Analysis._compute_blocking_time, hdrop]
      constructor
      · obtain ⟨t, ht, hteq⟩ := List.mem_map.mp (listMax0_mem _ hmapne)
        exact ⟨t, ht, by rw [hunfold, hteq]⟩
      · intro t ht
        rw [hunfold]
        exact le_listMax0 _ _ (List.mem_map_of_mem _ ht)
  · intro h
    cases hdrop : orderedH.drop (idx + 1) with
    | nil => exact absurd hdrop h
    | cons x xs =>
      have hmapne : ((x :: xs).map (fun t => t.computation_time)) ≠ [] := by simp
      have hunfold : Hpf.blockingOf idx orderedH false
          = listMax0 ((x :: xs).map (fun t => t.computation_time)) := by
        simp [Hpf.blockingOf, hdrop]
      constructor
      · obtain ⟨t, ht, hteq⟩ := List.mem_map.mp (listMax0_mem _ hmapne)
        exact ⟨t, ht, by rw [hunfold, hteq]⟩
      · intro t ht
        rw [hunfold]
        exact le_listMax0 _ _ (List.mem_map_of_mem _ ht)

/-- C6 witness: with a high-priority task followed by a lower-priority task
of computation time 7, the non-preemptive blocking of the first task is
witnessed among the lower tasks, and preemptive blocking is 0. -/
theorem c6_blocking_witness :
    Analysis._compute_blocking_time 0
      [⟨"H", 1, 4, 4, none⟩, ⟨"L", 7, 9, 9, none⟩] true = 0 ∧
    (∃ t ∈ ([⟨"H", 1, 4, 4, none⟩, ⟨"L", 7, 9, 9, none⟩] :
        List Statique.StaticTask).drop (0 + 1),
      Analysis._compute_blocking_time 0
        [⟨"H", 1, 4, 4, none⟩, ⟨"L", 7, 9, 9, none⟩] false = t.computation_time) :=
  ⟨(c6_blocking 0 [⟨"H", 1, 4, 4, none⟩, ⟨"L", 7, 9, 9, none⟩] []).1.1,
   ((c6_blocking 0 [⟨"H", 1, 4, 4, none⟩, ⟨"L", 7, 9, 9, none⟩] []).2.2.2.1
     (by decide)).1⟩

lemma insertS_perm {α : Type} (lt : α → α → Bool) (x : α) (l : List α) :
    (insertS lt x l).Perm (x :: l) := by
  induction l with
  | nil => exact List.Perm.refl _
  | cons y ys ih =>
    unfold insertS
    by_cases h : lt x y = true
    · rw [if_pos h]
    · rw [if_neg h]
      exact (List.Perm.cons y ih).trans (List.Perm.swap x y ys)

lemma mem_insertS {α : Type} (lt : α → α → Bool) (x : α) (l : List α) (z : α) :
    z ∈ insertS lt x l ↔ z = x ∨ z ∈ l := by
  have := (insertS_perm lt x l).mem_iff (a := z)
  simpa using this

lemma sortS_perm_aux {α : Type} (lt : α → α → Bool) :
    ∀ (l acc : List α),
      (l.foldl (fun acc x => insertS lt x acc) acc).Perm (acc ++ l) := by
  intro l
  induction l with
  | nil => intro acc; simp
  | cons x xs ih =>
    intro acc
    simp only [List.foldl]
    refine (ih _).trans ?_
    refine (List.Perm.append_right xs (insertS_perm lt x acc)).trans ?_
    exact List.perm_middle.symm

lemma sortS_perm {α : Type} (lt : α → α → Bool) (l : List α) :
    (sortS lt l).Perm l := by
  simpa [sortS] using sortS_perm_aux lt l []

lemma insertS_pairwise {α : Type} (lt : α → α → Bool)
    (htr : ∀ a b c, lt a b = true → lt b c = true → lt a c = true)
    (hasym : ∀ a b, lt a b = true → lt b a = false)
    (x : α) (l : List α) (hl : l.Pairwise (fun a b => lt b a = false)) :
    (insertS lt x l).Pairwise (fun a b => lt b a = false) := by
  induction l with
  | nil => simp [insertS]
  | cons y ys ih =>
    rcases List.pairwise_cons.mp hl with ⟨hy, hys⟩
    unfold insertS
    by_cases hxy : lt x y = true
    · rw [if_pos hxy]
      refine List.pairwise_cons.mpr ⟨?_, hl⟩
      intro w hw
      rcases List.mem_cons.mp hw with rfl | hw2
      · exact hasym x w hxy
      · cases hzx : lt w x with
        | false => rfl
        | true => exact absurd (htr w x y hzx hxy) (by simp [hy w hw2])
    · rw [if_neg hxy]
      refine List.pairwise_cons.mpr ⟨?_, ih hys⟩
      intro w hw
      rcases (mem_insertS lt x ys w).mp hw with rfl | hw2
      · exact Bool.eq_false_iff.mpr hxy
      · exact hy w hw2

lemma sortS_pairwise {α : Type} (lt : α → α → Bool)
    (htr : ∀ a b c, lt a b = true → lt b c = true → lt a c = true)
    (hasym : ∀ a b, lt a b = true → lt b a = false)
    (l : List α) :
    (sortS lt l).Pairwise (fun a b => lt b a = false) := by
  suffices h : ∀ (l acc : List α),
      acc.Pairwise (fun a b => lt b a = false) →
      (l.foldl (fun acc x => insertS lt x acc) acc).Pairwise
        (fun a b => lt b a = false) by
    exact h l [] (by simp)
  intro l
  induction l with
  | nil => intro acc h; exact h
  | cons x xs ih =>
    intro acc h
    exact ih _ (insertS_pairwise lt htr hasym x acc h)

lemma lex2Lt_iff {α β : Type} [LinearOrder α] [LinearOrder β] (a b : α × β) :
    lex2Lt a b = true ↔ (a.1 < b.1 ∨ (a.1 = b.1 ∧ a.2 < b.2)) := by
  unfold lex2Lt
  split_ifs with h1 h2
  · simp [h1]
  · simp [h1, h2]
  · simp [h1, h2]

lemma lex2Lt_trans {α β : Type} [LinearOrder α] [LinearOrder β] (a b c : α × β)
    (h1 : lex2Lt a b = true) (h2 : lex2Lt b c = true) : lex2Lt a c = true := by
  rw [lex2Lt_iff] at h1 h2 ⊢
  rcases h1 with h1 | ⟨e1, l1⟩ <;> rcases h2 with h2 | ⟨e2, l2⟩
  · exact Or.inl (lt_trans h1 h2)
  · exact Or.inl (e2 ▸ h1)
  · exact Or.inl (e1 ▸ h2)
  · exact Or.inr ⟨e1.trans e2, lt_trans l1 l2⟩

lemma lex2Lt_asym {α β : Type} [LinearOrder α] [LinearOrder β] (a b : α × β)
    (h : lex2Lt a b = true) : lex2Lt b a = false := by
  rw [lex2Lt_iff] at h
  refine Bool.eq_false_iff.mpr (fun hba => ?_)
  rw [lex2Lt_iff] at hba
  rcases h with h | ⟨e, l⟩ <;> rcases hba with hb | ⟨eb, lb⟩
  · exact absurd hb (lt_asymm h)
  · exact absurd (eb ▸ h) (lt_irrefl _)
  · exact absurd (e ▸ hb) (lt_irrefl _)
  · exact absurd (lt_trans l lb) (lt_irrefl _)

lemma lex3Lt_iff {α β γ : Type} [LinearOrder α] [LinearOrder β] [LinearOrder γ]
    (a b : α × β × γ) :
    lex3Lt a b = true ↔ (a.1 < b.1 ∨ (a.1 = b.1 ∧ lex2Lt a.2 b.2 = true)) := by
  unfold lex3Lt
  split_ifs with h1 h2
  · simp [h1]
  · simp [h1, h2]
  · simp [h1, h2]

lemma lex3Lt_trans {α β γ : Type} [LinearOrder α] [LinearOrder β] [LinearOrder γ]
    (a b c : α × β × γ)
    (h1 : lex3Lt a b = true) (h2 : lex3Lt b c = true) : lex3Lt a c = true := by
  rw [lex3Lt_iff] at h1 h2 ⊢
  rcases h1 with h1 | ⟨e1, l1⟩ <;> rcases h2 with h2 | ⟨e2, l2⟩
  · exact Or.inl (lt_trans h1 h2)
  · exact Or.inl (e2 ▸ h1)
  · exact Or.inl (e1 ▸ h2)
  · exact Or.inr ⟨e1.trans e2, lex2Lt_trans _ _ _ l1 l2⟩

lemma lex3Lt_asym {α β γ : Type} [LinearOrder α] [LinearOrder β] [LinearOrder γ]
    (a b : α × β × γ)
    (h : lex3Lt a b = true) : lex3Lt b a = false := by
  rw [lex3Lt_iff] at h
  refine Bool.eq_false_iff.mpr (fun hba => ?_)
  rw [lex3Lt_iff] at hba
  rcases h with h | ⟨e, l⟩ <;> rcases hba with hb | ⟨eb, lb⟩
  · exact absurd hb (lt_asymm h)
  · exact absurd (eb ▸ h) (lt_irrefl _)
  · exact absurd (e ▸ hb) (lt_irrefl _)
  · have := lex2Lt_asym _ _ l
    rw [lb] at this
    exact absurd this (by simp)

lemma lex2Lt_false {α β : Type} [LinearOrder α] [LinearOrder β] (ka kb : α × β)
    (h : lex2Lt kb ka = false) :
    ka.1 < kb.1 ∨ (ka.1 = kb.1 ∧ ka.2 ≤ kb.2) := by
  have h' : ¬ (kb.1 < ka.1 ∨ (kb.1 = ka.1 ∧ kb.2 < ka.2)) := by
    rw [← lex2Lt_iff]
    simp [h]
  push_neg at h'
  obtain ⟨h1, h2⟩ := h'
  rcases lt_trichotomy ka.1 kb.1 with hlt | heq | hgt
  · exact Or.inl hlt
  · exact Or.inr ⟨heq, h2 heq.symm⟩
  · exact absurd hgt (not_lt.mpr h1)

lemma lex3Lt_false {α β γ : Type} [LinearOrder α] [LinearOrder β] [LinearOrder γ]
    (ka kb : α × β × γ) (h : lex3Lt kb ka = false) :
    ka.1 < kb.1 ∨ (ka.1 = kb.1 ∧
      (ka.2.1 < kb.2.1 ∨ (ka.2.1 = kb.2.1 ∧ ka.2.2 ≤ kb.2.2))) := by
  have h' : ¬ (kb.1 < ka.1 ∨ (kb.1 = ka.1 ∧ lex2Lt kb.2 ka.2 = true)) := by
    rw [← lex3Lt_iff]
    simp [h]
  push_neg at h'
  obtain ⟨h1, h2⟩ := h'
  rcases lt_trichotomy ka.1 kb.1 with hlt | heq | hgt
  · exact Or.inl hlt
  · refine Or.inr ⟨heq, lex2Lt_false _ _ ?_⟩
    exact Bool.eq_false_iff.mpr (h2 heq.symm)
  · exact absurd hgt (not_lt.mpr h1)

/-- C4 counterexample: in the hpf module, the HPF policy is an alias for RM,
so a task set in which no task carries a priority (the EDF Task type has no
priority field at all) is ordered by ascending period without any
ValidationError, contradicting the claimed failure and the claimed
descending-priority order. -/
theorem c4_counterexample :
    Hpf.assign_priorities [⟨"A", 1, 5, 5, 0⟩, ⟨"B", 1, 3, 3, 0⟩] ("HPF")
      = Except.ok [⟨"B", 1, 3, 3, 0⟩, ⟨"A", 1, 5, 5, 0⟩] := by decide

/-- C4 amended: in analysis._order_tasks, policy HPF sorts by descending
priority with name tie-break, reports every missing-priority task name in a
ValidationError, and reports duplicate priorities in a separate
ValidationError; in hpf.assign_priorities, HPF is an alias for RM and sorts
by ascending (period, deadline, name) with no priority validation. -/
theorem c4_amended :
    (∀ tasks : List Statique.StaticTask,
      (tasks.filter (fun t => t.priority.isNone)) ≠ [] →
      Analysis._order_tasks tasks ("HPF")
        = Except.error (Analysis.OrderError.missingPriorities
            ((tasks.filter (fun t => t.priority.isNone)).map (fun t => t.name))) ∧
      (∀ nm, (nm ∈ (tasks.filter (fun t => t.priority.isNone)).map (fun t => t.name))
        ↔ ∃ t ∈ tasks, t.priority = none ∧ t.name = nm)) ∧
    (∀ tasks : List Statique.StaticTask,
      (∀ t ∈ tasks, t.priority ≠ none) →
      ¬ ((tasks.filter (fun t => t.priority.isSome)).map (fun t => t.priority)).Nodup →
      Analysis._order_tasks tasks ("HPF")
        = Except.error Analysis.OrderError.duplicatePriorities) ∧
    (∀ tasks : List Statique.StaticTask,
      (∀ t ∈ tasks, t.priority ≠ none) →
      ((tasks.filter (fun t => t.priority.isSome)).map (fun t => t.priority)).Nodup →
      ∃ out, Analysis._order_tasks tasks ("HPF") = Except.ok out ∧
        out.Perm tasks ∧
        out.Pairwise (fun a b =>
          b.priority.getD 0 < a.priority.getD 0 ∨
          (a.priority.getD 0 = b.priority.getD 0 ∧ a.name ≤ b.name))) ∧
    (∀ tasks : List Edf.Task,
      Hpf.assign_priorities tasks ("HPF") = Hpf.assign_priorities tasks ("RM") ∧
      ∃ out, Hpf.assign_priorities tasks ("HPF") = Except.ok out ∧
        out.Perm tasks ∧
        out.Pairwise (fun a b =>
          a.period < b.period ∨ (a.period = b.period ∧
            (a.deadline < b.deadline ∨
             (a.deadline = b.deadline ∧ a.name ≤ b.name))))) := by
  refine ⟨?_, ?_, ?_, ?_⟩
  · intro tasks hne
    have hmapne : (tasks.filter (fun t => t.priority.isNone)).map (fun t => t.name)
        ≠ [] := by
      simpa using hne
    constructor
    · rw [Analysis._order_tasks, if_pos (by decide), if_neg hmapne]
    · intro nm
      simp only [List.mem_map, List.mem_filter, Option.isNone_iff_eq_none,
        decide_eq_true_eq]
      tauto
  · intro tasks hall hdup
    have hmapnil : (tasks.filter (fun t => t.priority.isNone)).map (fun t => t.name)
        = [] := by
      simp only [List.map_eq_nil_iff, List.filter_eq_nil_iff]
      intro t ht
      simp [Option.isNone_iff_eq_none, hall t ht]
    rw [Analysis._order_tasks, if_pos (by decide), if_pos hmapnil, if_neg hdup]
  · intro tasks hall hdup
    have hmapnil : (tasks.filter (fun t => t.priority.isNone)).map (fun t => t.name)
        = [] := by
      simp only [List.map_eq_nil_iff, List.filter_eq_nil_iff]
      intro t ht
      simp [Option.isNone_iff_eq_none, hall t ht]
    refine ⟨sortS (fun a b => lex2Lt (Analysis.hpfKey a) (Analysis.hpfKey b)) tasks,
      ?_, sortS_perm _ _, ?_⟩
    · rw [Analysis._order_tasks, if_pos (by decide), if_pos hmapnil, if_pos hdup]
    · have hpw := sortS_pairwise (fun a b => lex2Lt (Analysis.hpfKey a) (Analysis.hpfKey b))
        (fun a b c h1 h2 => lex2Lt_trans _ _ _ h1 h2)
        (fun a b h => lex2Lt_asym _ _ h) tasks
      refine hpw.imp ?_
      intro a b hab
      have := lex2Lt_false (Analysis.hpfKey a) (Analysis.hpfKey b) hab
      rcases this with h1 | ⟨h1, h2⟩
      · left
        simpa [Analysis.hpfKey] using h1
      · right
        refine ⟨?_, h2⟩
        have : -(a.priority.getD 0) = -(b.priority.getD 0) := h1
        omega
  · intro tasks
    constructor
    · rw [Hpf.assign_priorities, Hpf.assign_priorities]
      rw [if_pos (by decide), if_pos (by decide)]
    · refine ⟨sortS (fun a b => lex3Lt (Hpf.rmKeyE a) (Hpf.rmKeyE b)) tasks,
        ?_, sortS_perm _ _, ?_⟩
      · rw [Hpf.assign_priorities, if_pos (by decide)]
      · have hpw := sortS_pairwise (fun a b => lex3Lt (Hpf.rmKeyE a) (Hpf.rmKeyE b))
          (fun a b c h1 h2 => lex3Lt_trans _ _ _ h1 h2)
          (fun a b h => lex3Lt_asym _ _ h) tasks
        refine hpw.imp ?_
        intro a b hab
        exact lex3Lt_false (Hpf.rmKeyE a) (Hpf.rmKeyE b) hab

/-- C4 witness: two tasks with distinct priorities 1 and 5 are ordered with
the priority-5 task first. -/
theorem c4_amended_witness :
    ∃ out, Analysis._order_tasks
        [⟨"X", 1, 4, 4, some 1⟩, ⟨"Y", 1, 6, 6, some 5⟩] ("HPF")
        = Except.ok out ∧
      out.Perm [⟨"X", 1, 4, 4, some 1⟩, ⟨"Y", 1, 6, 6, some 5⟩] ∧
      out.Pairwise (fun a b =>
        b.priority.getD 0 < a.priority.getD 0 ∨
        (a.priority.getD 0 = b.priority.getD 0 ∧ a.name ≤ b.name)) :=
  c4_amended.2.2.1 [⟨"X", 1, 4, 4, some 1⟩, ⟨"Y", 1, 6, 6, some 5⟩]
    (by decide) (by decide)

lemma rtLoopA_none (task : Statique.StaticTask) (higher : List Statique.StaticTask)
    (blocking : ℚ) :
    ∀ (fuel i : ℕ),
      (∀ k, i < k → k ≤ i + fuel →
        ¬ stopAt task.deadline
            (Rseq (task.computation_time + blocking) (Analysis.interferenceA higher)) k) →
      Analysis.rtLoopA task higher blocking
        (Rseq (task.computation_time + blocking) (Analysis.interferenceA higher) i)
        i fuel = Analysis.RTA.convErr := by
  intro fuel
  induction fuel with
  | zero => intro i _; rfl
  | succ fuel ih =>
    intro i h
    have hstop := h (i + 1) (by omega) (by omega)
    rw [stopAt, not_or] at hstop
    obtain ⟨h1, h2⟩ := hstop
    have hR : Rseq (task.computation_time + blocking) (Analysis.interferenceA higher) (i + 1)
        = task.computation_time + blocking + Analysis.interferenceA higher
            (Rseq (task.computation_time + blocking) (Analysis.interferenceA higher) i) := rfl
    rw [hR] at h1 h2
    simp only [Nat.add_sub_cancel] at h2
    rw [Analysis.rtLoopA, if_neg h1, if_neg h2, ← hR]
    exact ih (i + 1) (fun k hk1 hk2 => h k (by omega) (by omega))

lemma rtLoopA_found (task : Statique.StaticTask) (higher : List Statique.StaticTask)
    (blocking : ℚ) :
    ∀ (fuel i k : ℕ), i < k → k ≤ i + fuel →
      stopAt task.deadline
        (Rseq (task.computation_time + blocking) (Analysis.interferenceA higher)) k →
      (∀ m, i < m → m < k →
        ¬ stopAt task.deadline
            (Rseq (task.computation_time + blocking) (Analysis.interferenceA higher)) m) →
      Analysis.rtLoopA task higher blocking
        (Rseq (task.computation_time + blocking) (Analysis.interferenceA higher) i)
        i fuel
        = Analysis.RTA.ok
            (Rseq (task.computation_time + blocking) (Analysis.interferenceA higher) k) k := by
  intro fuel
  induction fuel with
  | zero => intro i k h1 h2 _ _; omega
  | succ fuel ih =>
    intro i k hik hk hstop hmin
    have hR : Rseq (task.computation_time + blocking) (Analysis.interferenceA higher) (i + 1)
        = task.computation_time + blocking + Analysis.interferenceA higher
            (Rseq (task.computation_time + blocking) (Analysis.interferenceA higher) i) := rfl
    by_cases hk1 : k = i + 1
    · subst hk1
      rw [stopAt] at hstop
      simp only [Nat.add_sub_cancel] at hstop
      rw [hR] at hstop
      rw [Analysis.rtLoopA]
      rcases Classical.em (task.computation_time + blocking + Analysis.interferenceA higher
          (Rseq (task.computation_time + blocking) (Analysis.interferenceA higher) i)
          - task.deadline > EPSILON) with hc1 | hc1
      · rw [if_pos hc1, ← hR]
      · rcases hstop with hs | hs
        · exact absurd hs hc1
        · rw [if_neg hc1, if_pos hs, ← hR]
    · have hnot := hmin (i + 1) (by omega) (by omega)
      rw [stopAt, not_or] at hnot
      obtain ⟨h1, h2⟩ := hnot
      rw [hR] at h1 h2
      simp only [Nat.add_sub_cancel] at h2
      rw [Analysis.rtLoopA, if_neg h1, if_neg h2, ← hR]
      exact ih (i + 1) k (by omega) (by omega) hstop
        (fun m hm1 hm2 => hmin m (by omega) hm2)

lemma rtLoopH_char (task : Edf.Task) (higher : List Edf.Task) (blocking : ℚ) :
    ∀ (fuel i : ℕ),
      ((∀ k, i < k → k ≤ i + fuel →
        ¬ stopAt task.deadline
            (Rseq (task.computation_time + blocking) (Hpf.interferenceH higher)) k) →
        Hpf.rtLoopH task higher blocking
          (Rseq (task.computation_time + blocking) (Hpf.interferenceH higher) i) fuel
          = Hpf.RTH.convErr) ∧
      (∀ k, i < k → k ≤ i + fuel →
        stopAt task.deadline
          (Rseq (task.computation_time + blocking) (Hpf.interferenceH higher)) k →
        (∀ m, i < m → m < k →
          ¬ stopAt task.deadline
              (Rseq (task.computation_time + blocking) (Hpf.interferenceH higher)) m) →
        Hpf.rtLoopH task higher blocking
          (Rseq (task.computation_time + blocking) (Hpf.interferenceH higher) i) fuel
          = (if Rseq (task.computation_time + blocking) (Hpf.interferenceH higher) k
                - task.deadline > EPSILON
             then Hpf.RTH.infeasible
             else Hpf.RTH.ok
               (Rseq (task.computation_time + blocking) (Hpf.interferenceH higher) k))) := by
  intro fuel
  induction fuel with
  | zero =>
    intro i
    exact ⟨fun _ => rfl, fun k h1 h2 _ _ => by omega⟩
  | succ fuel ih =>
    intro i
    have hR : Rseq (task.computation_time + blocking) (Hpf.interferenceH higher) (i + 1)
        = task.computation_time + blocking + Hpf.interferenceH higher
            (Rseq (task.computation_time + blocking) (Hpf.interferenceH higher) i) := rfl
    have hgtiff : ∀ x : ℚ, (x > task.deadline + EPSILON) ↔ (x - task.deadline > EPSILON) := by
      intro x
      constructor <;> intro h <;> linarith
    constructor
    · intro h
      have hstop := h (i + 1) (by omega) (by omega)
      rw [stopAt, not_or] at hstop
      obtain ⟨h1, h2⟩ := hstop
      rw [hR] at h1 h2
      simp only [Nat.add_sub_cancel] at h2
      rw [Hpf.rtLoopH, if_neg (fun hc => h1 ((hgtiff _).mp hc)), if_neg h2, ← hR]
      exact (ih (i + 1)).1 (fun k hk1 hk2 => h k (by omega) (by omega))
    · intro k hik hk hstop hmin
      by_cases hk1 : k = i + 1
      · subst hk1
        rw [stopAt] at hstop
        simp only [Nat.add_sub_cancel] at hstop
        rw [hR] at hstop
        rw [hR, Hpf.rtLoopH]
        rcases Classical.em (task.computation_time + blocking + Hpf.interferenceH higher
            (Rseq (task.computation_time + blocking) (Hpf.interferenceH higher) i)
            - task.deadline > EPSILON) with hc1 | hc1
        · rw [if_pos ((hgtiff _).mpr hc1), if_pos hc1]
        · rcases hstop with hs | hs
          · exact absurd hs hc1
          · rw [if_neg (fun hc => hc1 ((hgtiff _).mp hc)), if_pos hs, if_neg hc1]
      · have hnot := hmin (i + 1) (by omega) (by omega)
        rw [stopAt, not_or] at hnot
        obtain ⟨h1, h2⟩ := hnot
        rw [hR] at h1 h2
        simp only [Nat.add_sub_cancel] at h2
        rw [Hpf.rtLoopH, if_neg (fun hc => h1 ((hgtiff _).mp hc)), if_neg h2, ← hR]
        exact (ih (i + 1)).2 k (by omega) (by omega) hstop
          (fun m hm1 hm2 => hmin m (by omega) hm2)

/-- C1 counterexample: hpf._compute_response_time computes interference with
ceil(R/T) instead of the claimed ceil(R/T - EPSILON).  For C = 1+EPSILON/2
with one higher task of period 1 and cost 1/2, the claimed recurrence first
stops (converged) at iteration 3 with response 2+EPSILON/2, but the hpf code
returns 5/2+EPSILON/2. -/
theorem c1_counterexample :
    Hpf._compute_response_time ⟨"T", 1 + EPSILON/2, 10, 3, 0⟩ [⟨"H", 1/2, 1, 1, 0⟩] 0
      = Hpf.RTH.ok (5/2 + EPSILON/2) ∧
    stopAt (3 : ℚ)
      (Rseq ((1 + EPSILON/2) + 0) (claimInterf [⟨"H", 1/2, 1, 1, 0⟩])) 3 ∧
    ¬ stopAt (3 : ℚ)
      (Rseq ((1 + EPSILON/2) + 0) (claimInterf [⟨"H", 1/2, 1, 1, 0⟩])) 1 ∧
    ¬ stopAt (3 : ℚ)
      (Rseq ((1 + EPSILON/2) + 0) (claimInterf [⟨"H", 1/2, 1, 1, 0⟩])) 2 ∧
    Rseq ((1 + EPSILON/2) + 0) (claimInterf [⟨"H", 1/2, 1, 1, 0⟩]) 3
      = 2 + EPSILON/2 ∧
    ¬ ((5/2 + EPSILON/2 : ℚ) = 2 + EPSILON/2) := by
  refine ⟨by decide, by decide, by decide, by decide, by decide, by decide⟩

/-- C1 amended: in analysis._compute_response_time the claimed recurrence
holds exactly (R0 = C+B, interference ceil(R/T - EPSILON) * C, stop
infeasible on R - D > EPSILON, stop converged on |R' - R| <= EPSILON,
RuntimeError past 1000 iterations), with an immediate return (C+B, 0) when
no higher-priority task exists, and check_feasibility sets deadline_met to
response - deadline <= EPSILON; hpf._compute_response_time runs the same
loop but with plain ceil(R/T) interference, returns None on the infeasible
stop and the converged response otherwise, and raises after 1000 rounds. -/
theorem c1_amended :
    (∀ (task : Statique.StaticTask) (higher : List Statique.StaticTask) (blocking : ℚ),
      higher ≠ [] →
      (∀ k, 1 ≤ k → k ≤ 1000 →
        stopAt task.deadline
          (Rseq (task.computation_time + blocking) (Analysis.interferenceA higher)) k →
        (∀ m, 1 ≤ m → m < k →
          ¬ stopAt task.deadline
              (Rseq (task.computation_time + blocking) (Analysis.interferenceA higher)) m) →
        Analysis._compute_response_time task higher blocking
          = Analysis.RTA.ok
              (Rseq (task.computation_time + blocking) (Analysis.interferenceA higher) k)
              k) ∧
      ((∀ k, 1 ≤ k → k ≤ 1000 →
        ¬ stopAt task.deadline
            (Rseq (task.computation_time + blocking) (Analysis.interferenceA higher)) k) →
        Analysis._compute_response_time task higher blocking = Analysis.RTA.convErr)) ∧
    (∀ (task : Statique.StaticTask) (blocking : ℚ),
      Analysis._compute_response_time task [] blocking
        = Analysis.RTA.ok (task.computation_time + blocking) 0) ∧
    (∀ (ordered : List Statique.StaticTask) (preemptive : Bool) (idx : ℕ)
        (rest : List Statique.StaticTask) (results : List Analysis.ResponseTimeResult),
      Analysis.feasLoop ordered preemptive idx rest = Except.ok results →
      ∀ r ∈ results,
        r.deadline_met = decide (r.response_time - r.task.deadline ≤ EPSILON)) ∧
    (∀ (task : Edf.Task) (higher : List Edf.Task) (blocking : ℚ),
      task.offset ≤ EPSILON →
      (∀ k, 1 ≤ k → k ≤ 1000 →
        stopAt task.deadline
          (Rseq (task.computation_time + blocking) (Hpf.interferenceH higher)) k →
        (∀ m, 1 ≤ m → m < k →
          ¬ stopAt task.deadline
              (Rseq (task.computation_time + blocking) (Hpf.interferenceH higher)) m) →
        Hpf._compute_response_time task higher blocking
          = (if Rseq (task.computation_time + blocking) (Hpf.interferenceH higher) k
                - task.deadline > EPSILON
             then Hpf.RTH.infeasible
             else Hpf.RTH.ok
               (Rseq (task.computation_time + blocking) (Hpf.interferenceH higher) k))) ∧
      ((∀ k, 1 ≤ k → k ≤ 1000 →
        ¬ stopAt task.deadline
            (Rseq (task.computation_time + blocking) (Hpf.interferenceH higher)) k) →
        Hpf._compute_response_time task higher blocking = Hpf.RTH.convErr)) := by
  refine ⟨?_, ?_, ?_, ?_⟩
  · intro task higher blocking hne
    have hne' : higher.isEmpty = false := by
      cases higher with
      | nil => exact absurd rfl hne
      | cons x xs => rfl
    constructor
    · intro k hk1 hk2 hstop hmin
      rw [Analysis._compute_response_time, hne']
      exact rtLoopA_found task higher blocking 1000 0 k (by omega) (by omega) hstop
        (fun m hm1 hm2 => hmin m (by omega) hm2)
    · intro hnone
      rw [Analysis._compute_response_time, hne']
      exact rtLoopA_none task higher blocking 1000 0
        (fun k hk1 hk2 => hnone k (by omega) (by omega))
  · intro task blocking
    rfl
  · intro ordered preemptive idx rest
    induction rest generalizing idx with
    | nil =>
      intro results h r hr
      rw [Analysis.feasLoop] at h
      injection h with h
      subst h
      simp at hr
    | cons t ts ih =>
      intro results h r hr
      rw [Analysis.feasLoop] at h
      cases hrt : Analysis._compute_response_time t (ordered.take idx)
          (Analysis._compute_blocking_time idx ordered preemptive) with
      | convErr =>
        rw [hrt] at h
        exact absurd h (by simp)
      | ok response iters =>
        rw [hrt] at h
        cases hrec : Analysis.feasLoop ordered preemptive (idx + 1) ts with
        | error e =>
          rw [hrec] at h
          exact absurd h (by simp)
        | ok rs =>
          rw [hrec] at h
          injection h with h
          subst h
          rcases List.mem_cons.mp hr with rfl | hr2
          · rfl
          · exact ih (idx + 1) rs hrec r hr2
  · intro task higher blocking hoff
    have hoff' : ¬ (task.offset > EPSILON) := not_lt.mpr hoff
    constructor
    · intro k hk1 hk2 hstop hmin
      rw [Hpf._compute_response_time, if_neg hoff']
      exact (rtLoopH_char task higher blocking 1000 0).2 k (by omega) (by omega) hstop
        (fun m hm1 hm2 => hmin m (by omega) hm2)
    · intro hnone
      rw [Hpf._compute_response_time, if_neg hoff']
      exact (rtLoopH_char task higher blocking 1000 0).1
        (fun k hk1 hk2 => hnone k (by omega) (by omega))

/-- C1 witness: with C = 1, D = 5 and one higher task (C = 1, T = 2), the
analysis recurrence converges at iteration 2 with response 2. -/
theorem c1_amended_witness :
    Analysis._compute_response_time ⟨"T", 1, 9, 5, none⟩ [⟨"H", 1, 2, 2, none⟩] 0
      = Analysis.RTA.ok
          (Rseq ((1 : ℚ) + 0) (Analysis.interferenceA [⟨"H", 1, 2, 2, none⟩]) 2) 2 := by
  refine (c1_amended.1 ⟨"T", 1, 9, 5, none⟩ [⟨"H", 1, 2, 2, none⟩] 0 (by simp)).1 2
    (by omega) (by omega) (by decide) ?_
  intro m h1 h2
  have hm : m = 1 := by omega
  subst hm
  decide

lemma Rseq_mono (base : ℚ) (interf : ℚ → ℚ)
    (h0 : 0 ≤ interf base)
    (hm : ∀ x y, x ≤ y → interf x ≤ interf y) :
    ∀ n, Rseq base interf n ≤ Rseq base interf (n + 1) := by
  intro n
  induction n with
  | zero =>
    show base ≤ base + interf base
    linarith
  | succ n ih =>
    show base + interf (Rseq base interf n) ≤ base + interf (Rseq base interf (n + 1))
    have := hm _ _ ih
    linarith

lemma ceil_cast_nonneg {x : ℚ} (h : (-1 : ℚ) < x) : (0 : ℚ) ≤ ((⌈x⌉ : ℤ) : ℚ) := by
  have h1 : (-1 : ℤ) < ⌈x⌉ := Int.lt_ceil.mpr (by exact_mod_cast h)
  have h2 : (0 : ℤ) ≤ ⌈x⌉ := by omega
  exact_mod_cast h2

lemma interferenceA_nonneg (higher : List Statique.StaticTask)
    (hh : ∀ h ∈ higher, 0 < h.period ∧ 0 ≤ h.computation_time)
    {x : ℚ} (hx : 0 ≤ x) :
    0 ≤ Analysis.interferenceA higher x := by
  unfold Analysis.interferenceA
  apply List.sum_nonneg
  intro q hq
  obtain ⟨h, hmem, rfl⟩ := List.mem_map.mp hq
  refine mul_nonneg (ceil_cast_nonneg ?_) (hh h hmem).2
  have hd : 0 ≤ x / h.period := div_nonneg hx (le_of_lt (hh h hmem).1)
  have he : EPSILON < 1 := by norm_num [EPSILON]
  linarith

lemma interferenceA_mono (higher : List Statique.StaticTask)
    (hh : ∀ h ∈ higher, 0 < h.period ∧ 0 ≤ h.computation_time)
    {x y : ℚ} (hxy : x ≤ y) :
    Analysis.interferenceA higher x ≤ Analysis.interferenceA higher y := by
  unfold Analysis.interferenceA
  apply List.sum_le_sum
  intro h hmem
  refine mul_le_mul_of_nonneg_right ?_ (hh h hmem).2
  have hd : x / h.period ≤ y / h.period :=
    (div_le_div_iff_of_pos_right (hh h hmem).1).mpr hxy
  exact_mod_cast Int.ceil_le_ceil (by linarith)

lemma interferenceH_nonneg (higher : List Edf.Task)
    (hh : ∀ h ∈ higher, 0 < h.period ∧ 0 ≤ h.computation_time)
    {x : ℚ} (hx : 0 ≤ x) :
    0 ≤ Hpf.interferenceH higher x := by
  unfold Hpf.interferenceH
  apply List.sum_nonneg
  intro q hq
  obtain ⟨h, hmem, rfl⟩ := List.mem_map.mp hq
  refine mul_nonneg (ceil_cast_nonneg ?_) (hh h hmem).2
  have hd : 0 ≤ x / h.period := div_nonneg hx (le_of_lt (hh h hmem).1)
  linarith

lemma interferenceH_mono (higher : List Edf.Task)
    (hh : ∀ h ∈ higher, 0 < h.period ∧ 0 ≤ h.computation_time)
    {x y : ℚ} (hxy : x ≤ y) :
    Hpf.interferenceH higher x ≤ Hpf.interferenceH higher y := by
  unfold Hpf.interferenceH
  apply List.sum_le_sum
  intro h hmem
  refine mul_le_mul_of_nonneg_right ?_ (hh h hmem).2
  have hd : x / h.period ≤ y / h.period :=
    (div_le_div_iff_of_pos_right (hh h hmem).1).mpr hxy
  exact_mod_cast Int.ceil_le_ceil hd

/-- C7: the response-time iterate sequences of both analyzers (analysis:
interference ceil(R/T - EPSILON), hpf: plain ceil(R/T)) are non-decreasing
from R0 = C + B on, for positive computation times, non-negative blocking,
and positive higher-task periods. -/
theorem c7_monotone :
    (∀ (task : Statique.StaticTask) (higher : List Statique.StaticTask) (blocking : ℚ),
      0 < task.computation_time → 0 ≤ blocking →
      (∀ h ∈ higher, 0 < h.period ∧ 0 ≤ h.computation_time) →
      ∀ n, Rseq (task.computation_time + blocking) (Analysis.interferenceA higher) n
        ≤ Rseq (task.computation_time + blocking) (Analysis.interferenceA higher) (n + 1)) ∧
    (∀ (task : Edf.Task) (higher : List Edf.Task) (blocking : ℚ),
      0 < task.computation_time → 0 ≤ blocking →
      (∀ h ∈ higher, 0 < h.period ∧ 0 ≤ h.computation_time) →
      ∀ n, Rseq (task.computation_time + blocking) (Hpf.interferenceH higher) n
        ≤ Rseq (task.computation_time + blocking) (Hpf.interferenceH higher) (n + 1)) := by
  constructor
  · intro task higher blocking hc hb hh
    exact Rseq_mono _ _
      (interferenceA_nonneg higher hh (by linarith))
      (fun x y hxy => interferenceA_mono higher hh hxy)
  · intro task higher blocking hc hb hh
    exact Rseq_mono _ _
      (interferenceH_nonneg higher hh (by linarith))
      (fun x y hxy => interferenceH_mono higher hh hxy)

/-- C7 witness: the first two steps of the analysis iterate sequence for a
concrete task pair are non-decreasing. -/
theorem c7_monotone_witness :
    Rseq ((1 : ℚ) + 0) (Analysis.interferenceA [⟨"H", 1, 2, 2, none⟩]) 0
      ≤ Rseq ((1 : ℚ) + 0) (Analysis.interferenceA [⟨"H", 1, 2, 2, none⟩]) 1 :=
  c7_monotone.1 ⟨"T", 1, 9, 5, none⟩ [⟨"H", 1, 2, 2, none⟩] 0 (by norm_num)
    (le_refl 0) (by intro h hmem; fin_cases hmem; constructor <;> norm_num) 0

lemma assign_priorities_perm (tasks : List Edf.Task) (policy : String)
    (out : List Edf.Task) (h : Hpf.assign_priorities tasks policy = Except.ok out) :
    out.Perm tasks := by
  unfold Hpf.assign_priorities at h
  split_ifs at h <;>
    first
    | exact Except.noConfusion h
    | (injection h with h2; subst h2; exact sortS_perm _ _)

lemma checkLoop_ne_true (ordered : List Edf.Task) (preemptive : Bool) :
    ∀ (rest : List Edf.Task) (idx : ℕ), (∃ t ∈ rest, t.offset > EPSILON) →
      Hpf.checkLoop ordered preemptive idx rest ≠ Except.ok true := by
  intro rest
  induction rest with
  | nil =>
    intro idx h
    simp at h
  | cons t ts ih =>
    intro idx h
    rw [Hpf.checkLoop]
    rcases h with ⟨u, hu, huo⟩
    rcases List.mem_cons.mp hu with rfl | hu2
    · rw [Hpf._compute_response_time, if_pos huo]
      simp
    · cases hrt : Hpf._compute_response_time t (ordered.take idx)
          (Hpf.blockingOf idx ordered preemptive) with
      | valErr => simp
      | convErr => simp
      | infeasible => simp
      | ok r => exact ih (idx + 1) ⟨u, hu2, huo⟩

/-- C10 counterexample: a task set containing a positive-offset task for
which check_feasibility does not raise: the higher-priority task A
(C=3, T=D=2) is found infeasible first, so check_feasibility returns False
before the RTA ever reaches the offset-1 task B. -/
theorem c10_counterexample :
    (∃ t ∈ [(⟨"A", 3, 2, 2, 0⟩ : Edf.Task), ⟨"B", 1, 5, 5, 1⟩], t.offset > EPSILON) ∧
    Hpf.check_feasibility [⟨"A", 3, 2, 2, 0⟩, ⟨"B", 1, 5, 5, 1⟩] ("HPF") true
      = Except.ok false := by
  constructor
  · decide
  · decide

/-- C10 amended: hpf._compute_response_time raises ValueError for any task
with offset > EPSILON; consequently check_feasibility never returns True
for a task set containing such a task, but it may return False without
raising when a higher-priority task is found infeasible first (and offsets
in (0, EPSILON] are analyzed normally). -/
theorem c10_amended :
    (∀ (task : Edf.Task) (higher : List Edf.Task) (blocking : ℚ),
      task.offset > EPSILON →
      Hpf._compute_response_time task higher blocking = Hpf.RTH.valErr) ∧
    (∀ (tasks : List Edf.Task) (policy : String) (preemptive : Bool),
      (∃ t ∈ tasks, t.offset > EPSILON) →
      Hpf.check_feasibility tasks policy preemptive ≠ Except.ok true) := by
  constructor
  · intro task higher blocking hoff
    rw [Hpf._compute_response_time, if_pos hoff]
  · intro tasks policy preemptive hex hok
    unfold Hpf.check_feasibility at hok
    cases ha : Hpf.assign_priorities tasks policy with
    | error e =>
      rw [ha] at hok
      exact Except.noConfusion hok
    | ok ordered =>
      rw [ha] at hok
      have hperm := assign_priorities_perm tasks policy ordered ha
      obtain ⟨t, ht, hto⟩ := hex
      exact checkLoop_ne_true ordered preemptive ordered 0
        ⟨t, hperm.mem_iff.mpr ht, hto⟩ hok

/-- C10 witness: the ValueError branch fires for a concrete offset-1 task,
and a singleton set with that task cannot be reported feasible. -/
theorem c10_amended_witness :
    Hpf._compute_response_time ⟨"B", 1, 5, 5, 1⟩ [] 0 = Hpf.RTH.valErr ∧
    Hpf.check_feasibility [⟨"B", 1, 5, 5, 1⟩] ("RM") true ≠ Except.ok true :=
  ⟨c10_amended.1 ⟨"B", 1, 5, 5, 1⟩ [] 0 (by decide),
   c10_amended.2 [⟨"B", 1, 5, 5, 1⟩] ("RM") true (by decide)⟩

lemma mkJob_inj (t : Edf.Task) {a b : ℕ} (h : Edf.mkJob t a = Edf.mkJob t b) :
    a = b := by
  have := congrArg Edf.Job.inst h
  simpa [Edf.mkJob] using this

lemma genAux_shape (t : Edf.Task) (limit : ℚ) :
    ∀ (fuel k : ℕ), ∃ m,
      Edf.genAux t limit fuel k = (List.range' k m).map (Edf.mkJob t) := by
  intro fuel
  induction fuel with
  | zero => intro k; exact ⟨0, rfl⟩
  | succ fuel ih =>
    intro k
    rw [Edf.genAux]
    by_cases h : t.offset + ((k : ℚ) - 1) * t.period > limit + EPSILON
    · rw [if_pos h]
      exact ⟨0, rfl⟩
    · rw [if_neg h]
      obtain ⟨m, hm⟩ := ih (k + 1)
      exact ⟨m + 1, by rw [hm, List.range'_succ, List.map_cons]⟩

lemma genAux_sound (t : Edf.Task) (limit : ℚ) :
    ∀ (fuel k : ℕ), ∀ j ∈ Edf.genAux t limit fuel k,
      ∃ i, k ≤ i ∧ j = Edf.mkJob t i ∧
        t.offset + ((i : ℚ) - 1) * t.period ≤ limit + EPSILON := by
  intro fuel
  induction fuel with
  | zero => intro k j hj; simp [Edf.genAux] at hj
  | succ fuel ih =>
    intro k j hj
    rw [Edf.genAux] at hj
    by_cases h : t.offset + ((k : ℚ) - 1) * t.period > limit + EPSILON
    · rw [if_pos h] at hj
      simp at hj
    · rw [if_neg h] at hj
      rcases List.mem_cons.mp hj with rfl | hj2
      · exact ⟨k, le_refl k, rfl, not_lt.mp h⟩
      · obtain ⟨i, hi1, hi2, hi3⟩ := ih (k + 1) j hj2
        exact ⟨i, by omega, hi2, hi3⟩

lemma genAux_complete (t : Edf.Task) (limit : ℚ) (hT : 0 < t.period) :
    ∀ (fuel k i : ℕ), k ≤ i → i - k + 1 ≤ fuel →
      t.offset + ((i : ℚ) - 1) * t.period ≤ limit + EPSILON →
      Edf.mkJob t i ∈ Edf.genAux t limit fuel k := by
  intro fuel
  induction fuel with
  | zero => intro k i h1 h2 _; omega
  | succ fuel ih =>
    intro k i hki hfuel hrel
    have hmono : t.offset + ((k : ℚ) - 1) * t.period
        ≤ t.offset + ((i : ℚ) - 1) * t.period := by
      have : ((k : ℚ) - 1) ≤ ((i : ℚ) - 1) := by
        have : (k : ℚ) ≤ (i : ℚ) := by exact_mod_cast hki
        linarith
      nlinarith
    rw [Edf.genAux, if_neg (not_lt.mpr (le_trans hmono hrel))]
    rcases Nat.eq_or_lt_of_le hki with rfl | hlt
    · exact List.mem_cons_self _ _
    · exact List.mem_cons_of_mem _ (ih (k + 1) i (by omega) (by omega) hrel)

lemma jobFuel_sufficient (t : Edf.Task) (limit : ℚ) (hT : 0 < t.period)
    (i : ℕ) (h1 : 1 ≤ i)
    (hrel : t.offset + ((i : ℚ) - 1) * t.period ≤ limit + EPSILON) :
    i - 1 + 1 ≤ Edf.jobFuel t limit := by
  have hq : ((i : ℚ) - 1) ≤ (limit + EPSILON - t.offset) / t.period := by
    rw [le_div_iff₀ hT]
    linarith
  have hceil : ((i : ℤ) - 1) ≤ ⌈(limit + EPSILON - t.offset) / t.period⌉ := by
    have : (((i : ℤ) - 1 : ℤ) : ℚ) ≤ (limit + EPSILON - t.offset) / t.period := by
      push_cast
      exact hq
    calc ((i : ℤ) - 1) = ⌈((((i : ℤ) - 1 : ℤ)) : ℚ)⌉ := (Int.ceil_intCast _).symm
      _ ≤ _ := Int.ceil_mono this
  rw [Edf.jobFuel, if_neg (not_le.mpr hT)]
  omega

lemma generateJobsList_mem (t : Edf.Task) (horizon : ℚ) (inc : Bool)
    (hT : 0 < t.period) (i : ℕ) (h1 : 1 ≤ i) :
    Edf.mkJob t i ∈ Edf.generateJobsList t horizon inc ↔
      t.offset + ((i : ℚ) - 1) * t.period
        ≤ (if inc then horizon + EPSILON else horizon) + EPSILON := by
  constructor
  · intro hmem
    obtain ⟨i', hi1, hi2, hi3⟩ := genAux_sound t _ _ _ _ hmem
    rwa [mkJob_inj t hi2]
  · intro hrel
    exact genAux_complete t _ hT _ 1 i h1
      (jobFuel_sufficient t _ hT i h1 hrel) hrel

/-- C8: for a task with positive period, generate_jobs rejects a negative
horizon; otherwise it returns exactly the jobs of instances 1..m in order,
the k-th job having release offset+(k-1)*period and absolute deadline
release+deadline, and instance i is included iff its release is at most the
inclusion limit (horizon, or horizon+EPSILON when include_job_at_horizon)
plus the EPSILON comparison tolerance. -/
theorem c8_generate_jobs (t : Edf.Task) (hT : 0 < t.period) :
    (∀ horizon : ℚ, horizon < 0 →
      Edf.generate_jobs t horizon true = Except.error BuildError.valueError ∧
      Edf.generate_jobs t horizon false = Except.error BuildError.valueError) ∧
    (∀ (horizon : ℚ) (inc : Bool), 0 ≤ horizon →
      ∃ m, Edf.generate_jobs t horizon inc
          = Except.ok ((List.range' 1 m).map (Edf.mkJob t)) ∧
        (∀ j ∈ (List.range' 1 m).map (Edf.mkJob t),
          j.release_time = t.offset + ((j.inst : ℚ) - 1) * t.period ∧
          j.absolute_deadline = j.release_time + t.deadline ∧
          j.remaining_time = t.computation_time) ∧
        (∀ i : ℕ, 1 ≤ i →
          (Edf.mkJob t i ∈ (List.range' 1 m).map (Edf.mkJob t) ↔
            t.offset + ((i : ℚ) - 1) * t.period
              ≤ (if inc then horizon + EPSILON else horizon) + EPSILON))) := by
  constructor
  · intro horizon hneg
    constructor <;> rw [Edf.generate_jobs, if_pos hneg]
  · intro horizon inc hpos
    obtain ⟨m, hm⟩ := genAux_shape t
      (if inc then horizon + EPSILON else horizon)
      (Edf.jobFuel t (if inc then horizon + EPSILON else horizon)) 1
    refine ⟨m, ?_, ?_, ?_⟩
    · rw [Edf.generate_jobs, if_neg (not_lt.mpr hpos), Edf.generateJobsList, hm]
    · intro j hj
      obtain ⟨i, hi, rfl⟩ := List.mem_map.mp hj
      exact ⟨rfl, rfl, rfl⟩
    · intro i h1
      rw [← hm]
      exact generateJobsList_mem t horizon inc hT i h1

/-- C8 witness: a task with offset 0, period 2 over horizon 5 releases
exactly instances 1, 2, 3 when jobs at the horizon are excluded, and the
third job has release 4 and deadline 6. -/
theorem c8_generate_jobs_witness :
    ∃ m, Edf.generate_jobs ⟨"T", 1, 2, 2, 0⟩ 5 false
        = Except.ok ((List.range' 1 m).map (Edf.mkJob ⟨"T", 1, 2, 2, 0⟩)) ∧
      (∀ j ∈ (List.range' 1 m).map (Edf.mkJob ⟨"T", 1, 2, 2, 0⟩),
        j.release_time = (⟨"T", 1, 2, 2, 0⟩ : Edf.Task).offset
          + ((j.inst : ℚ) - 1) * (⟨"T", 1, 2, 2, 0⟩ : Edf.Task).period ∧
        j.absolute_deadline = j.release_time + (⟨"T", 1, 2, 2, 0⟩ : Edf.Task).deadline ∧
        j.remaining_time = (⟨"T", 1, 2, 2, 0⟩ : Edf.Task).computation_time) ∧
      (∀ i : ℕ, 1 ≤ i →
        (Edf.mkJob ⟨"T", 1, 2, 2, 0⟩ i
            ∈ (List.range' 1 m).map (Edf.mkJob ⟨"T", 1, 2, 2, 0⟩) ↔
          (⟨"T", 1, 2, 2, 0⟩ : Edf.Task).offset
            + ((i : ℚ) - 1) * (⟨"T", 1, 2, 2, 0⟩ : Edf.Task).period
            ≤ (if false then (5 : ℚ) + EPSILON else 5) + EPSILON)) :=
  (c8_generate_jobs ⟨"T", 1, 2, 2, 0⟩ (by norm_num)).2 5 false (by norm_num)

example :
    Edf.simulate_edf [⟨"Thread1", 2, 7, 7, 0⟩] 7
      = Except.ok ⟨[⟨"Thread1", some 1, 0, 2, some 7, true⟩,
          ⟨Edf.idleName, none, 2, 7, none, true⟩], [], [], 7⟩ := by decide

example :
    Edf.simulate_edf [⟨"A", 1, 3, 3, 0⟩, ⟨"B", 1, 5, 5, 0⟩] 6
      = Except.ok ⟨[⟨"A", some 1, 0, 1, some 3, true⟩,
          ⟨"B", some 1, 1, 2, some 5, true⟩,
          ⟨Edf.idleName, none, 2, 3, none, true⟩,
          ⟨"A", some 2, 3, 4, some 6, true⟩,
          ⟨Edf.idleName, none, 4, 5, none, true⟩,
          ⟨"B", some 2, 5, 6, some 10, true⟩], [], [], 6⟩ := by decide

lemma core_task {j j' : Edf.Job} (h : j.core = j'.core) : j.task = j'.task :=
  congrArg (fun c => c.1) h

lemma core_release {j j' : Edf.Job} (h : j.core = j'.core) :
    j.release_time = j'.release_time :=
  congrArg (fun c => c.2.1) h

lemma core_inst {j j' : Edf.Job} (h : j.core = j'.core) : j.inst = j'.inst :=
  congrArg (fun c => c.2.2.1) h

lemma allJobs_shape (tasks : List Edf.Task) (horizon : ℚ) (j : Edf.Job)
    (hj : j ∈ Edf.allJobs tasks horizon) :
    ∃ t ∈ tasks, ∃ i, 1 ≤ i ∧ j = Edf.mkJob t i := by
  rw [Edf.allJobs, List.mem_join] at hj
  obtain ⟨l, hl, hjl⟩ := hj
  obtain ⟨t, ht, rfl⟩ := List.mem_map.mp hl
  rw [Edf.generateJobsList] at hjl
  obtain ⟨m, hm⟩ := genAux_shape t
    (if false then horizon + EPSILON else horizon)
    (Edf.jobFuel t (if false then horizon + EPSILON else horizon)) 1
  rw [hm] at hjl
  obtain ⟨i, hi, rfl⟩ := List.mem_map.mp hjl
  exact ⟨t, ht, i, (List.mem_range'_1.mp hi).1, rfl⟩

lemma allJobs_key_eq (tasks : List Edf.Task) (horizon : ℚ)
    (hnames : (tasks.map (fun t => t.name)).Nodup)
    {j0 j1 : Edf.Job} (h0 : j0 ∈ Edf.allJobs tasks horizon)
    (h1 : j1 ∈ Edf.allJobs tasks horizon) (hk : Edf.jkey j0 = Edf.jkey j1) :
    j0 = j1 := by
  obtain ⟨t0, ht0, i0, hi0, rfl⟩ := allJobs_shape _ _ _ h0
  obtain ⟨t1, ht1, i1, hi1, rfl⟩ := allJobs_shape _ _ _ h1
  rw [Edf.jkey, Edf.jkey] at hk
  have hname : t0.name = t1.name := congrArg Prod.fst hk
  have hinst : i0 = i1 := congrArg Prod.snd hk
  have hts : t0 = t1 := List.inj_on_of_nodup_map hnames ht0 ht1 hname
  rw [hts, hinst]

lemma mem_allJobs_of_gen (tasks : List Edf.Task) (horizon : ℚ)
    {t : Edf.Task} (ht : t ∈ tasks) {j : Edf.Job}
    (hj : j ∈ Edf.generateJobsList t horizon false) :
    j ∈ Edf.allJobs tasks horizon := by
  rw [Edf.allJobs, List.mem_join]
  exact ⟨Edf.generateJobsList t horizon false, List.mem_map_of_mem _ ht, hj⟩

lemma foldPush_prop (Q : (ℚ × ℕ) × Edf.Job → Prop) :
    ∀ (jobs : List Edf.Job) (acc : List ((ℚ × ℕ) × Edf.Job) × ℕ),
      (∀ e ∈ acc.1, Q e) →
      (∀ j ∈ jobs, ∀ c : ℕ, Q ((j.release_time, c), j)) →
      ∀ e ∈ (jobs.foldl
          (fun acc j => (Edf.pushFuture ((j.release_time, acc.2), j) acc.1, acc.2 + 1))
          acc).1, Q e := by
  intro jobs
  induction jobs with
  | nil => intro acc hacc _ e he; exact hacc e he
  | cons j js ih =>
    intro acc hacc hjobs e he
    refine ih _ ?_ (fun u hu c => hjobs u (List.mem_cons_of_mem _ hu) c) e he
    intro e2 he2
    rcases (mem_insertS _ _ _ _).mp he2 with rfl | he3
    · exact hjobs j (List.mem_cons_self _ _) acc.2
    · exact hacc e2 he3

lemma initFuture_prop (tasks : List Edf.Task) (horizon : ℚ) :
    ∀ e ∈ (Edf.initFuture tasks horizon).1,
      e.1.1 = e.2.release_time ∧ e.2 ∈ Edf.allJobs tasks horizon := by
  rw [Edf.initFuture]
  suffices h : ∀ (ts : List Edf.Task), (∀ t ∈ ts, t ∈ tasks) →
      ∀ (acc : List ((ℚ × ℕ) × Edf.Job) × ℕ),
      (∀ e ∈ acc.1, e.1.1 = e.2.release_time ∧ e.2 ∈ Edf.allJobs tasks horizon) →
      ∀ e ∈ (ts.foldl
          (fun acc t => (Edf.generateJobsList t horizon false).foldl
            (fun acc j => (Edf.pushFuture ((j.release_time, acc.2), j) acc.1, acc.2 + 1))
            acc)
          acc).1,
        e.1.1 = e.2.release_time ∧ e.2 ∈ Edf.allJobs tasks horizon by
    exact h tasks (fun t ht => ht) ([], 0) (by simp)
  intro ts
  induction ts with
  | nil => intro _ acc hacc e he; exact hacc e he
  | cons t ts ih =>
    intro hts acc hacc e he
    refine ih (fun u hu => hts u (List.mem_cons_of_mem _ hu)) _ ?_ e he
    intro e2 he2
    refine foldPush_prop _ (Edf.generateJobsList t horizon false) acc hacc ?_ e2 he2
    intro j hj c
    exact ⟨rfl, mem_allJobs_of_gen tasks horizon (hts t (List.mem_cons_self _ _)) hj⟩

lemma drain_prov (tasks : List Edf.Task) (horizon now : ℚ) (hnow : now < horizon) :
    ∀ (fut : List ((ℚ × ℕ) × Edf.Job)) (rdy : List ((ℚ × ℚ × ℕ) × Edf.Job)) (ctr : ℕ),
      (∀ e ∈ fut, e.1.1 = e.2.release_time ∧ e.2 ∈ Edf.allJobs tasks horizon) →
      (∀ e ∈ rdy, ∃ j0 ∈ Edf.allJobs tasks horizon,
        e.2.core = j0.core ∧ e.2.release_time < horizon) →
      (∀ e ∈ (Edf.drain now fut rdy ctr).1,
        e.1.1 = e.2.release_time ∧ e.2 ∈ Edf.allJobs tasks horizon) ∧
      (∀ e ∈ (Edf.drain now fut rdy ctr).2.1,
        ∃ j0 ∈ Edf.allJobs tasks horizon,
          e.2.core = j0.core ∧ e.2.release_time < horizon) := by
  intro fut
  induction fut with
  | nil => intro rdy ctr hf hr; exact ⟨hf, hr⟩
  | cons e rest ih =>
    intro rdy ctr hf hr
    obtain ⟨k, j⟩ := e
    rw [Edf.drain]
    by_cases hk : k.1 ≤ now
    · rw [if_pos hk]
      refine ih _ _ (fun e2 he2 => hf e2 (List.mem_cons_of_mem _ he2)) ?_
      intro e2 he2
      rcases (mem_insertS _ _ _ _).mp he2 with rfl | he3
      · obtain ⟨hkey, hmem⟩ := hf (k, j) (List.mem_cons_self _ _)
        refine ⟨j, hmem, rfl, ?_⟩
        calc j.release_time = k.1 := hkey.symm
          _ ≤ now := hk
          _ < horizon := hnow
      · exact hr e2 he3
    · rw [if_neg hk]
      exact ⟨hf, hr⟩

lemma execSegment_prov (tasks : List Edf.Task) (horizon : ℚ) (s : Edf.SimState)
    (fut : List ((ℚ × ℕ) × Edf.Job)) (rdyRest : List ((ℚ × ℚ × ℕ) × Edf.Job))
    (ctr : ℕ) (job : Edf.Job) (exec : ℚ)
    (hs : Edf.ProvInv tasks horizon s)
    (hfut : ∀ e ∈ fut, e.1.1 = e.2.release_time ∧ e.2 ∈ Edf.allJobs tasks horizon)
    (hrdy : ∀ e ∈ rdyRest, ∃ j0 ∈ Edf.allJobs tasks horizon,
      e.2.core = j0.core ∧ e.2.release_time < horizon)
    (hjob : ∃ j0 ∈ Edf.allJobs tasks horizon,
      job.core = j0.core ∧ job.release_time < horizon) :
    Edf.ProvInv tasks horizon (Edf.execSegment horizon s fut rdyRest ctr job exec) := by
  obtain ⟨j0, hj0, hcore, hrel⟩ := hjob
  obtain ⟨hsf, hsr, hst, hsm⟩ := hs
  have htl : ∀ e ∈ s.timeline
      ++ [(⟨job.task.name, some job.inst, s.now, min (s.now + exec) horizon,
          some job.absolute_deadline,
          decide (job.remaining_time - exec ≤ EPSILON)⟩ : Edf.TimelineEntry)],
      ∀ i, e.job = some i → ∃ j1 ∈ Edf.allJobs tasks horizon,
        Edf.jkey j1 = (e.task, i) ∧ j1.release_time < horizon := by
    intro e he i hei
    rcases List.mem_append.mp he with he1 | he1
    · exact hst e he1 i hei
    · have he2 : e = (⟨job.task.name, some job.inst, s.now,
          min (s.now + exec) horizon, some job.absolute_deadline,
          decide (job.remaining_time - exec ≤ EPSILON)⟩ : Edf.TimelineEntry) := by
        simpa using he1
      subst he2
      refine ⟨j0, hj0, ?_, core_release hcore ▸ hrel⟩
      simp only at hei
      rw [Edf.jkey, ← core_task hcore, ← core_inst hcore]
      injection hei with hei2
      rw [hei2]
  rw [Edf.execSegment]
  by_cases h1 : job.remaining_time - exec ≤ EPSILON
  · simp only [h1, if_true, decide_eq_true_eq, if_pos]
    refine ⟨hfut, hrdy, ?_, ?_⟩
    · simpa [h1] using htl
    · intro j hj
      by_cases hmiss : (({ job with remaining_time := job.remaining_time - exec, completed_at := some (min (s.now + exec) horizon) } : Edf.Job)).deadline_missed = true
      · rw [if_pos hmiss] at hj
        rcases List.mem_append.mp hj with hj1 | hj1
        · rcases List.mem_append.mp hj1 with hj2 | hj2
          · exact hsm j (List.mem_append.mpr (Or.inl hj2))
          · have hjv : j = ({ job with remaining_time := job.remaining_time - exec, completed_at := some (min (s.now + exec) horizon) } : Edf.Job) := by
              simpa using hj2
            subst hjv
            exact ⟨j0, hj0, hcore, hrel⟩
        · exact hsm j (List.mem_append.mpr (Or.inr hj1))
      · rw [if_neg hmiss] at hj
        exact hsm j hj
  · simp only [h1, if_false, decide_eq_true_eq, if_neg, not_false_iff]
    by_cases h2 : min (s.now + exec) horizon < horizon
    · rw [if_pos h2]
      refine ⟨hfut, ?_, ?_, hsm⟩
      · intro e he
        rcases (mem_insertS _ _ _ _).mp he with rfl | he2
        · exact ⟨j0, hj0, hcore, hrel⟩
        · exact hrdy e he2
      · simpa [h1] using htl
    · rw [if_neg h2]
      refine ⟨hfut, hrdy, ?_, ?_⟩
      · simpa [h1] using htl
      · intro j hj
        have hj2 : j ∈ s.missed ++ (s.unfinished ++ [({ job with remaining_time := job.remaining_time - exec } : Edf.Job)]) := by
          simpa using hj
        rcases List.mem_append.mp hj2 with hj3 | hj3
        · exact hsm j (List.mem_append.mpr (Or.inl hj3))
        · rcases List.mem_append.mp hj3 with hj4 | hj4
          · exact hsm j (List.mem_append.mpr (Or.inr hj4))
          · have hjv : j = ({ job with remaining_time := job.remaining_time - exec } : Edf.Job) := by
              simpa using hj4
            subst hjv
            exact ⟨j0, hj0, hcore, hrel⟩

lemma simStepRun_prov (tasks : List Edf.Task) (horizon : ℚ) (s : Edf.SimState)
    (fut : List ((ℚ × ℕ) × Edf.Job)) (rdyRest : List ((ℚ × ℚ × ℕ) × Edf.Job))
    (ctr : ℕ) (job : Edf.Job)
    (hs : Edf.ProvInv tasks horizon s)
    (hfut : ∀ e ∈ fut, e.1.1 = e.2.release_time ∧ e.2 ∈ Edf.allJobs tasks horizon)
    (hrdy : ∀ e ∈ rdyRest, ∃ j0 ∈ Edf.allJobs tasks horizon,
      e.2.core = j0.core ∧ e.2.release_time < horizon)
    (hjob : ∃ j0 ∈ Edf.allJobs tasks horizon,
      job.core = j0.core ∧ job.release_time < horizon) :
    Edf.ProvInv tasks horizon
      (Sum.elim id id (Edf.simStepRun horizon s fut rdyRest ctr job)) := by
  obtain ⟨hsf, hsr, hst, hsm⟩ := hs
  simp only [Edf.simStepRun]
  split_ifs with h1 h2
  · simp only [Sum.elim_inr, id]
    exact ⟨hfut, hrdy, hst, hsm⟩
  · simp only [Sum.elim_inl, id]
    exact execSegment_prov tasks horizon s fut rdyRest ctr job _
      ⟨hsf, hsr, hst, hsm⟩ hfut hrdy hjob
  · simp only [Sum.elim_inl, id]
    exact execSegment_prov tasks horizon s fut rdyRest ctr job _
      ⟨hsf, hsr, hst, hsm⟩ hfut hrdy hjob

lemma simStep_prov (tasks : List Edf.Task) (horizon : ℚ) (s : Edf.SimState)
    (hnow : s.now < horizon) (hs : Edf.ProvInv tasks horizon s) :
    Edf.ProvInv tasks horizon (Sum.elim id id (Edf.simStep horizon s)) := by
  obtain ⟨hsf, hsr, hst, hsm⟩ := hs
  have hdp := drain_prov tasks horizon s.now hnow s.future s.ready s.readyCtr hsf hsr
  rcases hdrain : Edf.drain s.now s.future s.ready s.readyCtr with ⟨fut, rdyd, ctr⟩
  rw [hdrain] at hdp
  obtain ⟨hdf, hdr⟩ := hdp
  cases rdyd with
  | nil =>
    cases fut with
    | nil =>
      simp only [Edf.simStep, hdrain]
      by_cases hlt : s.now < horizon
      · rw [if_pos hlt]
        simp only [Sum.elim_inr, id]
        refine ⟨by simp, by simp, ?_, by simpa using hsm⟩
        intro e he i hei
        rcases List.mem_append.mp he with he1 | he1
        · exact hst e he1 i hei
        · have heq : e = (⟨Edf.idleName, none, s.now, horizon, none, true⟩ :
              Edf.TimelineEntry) := by simpa using he1
          subst heq
          simp at hei
      · rw [if_neg hlt]
        simp only [Sum.elim_inr, id]
        exact ⟨by simp, by simp, hst, hsm⟩
    | cons f fr =>
      simp only [Edf.simStep, hdrain]
      by_cases hgt : min f.1.1 horizon > s.now + EPSILON
      · rw [if_pos hgt]
        simp only [Sum.elim_inl, id]
        refine ⟨hdf, by simp, ?_, hsm⟩
        intro e he i hei
        rcases List.mem_append.mp he with he1 | he1
        · exact hst e he1 i hei
        · have heq : e = (⟨Edf.idleName, none, s.now, min f.1.1 horizon, none, true⟩ :
              Edf.TimelineEntry) := by simpa using he1
          subst heq
          simp at hei
      · rw [if_neg hgt]
        simp only [Sum.elim_inl, id]
        exact ⟨hdf, by simp, hst, hsm⟩
  | cons rh rdyRest =>
    obtain ⟨rk, job⟩ := rh
    simp only [Edf.simStep, hdrain]
    by_cases hrem : job.remaining_time ≤ EPSILON
    · rw [if_pos hrem]
      simp only [Sum.elim_inl, id]
      exact ⟨hdf, fun e he => hdr e (List.mem_cons_of_mem _ he), hst, hsm⟩
    · rw [if_neg hrem]
      obtain ⟨j0, hj0, hcore, hrel⟩ := hdr (rk, job) (List.mem_cons_self _ _)
      refine simStepRun_prov tasks horizon s fut rdyRest ctr _
        ⟨hsf, hsr, hst, hsm⟩ hdf (fun e he => hdr e (List.mem_cons_of_mem _ he)) ?_
      by_cases hstart : job.started_at = none
      · rw [if_pos hstart]
        exact ⟨j0, hj0, hcore, hrel⟩
      · rw [if_neg hstart]
        exact ⟨j0, hj0, hcore, hrel⟩

lemma simLoop_prov (tasks : List Edf.Task) (horizon : ℚ) :
    ∀ (fuel : ℕ) (s : Edf.SimState), Edf.ProvInv tasks horizon s →
      Edf.ProvInv tasks horizon (Edf.simLoop horizon fuel s) := by
  intro fuel
  induction fuel with
  | zero => intro s hs; exact hs
  | succ fuel ih =>
    intro s hs
    rw [Edf.simLoop]
    by_cases hcond : (¬ s.future = [] ∨ ¬ s.ready = []) ∧ s.now < horizon
    · rw [if_pos hcond]
      have hstep := simStep_prov tasks horizon s hcond.2 hs
      cases hs2 : Edf.simStep horizon s with
      | inl s2 =>
        rw [hs2] at hstep
        exact ih s2 (by simpa using hstep)
      | inr s2 =>
        rw [hs2] at hstep
        simpa using hstep
    · rw [if_neg hcond]
      exact hs

lemma mergeFold_mem (Q : String → Option ℕ → Prop) :
    ∀ (l acc : List Edf.TimelineEntry),
      (∀ a ∈ acc, Q a.task a.job) → (∀ e ∈ l, Q e.task e.job) →
      ∀ a ∈ l.foldl Edf.mergeStep acc, Q a.task a.job := by
  intro l
  induction l with
  | nil => intro acc hacc _ a ha; exact hacc a ha
  | cons e l ih =>
    intro acc hacc hl a ha
    refine ih _ ?_ (fun u hu => hl u (List.mem_cons_of_mem _ hu)) a ha
    intro b hb
    rw [Edf.mergeStep.eq_def] at hb
    by_cases hd : e.duration ≤ EPSILON
    · rw [if_pos hd] at hb
      exact hacc b hb
    · rw [if_neg hd] at hb
      cases acc with
      | nil =>
        have hbe : b = e := by simpa using hb
        rw [hbe]
        exact hl e (List.mem_cons_self _ _)
      | cons last rest =>
        dsimp only at hb
        by_cases hm : e.task = last.task ∧ e.job = last.job ∧
            e.deadline = last.deadline ∧ |e.start - last.stop| ≤ EPSILON
        · rw [if_pos hm] at hb
          rcases List.mem_cons.mp hb with rfl | hb2
          · exact hacc last (List.mem_cons_self _ _)
          · exact hacc b (List.mem_cons_of_mem _ hb2)
        · rw [if_neg hm] at hb
          rcases List.mem_cons.mp hb with rfl | hb2
          · exact hl b (List.mem_cons_self _ _)
          · exact hacc b hb2

lemma merge_timeline_keys (Q : String → Option ℕ → Prop)
    (tl : List Edf.TimelineEntry) (h : ∀ e ∈ tl, Q e.task e.job) :
    ∀ e ∈ Edf.merge_timeline tl, Q e.task e.job := by
  intro e he
  rw [Edf.merge_timeline, List.mem_reverse] at he
  exact mergeFold_mem Q tl [] (by simp) h e he

lemma sweep_mem (rdy : List ((ℚ × ℚ × ℕ) × Edf.Job)) :
    ∀ (acc : List Edf.Job) (j : Edf.Job),
      j ∈ rdy.foldl
        (fun acc e =>
          if e.2.remaining_time > EPSILON ∧ ¬ e.2 ∈ acc then acc ++ [e.2] else acc)
        acc →
      j ∈ acc ∨ ∃ e ∈ rdy, j = e.2 := by
  induction rdy with
  | nil => intro acc j hj; exact Or.inl hj
  | cons e rest ih =>
    intro acc j hj
    rcases ih _ j hj with h1 | h1
    · dsimp only at h1
      by_cases hc : e.2.remaining_time > EPSILON ∧ ¬ e.2 ∈ acc
      · rw [if_pos hc] at h1
        rcases List.mem_append.mp h1 with h2 | h2
        · exact Or.inl h2
        · exact Or.inr ⟨e, List.mem_cons_self _ _, by simpa using h2⟩
      · rw [if_neg hc] at h1
        exact Or.inl h1
    · obtain ⟨e2, he2, hj2⟩ := h1
      exact Or.inr ⟨e2, List.mem_cons_of_mem _ he2, hj2⟩

lemma simulate_edf_prov (tasks : List Edf.Task) (horizon : ℚ) (hhor : 0 ≤ horizon)
    (res : Edf.SimResult) (hres : Edf.simulate_edf tasks horizon = Except.ok res) :
    (∀ e ∈ res.timeline, ∀ i, e.job = some i → ∃ j0 ∈ Edf.allJobs tasks horizon,
      Edf.jkey j0 = (e.task, i) ∧ j0.release_time < horizon) ∧
    (∀ j ∈ res.missed_deadlines ++ res.unfinished_jobs,
      ∃ j0 ∈ Edf.allJobs tasks horizon,
        j.core = j0.core ∧ j.release_time < horizon) := by
  have hinv := simLoop_prov tasks horizon (Edf.simFuel tasks horizon)
    ⟨(Edf.initFuture tasks horizon).1, [], 0, 0, [], [], []⟩
    ⟨initFuture_prop tasks horizon, by simp, by simp, by simp⟩
  obtain ⟨hif, hir, hit, him⟩ := hinv
  rw [Edf.simulate_edf, if_neg (not_lt.mpr hhor)] at hres
  have hr := Except.ok.inj hres
  subst hr
  constructor
  · intro e he i hei
    refine merge_timeline_keys
      (fun name jb => ∀ i, jb = some i → ∃ j0 ∈ Edf.allJobs tasks horizon,
        Edf.jkey j0 = (name, i) ∧ j0.release_time < horizon)
      _ ?_ e he i hei
    intro e2 he2 i2 hei2
    exact hit e2 he2 i2 hei2
  · intro j hj
    rcases List.mem_append.mp hj with hj1 | hj1
    · exact him j (List.mem_append.mpr (Or.inl hj1))
    · rcases sweep_mem _ _ j hj1 with h2 | h2
      · exact him j (List.mem_append.mpr (Or.inr h2))
      · obtain ⟨e2, he2, rfl⟩ := h2
        exact hir e2 he2

/-- C9: for a task with positive period whose instance k is released exactly
at the horizon, generate_jobs with include_job_at_horizon=False still
includes instance k (the stop test is release > horizon + EPSILON), and for
a task set with distinct names simulate_edf reports that job nowhere: no
timeline entry is attributed to (task, k), and no job of missed_deadlines
or unfinished_jobs carries that identity. -/
theorem c9_horizon_job (tasks : List Edf.Task) (horizon : ℚ) (t : Edf.Task)
    (k : ℕ) (ht : t ∈ tasks) (hk : 1 ≤ k) (hT : 0 < t.period)
    (hhor : 0 ≤ horizon)
    (hnames : (tasks.map (fun u => u.name)).Nodup)
    (hrel : t.offset + ((k : ℚ) - 1) * t.period = horizon) :
    (∃ jobs, Edf.generate_jobs t horizon false = Except.ok jobs ∧
      Edf.mkJob t k ∈ jobs) ∧
    ∃ res, Edf.simulate_edf tasks horizon = Except.ok res ∧
      (∀ e ∈ res.timeline, ¬ (e.task = t.name ∧ e.job = some k)) ∧
      (∀ j ∈ res.missed_deadlines, Edf.jkey j ≠ (t.name, k)) ∧
      (∀ j ∈ res.unfinished_jobs, Edf.jkey j ≠ (t.name, k)) := by
  have hmem : Edf.mkJob t k ∈ Edf.generateJobsList t horizon false := by
    rw [generateJobsList_mem t horizon false hT k hk]
    rw [hrel]
    simp only [if_neg Bool.false_ne_true]
    rw [EPSILON]
    norm_num
  have hall : Edf.mkJob t k ∈ Edf.allJobs tasks horizon :=
    mem_allJobs_of_gen tasks horizon ht hmem
  have hrelease : (Edf.mkJob t k).release_time = horizon := hrel
  have hkey : Edf.jkey (Edf.mkJob t k) = (t.name, k) := rfl
  obtain ⟨res, hres⟩ : ∃ res, Edf.simulate_edf tasks horizon = Except.ok res := by
    rw [Edf.simulate_edf, if_neg (not_lt.mpr hhor)]
    exact ⟨_, rfl⟩
  obtain ⟨htl, hmu⟩ := simulate_edf_prov tasks horizon hhor res hres
  refine ⟨⟨Edf.generateJobsList t horizon false, ?_, hmem⟩, res, hres, ?_, ?_, ?_⟩
  · rw [Edf.generate_jobs, if_neg (not_lt.mpr hhor)]
  · rintro e he ⟨htask, hjob⟩
    obtain ⟨j0, hj0, hj0key, hj0rel⟩ := htl e he k hjob
    have : j0 = Edf.mkJob t k := by
      refine allJobs_key_eq tasks horizon hnames hj0 hall ?_
      rw [hj0key, hkey, htask]
    rw [this, hrelease] at hj0rel
    exact lt_irrefl horizon hj0rel
  · intro j hj hjk
    obtain ⟨j0, hj0, hcore, hjrel⟩ := hmu j (List.mem_append.mpr (Or.inl hj))
    have hkey0 : Edf.jkey j0 = (t.name, k) := by
      rw [Edf.jkey, ← core_task hcore, ← core_inst hcore]
      exact hjk
    have : j0 = Edf.mkJob t k := allJobs_key_eq tasks horizon hnames hj0 hall
      (by rw [hkey0, hkey])
    rw [core_release hcore, this, hrelease] at hjrel
    exact lt_irrefl horizon hjrel
  · intro j hj hjk
    obtain ⟨j0, hj0, hcore, hjrel⟩ := hmu j (List.mem_append.mpr (Or.inr hj))
    have hkey0 : Edf.jkey j0 = (t.name, k) := by
      rw [Edf.jkey, ← core_task hcore, ← core_inst hcore]
      exact hjk
    have : j0 = Edf.mkJob t k := allJobs_key_eq tasks horizon hnames hj0 hall
      (by rw [hkey0, hkey])
    rw [core_release hcore, this, hrelease] at hjrel
    exact lt_irrefl horizon hjrel

/-- C9 witness: the single task A with C=1, T=D=2, offset 0 over horizon 4
releases instance 3 exactly at the horizon; it is generated, yet absent from
the timeline, missed_deadlines and unfinished_jobs of simulate_edf. -/
theorem c9_horizon_job_witness :
    ((⟨"A", 1, 2, 2, 0⟩ : Edf.Task) ∈ [(⟨"A", 1, 2, 2, 0⟩ : Edf.Task)] ∧
      (⟨"A", 1, 2, 2, 0⟩ : Edf.Task).offset
        + ((3 : ℚ) - 1) * (⟨"A", 1, 2, 2, 0⟩ : Edf.Task).period = 4) ∧
    ((∃ jobs, Edf.generate_jobs ⟨"A", 1, 2, 2, 0⟩ 4 false = Except.ok jobs ∧
        Edf.mkJob ⟨"A", 1, 2, 2, 0⟩ 3 ∈ jobs) ∧
      ∃ res, Edf.simulate_edf [⟨"A", 1, 2, 2, 0⟩] 4 = Except.ok res ∧
        (∀ e ∈ res.timeline,
          ¬ (e.task = (⟨"A", 1, 2, 2, 0⟩ : Edf.Task).name ∧ e.job = some 3)) ∧
        (∀ j ∈ res.missed_deadlines,
          Edf.jkey j ≠ ((⟨"A", 1, 2, 2, 0⟩ : Edf.Task).name, 3)) ∧
        (∀ j ∈ res.unfinished_jobs,
          Edf.jkey j ≠ ((⟨"A", 1, 2, 2, 0⟩ : Edf.Task).name, 3))) := by
  refine ⟨⟨List.mem_singleton.mpr rfl, by norm_num⟩, ?_⟩
  exact c9_horizon_job [⟨"A", 1, 2, 2, 0⟩] 4 ⟨"A", 1, 2, 2, 0⟩ 3
    (List.mem_singleton.mpr rfl) (by norm_num) (by norm_num) (by norm_num)
    (by simp) (by norm_num)

lemma EPSILON_pos : (0 : ℚ) < EPSILON := by rw [EPSILON]; norm_num

lemma EPSILON_lt_one : EPSILON < (1 : ℚ) := by rw [EPSILON]; norm_num

lemma isIntQ_intCast (n : ℤ) : Edf.isIntQ (n : ℚ) := ⟨n, rfl⟩

lemma isIntQ_natCast (n : ℕ) : Edf.isIntQ (n : ℚ) := ⟨n, by push_cast; ring⟩

lemma isIntQ_zero : Edf.isIntQ (0 : ℚ) := ⟨0, by norm_num⟩

lemma isIntQ_one : Edf.isIntQ (1 : ℚ) := ⟨1, by norm_num⟩

lemma isIntQ_add {p q : ℚ} (hp : Edf.isIntQ p) (hq : Edf.isIntQ q) :
    Edf.isIntQ (p + q) := by
  obtain ⟨a, rfl⟩ := hp
  obtain ⟨b, rfl⟩ := hq
  exact ⟨a + b, by push_cast; ring⟩

lemma isIntQ_sub {p q : ℚ} (hp : Edf.isIntQ p) (hq : Edf.isIntQ q) :
    Edf.isIntQ (p - q) := by
  obtain ⟨a, rfl⟩ := hp
  obtain ⟨b, rfl⟩ := hq
  exact ⟨a - b, by push_cast; ring⟩

lemma isIntQ_mul {p q : ℚ} (hp : Edf.isIntQ p) (hq : Edf.isIntQ q) :
    Edf.isIntQ (p * q) := by
  obtain ⟨a, rfl⟩ := hp
  obtain ⟨b, rfl⟩ := hq
  exact ⟨a * b, by push_cast; ring⟩

lemma isIntQ_min {p q : ℚ} (hp : Edf.isIntQ p) (hq : Edf.isIntQ q) :
    Edf.isIntQ (min p q) := by
  rcases le_total p q with h | h
  · rwa [min_eq_left h]
  · rwa [min_eq_right h]

lemma isIntQ_max {p q : ℚ} (hp : Edf.isIntQ p) (hq : Edf.isIntQ q) :
    Edf.isIntQ (max p q) := by
  rcases le_total p q with h | h
  · rwa [max_eq_right h]
  · rwa [max_eq_left h]

lemma int_add_one_le {p q : ℚ} (hp : Edf.isIntQ p) (hq : Edf.isIntQ q)
    (h : p < q) : p + 1 ≤ q := by
  obtain ⟨a, rfl⟩ := hp
  obtain ⟨b, rfl⟩ := hq
  have hab : a < b := by exact_mod_cast h
  have : a + 1 ≤ b := hab
  calc (a : ℚ) + 1 = ((a + 1 : ℤ) : ℚ) := by push_cast; ring
    _ ≤ (b : ℚ) := by exact_mod_cast this

lemma int_one_le_of_pos {q : ℚ} (hq : Edf.isIntQ q) (h : 0 < q) : 1 ≤ q := by
  have := int_add_one_le isIntQ_zero hq h
  linarith

lemma int_eps_lt {p q : ℚ} (hp : Edf.isIntQ p) (hq : Edf.isIntQ q)
    (h : p < q) : p + EPSILON < q := by
  have h1 := int_add_one_le hp hq h
  have := EPSILON_lt_one
  linarith

lemma int_eq_zero_of_le_eps {q : ℚ} (hq : Edf.isIntQ q) (h0 : 0 ≤ q)
    (he : q ≤ EPSILON) : q = 0 := by
  by_contra hne
  have hpos : 0 < q := lt_of_le_of_ne h0 (Ne.symm hne)
  have := int_one_le_of_pos hq hpos
  have := EPSILON_lt_one
  linarith

lemma sumDur_append (key : String × ℕ) (tl l2 : List Edf.TimelineEntry) :
    Edf.sumDur key (tl ++ l2) = Edf.sumDur key tl + Edf.sumDur key l2 := by
  rw [Edf.sumDur, Edf.sumDur, Edf.sumDur, List.filter_append, List.map_append,
    List.sum_append]

lemma sumDur_single (key : String × ℕ) (e : Edf.TimelineEntry) :
    Edf.sumDur key [e]
      = if e.task = key.1 ∧ e.job = some key.2 then e.duration else 0 := by
  rw [Edf.sumDur]
  by_cases h : e.task = key.1 ∧ e.job = some key.2
  · rw [if_pos h]
    simp [List.filter, h]
  · rw [if_neg h]
    have : (decide (e.task = key.1 ∧ e.job = some key.2)) = false := by
      simpa using h
    simp [List.filter, this]

lemma sumDur_snoc_ne (key : String × ℕ) (tl : List Edf.TimelineEntry)
    (e : Edf.TimelineEntry) (h : ¬ (e.task = key.1 ∧ e.job = some key.2)) :
    Edf.sumDur key (tl ++ [e]) = Edf.sumDur key tl := by
  rw [sumDur_append, sumDur_single, if_neg h, add_zero]

lemma sumDur_snoc_eq (key : String × ℕ) (tl : List Edf.TimelineEntry)
    (e : Edf.TimelineEntry) (h : e.task = key.1 ∧ e.job = some key.2) :
    Edf.sumDur key (tl ++ [e]) = Edf.sumDur key tl + e.duration := by
  rw [sumDur_append, sumDur_single, if_pos h]

lemma coversB_append {a b c : ℚ} {tl l2 : List Edf.TimelineEntry}
    (h1 : Edf.coversB a b tl = true) (h2 : Edf.coversB b c l2 = true) :
    Edf.coversB a c (tl ++ l2) = true := by
  induction tl generalizing a with
  | nil =>
    rw [Edf.coversB] at h1
    have hab : a = b := by simpa using h1
    rw [hab]
    simpa using h2
  | cons e rest ih =>
    rw [Edf.coversB] at h1
    rw [List.cons_append, Edf.coversB]
    simp only [Bool.and_eq_true, decide_eq_true_eq] at h1 ⊢
    exact ⟨h1.1, ih h1.2⟩

lemma coversB_snoc {a b : ℚ} {tl : List Edf.TimelineEntry}
    (h1 : Edf.coversB a b tl = true) (e : Edf.TimelineEntry)
    (hstart : e.start = b) :
    Edf.coversB a e.stop (tl ++ [e]) = true := by
  refine coversB_append h1 ?_
  rw [Edf.coversB, Edf.coversB]
  simp [hstart]

lemma allJobs_task_mem {tasks : List Edf.Task} {horizon : ℚ} {j : Edf.Job}
    (hj : j ∈ Edf.allJobs tasks horizon) : j.task ∈ tasks := by
  obtain ⟨t, ht, i, _, rfl⟩ := allJobs_shape _ _ _ hj
  exact ht

lemma allJobs_pristine {tasks : List Edf.Task} {horizon : ℚ} {j : Edf.Job}
    (hj : j ∈ Edf.allJobs tasks horizon) :
    j.remaining_time = j.task.computation_time := by
  obtain ⟨t, ht, i, _, rfl⟩ := allJobs_shape _ _ _ hj
  rfl

lemma allJobs_release_int {tasks : List Edf.Task} {horizon : ℚ}
    (hint : Edf.IntTasks tasks) {j : Edf.Job}
    (hj : j ∈ Edf.allJobs tasks horizon) : Edf.isIntQ j.release_time := by
  obtain ⟨t, ht, i, _, rfl⟩ := allJobs_shape _ _ _ hj
  obtain ⟨_, _, _, _, hT, hoff⟩ := hint t ht
  exact isIntQ_add hoff (isIntQ_mul (isIntQ_sub (isIntQ_natCast i) isIntQ_one) hT)

lemma allJobs_comp_int {tasks : List Edf.Task} {horizon : ℚ}
    (hint : Edf.IntTasks tasks) {j : Edf.Job}
    (hj : j ∈ Edf.allJobs tasks horizon) :
    Edf.isIntQ j.task.computation_time ∧ 1 ≤ j.task.computation_time := by
  obtain ⟨hC, _, _, hCi, _, _⟩ := hint j.task (allJobs_task_mem hj)
  exact ⟨hCi, int_one_le_of_pos hCi hC⟩

lemma drain_acc (tasks : List Edf.Task) (horizon now : ℚ)
    (tl : List Edf.TimelineEntry) (hint : Edf.IntTasks tasks) :
    ∀ (fut : List ((ℚ × ℕ) × Edf.Job)) (rdy : List ((ℚ × ℚ × ℕ) × Edf.Job))
      (ctr : ℕ),
      (∀ e ∈ fut, e.1.1 = e.2.release_time ∧ e.2 ∈ Edf.allJobs tasks horizon ∧
        Edf.sumDur (Edf.jkey e.2) tl = 0) →
      (∀ e ∈ rdy,
        (∃ j0 ∈ Edf.allJobs tasks horizon, e.2.core = j0.core) ∧
        Edf.isIntQ e.2.remaining_time ∧ 1 ≤ e.2.remaining_time ∧
        Edf.sumDur (Edf.jkey e.2) tl
          = e.2.task.computation_time - e.2.remaining_time) →
      (∀ e ∈ (Edf.drain now fut rdy ctr).1,
        e.1.1 = e.2.release_time ∧ e.2 ∈ Edf.allJobs tasks horizon ∧
        Edf.sumDur (Edf.jkey e.2) tl = 0) ∧
      (∀ e ∈ (Edf.drain now fut rdy ctr).2.1,
        (∃ j0 ∈ Edf.allJobs tasks horizon, e.2.core = j0.core) ∧
        Edf.isIntQ e.2.remaining_time ∧ 1 ≤ e.2.remaining_time ∧
        Edf.sumDur (Edf.jkey e.2) tl
          = e.2.task.computation_time - e.2.remaining_time) ∧
      (Edf.qkeysOf (Edf.drain now fut rdy ctr).1
        (Edf.drain now fut rdy ctr).2.1).Perm (Edf.qkeysOf fut rdy) ∧
      (∀ kj rest2, (Edf.drain now fut rdy ctr).1 = kj :: rest2 →
        now < kj.1.1) := by
  intro fut
  induction fut with
  | nil =>
    intro rdy ctr hf hr
    refine ⟨hf, hr, List.Perm.refl _, ?_⟩
    intro kj rest2 h
    rw [Edf.drain] at h
    exact absurd h (by simp)
  | cons e rest ih =>
    intro rdy ctr hf hr
    obtain ⟨k, j⟩ := e
    rw [Edf.drain]
    by_cases hk : k.1 ≤ now
    · rw [if_pos hk]
      obtain ⟨hkey, hmem, hsum⟩ := hf (k, j) (List.mem_cons_self _ _)
      have hCint := allJobs_comp_int hint hmem
      have hr2 : ∀ e2 ∈ Edf.pushReady
          ((j.absolute_deadline, j.release_time, ctr), j) rdy,
          (∃ j0 ∈ Edf.allJobs tasks horizon, e2.2.core = j0.core) ∧
          Edf.isIntQ e2.2.remaining_time ∧ 1 ≤ e2.2.remaining_time ∧
          Edf.sumDur (Edf.jkey e2.2) tl
            = e2.2.task.computation_time - e2.2.remaining_time := by
        intro e2 he2
        rcases (mem_insertS _ _ _ _).mp he2 with rfl | he3
        · refine ⟨⟨j, hmem, rfl⟩, ?_, ?_, ?_⟩
          · rw [allJobs_pristine hmem]
            exact hCint.1
          · rw [allJobs_pristine hmem]
            exact hCint.2
          · rw [allJobs_pristine hmem, hsum]
            ring
        · exact hr e2 he3
      obtain ⟨ih1, ih2, ih3, ih4⟩ := ih _ (ctr + 1)
        (fun e2 he2 => hf e2 (List.mem_cons_of_mem _ he2)) hr2
      refine ⟨ih1, ih2, ?_, ih4⟩
      refine ih3.trans ?_
      rw [Edf.qkeysOf, Edf.qkeysOf, List.map_cons]
      have hp1 := ((insertS_perm (fun a b => lex3Lt a.1 b.1)
        ((j.absolute_deadline, j.release_time, ctr), j) rdy).map
          (fun e => Edf.jkey e.2))
      rw [List.map_cons] at hp1
      have hp2 := List.Perm.append_left
        (rest.map (fun e => Edf.jkey e.2)) hp1
      exact hp2.trans List.perm_middle
    · rw [if_neg hk]
      refine ⟨hf, hr, List.Perm.refl _, ?_⟩
      intro kj rest2 h
      injection h with h1 h2
      rw [← h1]
      exact lt_of_not_le hk

lemma sumDur_cons (key : String × ℕ) (e : Edf.TimelineEntry)
    (l : List Edf.TimelineEntry) :
    Edf.sumDur key (e :: l) = Edf.sumDur key [e] + Edf.sumDur key l := by
  have : e :: l = [e] ++ l := rfl
  rw [this, sumDur_append]

lemma sumDur_reverse (key : String × ℕ) (l : List Edf.TimelineEntry) :
    Edf.sumDur key l.reverse = Edf.sumDur key l := by
  rw [Edf.sumDur, Edf.sumDur, List.filter_reverse, List.map_reverse,
    List.sum_reverse]

lemma coversB_unsnoc :
    ∀ (l : List Edf.TimelineEntry) (f : Edf.TimelineEntry) (x z : ℚ),
      Edf.coversB x z (l ++ [f]) = true →
      Edf.coversB x f.start l = true ∧ f.stop = z := by
  intro l
  induction l with
  | nil =>
    intro f x z h
    rw [List.nil_append, Edf.coversB, Edf.coversB] at h
    simp only [Bool.and_eq_true, decide_eq_true_eq] at h
    obtain ⟨h1, h2⟩ := h
    have h2' : f.stop = z := by simpa [Edf.coversB] using h2
    refine ⟨?_, h2'⟩
    rw [Edf.coversB]
    simp [h1]
  | cons e rest ih =>
    intro f x z h
    rw [List.cons_append, Edf.coversB] at h
    simp only [Bool.and_eq_true, decide_eq_true_eq] at h
    obtain ⟨h1, h2⟩ := h
    obtain ⟨ih1, ih2⟩ := ih f e.stop z h2
    refine ⟨?_, ih2⟩
    rw [Edf.coversB]
    simp only [Bool.and_eq_true, decide_eq_true_eq]
    exact ⟨h1, ih1⟩

lemma mergeFold_completed (Q : String → Option ℕ → Prop) :
    ∀ (l acc : List Edf.TimelineEntry),
      (∀ a ∈ acc, a.completed = true → Q a.task a.job) →
      (∀ e ∈ l, e.completed = true → Q e.task e.job) →
      ∀ a ∈ l.foldl Edf.mergeStep acc, a.completed = true → Q a.task a.job := by
  intro l
  induction l with
  | nil => intro acc hacc _ a ha; exact hacc a ha
  | cons e l ih =>
    intro acc hacc hl a ha
    refine ih _ ?_ (fun u hu => hl u (List.mem_cons_of_mem _ hu)) a ha
    intro b hb hbc
    rw [Edf.mergeStep.eq_def] at hb
    by_cases hd : e.duration ≤ EPSILON
    · rw [if_pos hd] at hb
      exact hacc b hb hbc
    · rw [if_neg hd] at hb
      cases acc with
      | nil =>
        have hbe : b = e := by simpa using hb
        rw [hbe] at hbc ⊢
        exact hl e (List.mem_cons_self _ _) hbc
      | cons last rest =>
        dsimp only at hb
        by_cases hm : e.task = last.task ∧ e.job = last.job ∧
            e.deadline = last.deadline ∧ |e.start - last.stop| ≤ EPSILON
        · rw [if_pos hm] at hb
          rcases List.mem_cons.mp hb with rfl | hb2
          · have hq := hl e (List.mem_cons_self _ _) hbc
            rw [hm.1, hm.2.1] at hq
            exact hq
          · exact hacc b (List.mem_cons_of_mem _ hb2) hbc
        · rw [if_neg hm] at hb
          rcases List.mem_cons.mp hb with rfl | hb2
          · exact hl b (List.mem_cons_self _ _) hbc
          · exact hacc b hb2 hbc

lemma sumDur_nil (key : String × ℕ) : Edf.sumDur key [] = 0 := rfl

lemma mergeFold_main :
    ∀ (tl : List Edf.TimelineEntry) (a b : ℚ) (acc : List Edf.TimelineEntry),
      Edf.coversB a b tl = true →
      (∀ e ∈ tl, EPSILON < e.duration) →
      Edf.coversB 0 a acc.reverse = true →
      (∀ e ∈ acc, EPSILON < e.duration) →
      (match acc with | [] => True | last :: _ => last.stop = a) →
      Edf.coversB 0 b ((tl.foldl Edf.mergeStep acc).reverse) = true ∧
      (∀ e ∈ tl.foldl Edf.mergeStep acc, EPSILON < e.duration) ∧
      (∀ key, Edf.sumDur key (tl.foldl Edf.mergeStep acc)
        = Edf.sumDur key acc + Edf.sumDur key tl) := by
  intro tl
  induction tl with
  | nil =>
    intro a b acc hcov hdur hacccov haccdur hhead
    rw [Edf.coversB] at hcov
    have hab : a = b := by simpa using hcov
    rw [List.foldl_nil]
    refine ⟨by rwa [hab] at hacccov, haccdur, ?_⟩
    intro key
    rw [sumDur_nil, add_zero]
  | cons e rest ih =>
    intro a b acc hcov hdur hacccov haccdur hhead
    rw [Edf.coversB] at hcov
    simp only [Bool.and_eq_true, decide_eq_true_eq] at hcov
    obtain ⟨hstart, hcov2⟩ := hcov
    have hde : EPSILON < e.duration := hdur e (List.mem_cons_self _ _)
    have hdur2 : ∀ u ∈ rest, EPSILON < u.duration :=
      fun u hu => hdur u (List.mem_cons_of_mem _ hu)
    rw [List.foldl_cons]
    cases acc with
    | nil =>
      have hstep : Edf.mergeStep [] e = [e] := by
        rw [Edf.mergeStep.eq_def, if_neg (not_le.mpr hde)]
      rw [hstep]
      have ha0 : (0 : ℚ) = a := by simpa [Edf.coversB] using hacccov
      have s1 : Edf.coversB 0 e.stop ([e] : List Edf.TimelineEntry).reverse
          = true := by
        rw [List.reverse_singleton, Edf.coversB, Edf.coversB]
        simp [hstart, ← ha0]
      have s2 : ∀ u ∈ ([e] : List Edf.TimelineEntry), EPSILON < u.duration := by
        intro u hu
        have hue : u = e := by simpa using hu
        rw [hue]
        exact hde
      have s3 : (match ([e] : List Edf.TimelineEntry) with
          | [] => True | last :: _ => last.stop = e.stop) := rfl
      obtain ⟨c1, c2, c3⟩ := ih e.stop b [e] hcov2 hdur2 s1 s2 s3
      refine ⟨c1, c2, ?_⟩
      intro key
      rw [c3 key, sumDur_cons key e rest, sumDur_nil]
      ring
    | cons last rest' =>
      have hlaststop : last.stop = a := hhead
      have hstep : Edf.mergeStep (last :: rest') e =
          if e.task = last.task ∧ e.job = last.job ∧
              e.deadline = last.deadline ∧ |e.start - last.stop| ≤ EPSILON then
            { last with stop := e.stop, completed := e.completed } :: rest'
          else e :: last :: rest' := by
        rw [Edf.mergeStep.eq_def, if_neg (not_le.mpr hde)]
      rw [hstep]
      by_cases hm : e.task = last.task ∧ e.job = last.job ∧
          e.deadline = last.deadline ∧ |e.start - last.stop| ≤ EPSILON
      · rw [if_pos hm]
        have hrevacc : (last :: rest').reverse = rest'.reverse ++ [last] := by
          rw [List.reverse_cons]
        rw [hrevacc] at hacccov
        obtain ⟨hpre, hlast⟩ := coversB_unsnoc rest'.reverse last 0 a hacccov
        have h3 : e.start = last.stop := by rw [hstart, hlaststop]
        have hmergedur : EPSILON <
            ({ last with stop := e.stop, completed := e.completed } :
              Edf.TimelineEntry).duration := by
          have h1 : EPSILON < e.duration := hde
          have h2 : EPSILON < last.duration :=
            haccdur last (List.mem_cons_self _ _)
          rw [Edf.TimelineEntry.duration] at h1 h2 ⊢
          dsimp only at h1 h2 ⊢
          rw [h3] at h1
          have := EPSILON_pos
          linarith
      
        have s1 : Edf.coversB 0 e.stop
            (({ last with stop := e.stop, completed := e.completed } :
              Edf.TimelineEntry) :: rest').reverse = true := by
          rw [List.reverse_cons]
          exact coversB_snoc hpre
            ({ last with stop := e.stop, completed := e.completed } :
              Edf.TimelineEntry) rfl
        have s2 : ∀ u ∈ ({ last with stop := e.stop, completed := e.completed } :
            Edf.TimelineEntry) :: rest', EPSILON < u.duration := by
          intro u hu
          rcases List.mem_cons.mp hu with rfl | hu2
          · exact hmergedur
          · exact haccdur u (List.mem_cons_of_mem _ hu2)
        have s3 : (match (({ last with stop := e.stop, completed := e.completed } :
            Edf.TimelineEntry) :: rest') with
            | [] => True | last2 :: _ => last2.stop = e.stop) := rfl
        obtain ⟨c1, c2, c3⟩ := ih e.stop b _ hcov2 hdur2 s1 s2 s3
        refine ⟨c1, c2, ?_⟩
        intro key
        rw [c3 key, sumDur_cons key e rest]
        have hsc : Edf.sumDur key
            (({ last with stop := e.stop, completed := e.completed } :
              Edf.TimelineEntry) :: rest')
            = Edf.sumDur key (last :: rest') + Edf.sumDur key [e] := by
          rw [sumDur_cons key _ rest', sumDur_cons key last rest']
          rw [sumDur_single, sumDur_single, sumDur_single]
          by_cases hk : e.task = key.1 ∧ e.job = some key.2
          · have hk2 : last.task = key.1 ∧ last.job = some key.2 := by
              rw [← hm.1, ← hm.2.1]; exact hk
            have hkm : (({ last with stop := e.stop, completed := e.completed } :
                Edf.TimelineEntry).task = key.1 ∧
                ({ last with stop := e.stop, completed := e.completed } :
                Edf.TimelineEntry).job = some key.2) := hk2
            rw [if_pos hk, if_pos hk2, if_pos hkm]
            have hdd : ({ last with stop := e.stop, completed := e.completed } :
                Edf.TimelineEntry).duration
                = last.duration + e.duration := by
              rw [Edf.TimelineEntry.duration, Edf.TimelineEntry.duration,
                Edf.TimelineEntry.duration]
              dsimp only
              rw [h3]
              ring
            rw [hdd]
            ring
          · have hk2 : ¬ (last.task = key.1 ∧ last.job = some key.2) := by
              rw [← hm.1, ← hm.2.1]; exact hk
            have hkm : ¬ (({ last with stop := e.stop, completed := e.completed } :
                Edf.TimelineEntry).task = key.1 ∧
                ({ last with stop := e.stop, completed := e.completed } :
                Edf.TimelineEntry).job = some key.2) := hk2
            rw [if_neg hk, if_neg hk2, if_neg hkm]
            ring
        rw [hsc]
        ring
      · rw [if_neg hm]
        have s1 : Edf.coversB 0 e.stop (e :: last :: rest').reverse = true := by
          rw [List.reverse_cons]
          exact coversB_snoc hacccov e hstart
        have s2 : ∀ u ∈ e :: last :: rest', EPSILON < u.duration := by
          intro u hu
          rcases List.mem_cons.mp hu with rfl | hu2
          · exact hde
          · exact haccdur u hu2
        have s3 : (match (e :: last :: rest') with
            | [] => True | last2 :: _ => last2.stop = e.stop) := rfl
        obtain ⟨c1, c2, c3⟩ := ih e.stop b _ hcov2 hdur2 s1 s2 s3
        refine ⟨c1, c2, ?_⟩
        intro key
        rw [c3 key, sumDur_cons key e rest, sumDur_cons key e (last :: rest')]
        ring

lemma foldPush_keys :
    ∀ (jobs : List Edf.Job) (acc : List ((ℚ × ℕ) × Edf.Job) × ℕ),
      ((jobs.foldl
        (fun acc j => (Edf.pushFuture ((j.release_time, acc.2), j) acc.1, acc.2 + 1))
        acc).1.map (fun e => Edf.jkey e.2)).Perm
      (jobs.map Edf.jkey ++ acc.1.map (fun e => Edf.jkey e.2)) := by
  intro jobs
  induction jobs with
  | nil => intro acc; simpa using List.Perm.refl _
  | cons j js ih =>
    intro acc
    rw [List.foldl_cons]
    refine (ih _).trans ?_
    have hp1 : ((Edf.pushFuture ((j.release_time, acc.2), j) acc.1).map
        (fun e => Edf.jkey e.2)).Perm
        (Edf.jkey j :: acc.1.map (fun e => Edf.jkey e.2)) := by
      have := (insertS_perm (fun a b => lex2Lt a.1 b.1)
        ((j.release_time, acc.2), j) acc.1).map (fun e => Edf.jkey e.2)
      rw [List.map_cons] at this
      exact this
    refine (List.Perm.append_left (js.map Edf.jkey) hp1).trans ?_
    rw [List.map_cons]
    exact List.perm_middle

lemma initFuture_keys (tasks : List Edf.Task) (horizon : ℚ) :
    (((Edf.initFuture tasks horizon).1).map (fun e => Edf.jkey e.2)).Perm
      ((Edf.allJobs tasks horizon).map Edf.jkey) := by
  rw [Edf.initFuture, Edf.allJobs]
  suffices h : ∀ (ts : List Edf.Task) (acc : List ((ℚ × ℕ) × Edf.Job) × ℕ),
      ((ts.foldl
        (fun acc t => (Edf.generateJobsList t horizon false).foldl
          (fun acc j => (Edf.pushFuture ((j.release_time, acc.2), j) acc.1, acc.2 + 1))
          acc)
        acc).1.map (fun e => Edf.jkey e.2)).Perm
      ((ts.map (fun t => Edf.generateJobsList t horizon false)).join.map Edf.jkey
        ++ acc.1.map (fun e => Edf.jkey e.2)) by
    have h2 := h tasks ([], 0)
    simpa using h2
  intro ts
  induction ts with
  | nil => intro acc; simpa using List.Perm.refl _
  | cons t ts ih =>
    intro acc
    rw [List.foldl_cons]
    refine (ih _).trans ?_
    have hp1 := foldPush_keys (Edf.generateJobsList t horizon false) acc
    refine (List.Perm.append_left _ hp1).trans ?_
    rw [List.map_cons]
    have hjoin : (Edf.generateJobsList t horizon false ::
        List.map (fun u => Edf.generateJobsList u horizon false) ts).join
        = Edf.generateJobsList t horizon false
          ++ (List.map (fun u => Edf.generateJobsList u horizon false) ts).join := rfl
    rw [hjoin, List.map_append, ← List.append_assoc]
    exact (List.perm_append_comm).append_right _

lemma genList_keys_nodup (t : Edf.Task) (horizon : ℚ) :
    ((Edf.generateJobsList t horizon false).map Edf.jkey).Nodup := by
  rw [Edf.generateJobsList]
  obtain ⟨m, hm⟩ := genAux_shape t
    (if false then horizon + EPSILON else horizon)
    (Edf.jobFuel t (if false then horizon + EPSILON else horizon)) 1
  rw [hm, List.map_map]
  have hinj : Function.Injective (Edf.jkey ∘ Edf.mkJob t) := by
    intro i j h
    exact congrArg Prod.snd h
  exact (List.nodup_range' (s := 1) (n := m)).map hinj

lemma genList_key_name (t : Edf.Task) (horizon : ℚ) (k : String × ℕ)
    (hk : k ∈ (Edf.generateJobsList t horizon false).map Edf.jkey) :
    k.1 = t.name := by
  obtain ⟨j, hj, rfl⟩ := List.mem_map.mp hk
  obtain ⟨i, _, rfl, _⟩ := genAux_sound t _ _ _ _ hj
  rfl

lemma allJobs_keys_nodup (tasks : List Edf.Task) (horizon : ℚ)
    (hnames : (tasks.map (fun t => t.name)).Nodup) :
    ((Edf.allJobs tasks horizon).map Edf.jkey).Nodup := by
  rw [Edf.allJobs, List.map_join, List.map_map]
  rw [List.nodup_join]
  constructor
  · intro l hl
    obtain ⟨t, ht, rfl⟩ := List.mem_map.mp hl
    exact genList_keys_nodup t horizon
  · have hpn : tasks.Pairwise (fun a b => a.name ≠ b.name) :=
      List.pairwise_map.mp hnames
    refine List.pairwise_map.mpr ?_
    refine hpn.imp ?_
    intro a b hne k hka hkb
    have h1 := genList_key_name a horizon k hka
    have h2 := genList_key_name b horizon k hkb
    exact hne (h1 ▸ h2 ▸ rfl)

lemma sumDur_snoc_jobkey (job : Edf.Job) (tl : List Edf.TimelineEntry)
    (seg : Edf.TimelineEntry) (h1 : seg.task = job.task.name)
    (h2 : seg.job = some job.inst) :
    (∀ key, key ≠ Edf.jkey job →
      Edf.sumDur key (tl ++ [seg]) = Edf.sumDur key tl) ∧
    Edf.sumDur (Edf.jkey job) (tl ++ [seg])
      = Edf.sumDur (Edf.jkey job) tl + seg.duration := by
  constructor
  · intro key hk
    refine sumDur_snoc_ne key tl seg ?_
    rintro ⟨ha, hb⟩
    apply hk
    have hx1 : key.1 = job.task.name := by rw [← ha, h1]
    have hx2 : key.2 = job.inst := by
      have : some key.2 = some job.inst := by rw [← hb, h2]
      exact Option.some.inj this
    rw [Edf.jkey]
    exact Prod.ext hx1 hx2
  · refine sumDur_snoc_eq _ _ _ ⟨?_, ?_⟩
    · rw [h1]; rfl
    · rw [h2]; rfl

lemma sumDur_snoc_none (tl : List Edf.TimelineEntry)
    (seg : Edf.TimelineEntry) (h : seg.job = none) (key : String × ℕ) :
    Edf.sumDur key (tl ++ [seg]) = Edf.sumDur key tl := by
  refine sumDur_snoc_ne key tl seg ?_
  rintro ⟨ha, hb⟩
  rw [h] at hb
  exact Option.noConfusion hb

lemma execSegment_acc (tasks : List Edf.Task) (horizon : ℚ) (s : Edf.SimState)
    (fut : List ((ℚ × ℕ) × Edf.Job)) (rdyRest : List ((ℚ × ℚ × ℕ) × Edf.Job))
    (ctr : ℕ) (job : Edf.Job) (exec : ℚ)
    (hnow_int : Edf.isIntQ s.now) (hnow_nonneg : 0 ≤ s.now)
    (hchain : Edf.coversB 0 s.now s.timeline = true)
    (hdur : ∀ e ∈ s.timeline, EPSILON < e.duration)
    (hfut : ∀ e ∈ fut, e.1.1 = e.2.release_time ∧
      e.2 ∈ Edf.allJobs tasks horizon ∧
      Edf.sumDur (Edf.jkey e.2) s.timeline = 0)
    (hrdy : ∀ e ∈ rdyRest,
      (∃ j0 ∈ Edf.allJobs tasks horizon, e.2.core = j0.core) ∧
      Edf.isIntQ e.2.remaining_time ∧ 1 ≤ e.2.remaining_time ∧
      Edf.sumDur (Edf.jkey e.2) s.timeline
        = e.2.task.computation_time - e.2.remaining_time)
    (hjoball : ∃ j0 ∈ Edf.allJobs tasks horizon, job.core = j0.core)
    (hjob_int : Edf.isIntQ job.remaining_time)
    (hjob_sum : Edf.sumDur (Edf.jkey job) s.timeline
      = job.task.computation_time - job.remaining_time)
    (hjob_nf : Edf.jkey job ∉ fut.map (fun e => Edf.jkey e.2))
    (hjob_nr : Edf.jkey job ∉ rdyRest.map (fun e => Edf.jkey e.2))
    (hkeys2 : (Edf.qkeysOf fut rdyRest).Nodup)
    (hmarked : ∀ e ∈ s.timeline, e.completed = true → ∀ i, e.job = some i →
      ((e.task, i) ∉ Edf.qkeysOf fut rdyRest ∧ (e.task, i) ≠ Edf.jkey job) ∧
      ∃ j0 ∈ Edf.allJobs tasks horizon, Edf.jkey j0 = (e.task, i) ∧
        Edf.sumDur (e.task, i) s.timeline = j0.task.computation_time)
    (hmissed : ∀ j ∈ s.missed,
      (Edf.jkey j ∉ Edf.qkeysOf fut rdyRest ∧ Edf.jkey j ≠ Edf.jkey job) ∧
      Edf.sumDur (Edf.jkey j) s.timeline = j.task.computation_time)
    (hexec_eps : EPSILON < exec)
    (hexec_int : Edf.isIntQ exec)
    (hexec_le : exec ≤ job.remaining_time)
    (hseg_le : s.now + exec ≤ horizon) :
    AccInv tasks horizon (Edf.execSegment horizon s fut rdyRest ctr job exec) := by
  have hnef : ∀ e ∈ fut, Edf.jkey e.2 ≠ Edf.jkey job := by
    intro e he hh
    exact hjob_nf (hh ▸ List.mem_map_of_mem (fun x => Edf.jkey x.2) he)
  have hner : ∀ e ∈ rdyRest, Edf.jkey e.2 ≠ Edf.jkey job := by
    intro e he hh
    exact hjob_nr (hh ▸ List.mem_map_of_mem (fun x => Edf.jkey x.2) he)
  have hsnoc := sumDur_snoc_jobkey job s.timeline
    ⟨job.task.name, some job.inst, s.now, s.now + exec,
      some job.absolute_deadline,
      decide (job.remaining_time - exec ≤ EPSILON)⟩ rfl rfl
  have hsegdur : (⟨job.task.name, some job.inst, s.now, s.now + exec,
      some job.absolute_deadline,
      decide (job.remaining_time - exec ≤ EPSILON)⟩ :
        Edf.TimelineEntry).duration = exec := by
    rw [Edf.TimelineEntry.duration]
    dsimp only
    ring
  have hepspos := EPSILON_pos
  have hexec_pos : 0 < exec := lt_trans hepspos hexec_eps
  simp only [Edf.execSegment]
  rw [min_eq_left hseg_le]
  split_ifs with h1 hdm h2
  · -- job completes, deadline missed
    have hrem0 : job.remaining_time - exec = 0 :=
      int_eq_zero_of_le_eps (isIntQ_sub hjob_int hexec_int)
        (by linarith) h1
    refine ⟨?_, ?_, ?_, ?_, ?_, ?_, ?_, ?_, ?_, ?_⟩
    · exact isIntQ_add hnow_int hexec_int
    · dsimp only
      linarith
    · exact hseg_le
    · intro e he
      dsimp only at he ⊢
      obtain ⟨ha, hb, hc⟩ := hfut e he
      refine ⟨ha, hb, ?_⟩
      rw [hsnoc.1 _ (hnef e he)]
      exact hc
    · intro e he
      dsimp only at he ⊢
      obtain ⟨ha, hb, hc, hd⟩ := hrdy e he
      refine ⟨ha, hb, hc, ?_⟩
      rw [hsnoc.1 _ (hner e he)]
      exact hd
    · dsimp only
      refine coversB_snoc hchain ⟨job.task.name, some job.inst, s.now,
        s.now + exec, some job.absolute_deadline,
        decide (job.remaining_time - exec ≤ EPSILON)⟩ ?_
      rfl
    · intro e he
      dsimp only at he
      rcases List.mem_append.mp he with he1 | he1
      · exact hdur e he1
      · have heq : e = ⟨job.task.name, some job.inst, s.now, s.now + exec,
            some job.absolute_deadline,
            decide (job.remaining_time - exec ≤ EPSILON)⟩ := by
          simpa using he1
        rw [heq, hsegdur]
        exact hexec_eps
    · exact hkeys2
    · intro e he hec i hei
      dsimp only at he ⊢
      rcases List.mem_append.mp he with he1 | he1
      · obtain ⟨⟨hnq, hne⟩, j0, hj0, hj0k, hj0s⟩ := hmarked e he1 hec i hei
        refine ⟨hnq, j0, hj0, hj0k, ?_⟩
        rw [hsnoc.1 _ hne]
        exact hj0s
      · have heq : e = ⟨job.task.name, some job.inst, s.now, s.now + exec,
            some job.absolute_deadline,
            decide (job.remaining_time - exec ≤ EPSILON)⟩ := by
          simpa using he1
        subst heq
        have hi : job.inst = i := Option.some.inj hei
        have hkeq : ((⟨job.task.name, some job.inst, s.now, s.now + exec,
            some job.absolute_deadline,
            decide (job.remaining_time - exec ≤ EPSILON)⟩ :
              Edf.TimelineEntry).task, i) = Edf.jkey job := by
          rw [Edf.jkey]
          exact Prod.ext rfl hi.symm
        rw [hkeq]
        constructor
        · intro hmem
          simp only [Edf.qkeys, Edf.qkeysOf] at hmem
          rcases List.mem_append.mp hmem with h | h
          · exact hjob_nf h
          · exact hjob_nr h
        · obtain ⟨j0, hj0, hcore⟩ := hjoball
          refine ⟨j0, hj0, ?_, ?_⟩
          · rw [Edf.jkey, Edf.jkey, core_task hcore, core_inst hcore]
          · rw [hsnoc.2, hsegdur, hjob_sum, ← core_task hcore]
            linarith
    · intro j hj
      dsimp only at hj ⊢
      rcases List.mem_append.mp hj with hj1 | hj1
      · obtain ⟨⟨hnq, hne⟩, hsum⟩ := hmissed j hj1
        refine ⟨hnq, ?_⟩
        rw [hsnoc.1 _ hne]
        exact hsum
      · have heq : j = { job with
            remaining_time := job.remaining_time - exec
            completed_at := some (s.now + exec) } := by
          simpa using hj1
        subst heq
        have hk3 : Edf.jkey { job with
            remaining_time := job.remaining_time - exec
            completed_at := some (s.now + exec) } = Edf.jkey job := rfl
        rw [hk3]
        constructor
        · intro hmem
          simp only [Edf.qkeys, Edf.qkeysOf] at hmem
          rcases List.mem_append.mp hmem with h | h
          · exact hjob_nf h
          · exact hjob_nr h
        · rw [hsnoc.2, hsegdur, hjob_sum]
          dsimp only
          linarith
  · -- job completes, deadline met
    have hrem0 : job.remaining_time - exec = 0 :=
      int_eq_zero_of_le_eps (isIntQ_sub hjob_int hexec_int)
        (by linarith) h1
    refine ⟨?_, ?_, ?_, ?_, ?_, ?_, ?_, ?_, ?_, ?_⟩
    · exact isIntQ_add hnow_int hexec_int
    · dsimp only
      linarith
    · exact hseg_le
    · intro e he
      dsimp only at he ⊢
      obtain ⟨ha, hb, hc⟩ := hfut e he
      refine ⟨ha, hb, ?_⟩
      rw [hsnoc.1 _ (hnef e he)]
      exact hc
    · intro e he
      dsimp only at he ⊢
      obtain ⟨ha, hb, hc, hd⟩ := hrdy e he
      refine ⟨ha, hb, hc, ?_⟩
      rw [hsnoc.1 _ (hner e he)]
      exact hd
    · dsimp only
      refine coversB_snoc hchain ⟨job.task.name, some job.inst, s.now,
        s.now + exec, some job.absolute_deadline,
        decide (job.remaining_time - exec ≤ EPSILON)⟩ ?_
      rfl
    · intro e he
      dsimp only at he
      rcases List.mem_append.mp he with he1 | he1
      · exact hdur e he1
      · have heq : e = ⟨job.task.name, some job.inst, s.now, s.now + exec,
            some job.absolute_deadline,
            decide (job.remaining_time - exec ≤ EPSILON)⟩ := by
          simpa using he1
        rw [heq, hsegdur]
        exact hexec_eps
    · exact hkeys2
    · intro e he hec i hei
      dsimp only at he ⊢
      rcases List.mem_append.mp he with he1 | he1
      · obtain ⟨⟨hnq, hne⟩, j0, hj0, hj0k, hj0s⟩ := hmarked e he1 hec i hei
        refine ⟨hnq, j0, hj0, hj0k, ?_⟩
        rw [hsnoc.1 _ hne]
        exact hj0s
      · have heq : e = ⟨job.task.name, some job.inst, s.now, s.now + exec,
            some job.absolute_deadline,
            decide (job.remaining_time - exec ≤ EPSILON)⟩ := by
          simpa using he1
        subst heq
        have hi : job.inst = i := Option.some.inj hei
        have hkeq : ((⟨job.task.name, some job.inst, s.now, s.now + exec,
            some job.absolute_deadline,
            decide (job.remaining_time - exec ≤ EPSILON)⟩ :
              Edf.TimelineEntry).task, i) = Edf.jkey job := by
          rw [Edf.jkey]
          exact Prod.ext rfl hi.symm
        rw [hkeq]
        constructor
        · intro hmem
          simp only [Edf.qkeys, Edf.qkeysOf] at hmem
          rcases List.mem_append.mp hmem with h | h
          · exact hjob_nf h
          · exact hjob_nr h
        · obtain ⟨j0, hj0, hcore⟩ := hjoball
          refine ⟨j0, hj0, ?_, ?_⟩
          · rw [Edf.jkey, Edf.jkey, core_task hcore, core_inst hcore]
          · rw [hsnoc.2, hsegdur, hjob_sum, ← core_task hcore]
            linarith
    · intro j hj
      dsimp only at hj ⊢
      obtain ⟨⟨hnq, hne⟩, hsum⟩ := hmissed j hj
      refine ⟨hnq, ?_⟩
      rw [hsnoc.1 _ hne]
      exact hsum
  · -- job continues before the horizon: push back
    have hrpos : EPSILON < job.remaining_time - exec := not_le.mp h1
    have hrem1 : 1 ≤ job.remaining_time - exec :=
      int_one_le_of_pos (isIntQ_sub hjob_int hexec_int) (by linarith)
    have hpermk : (Edf.qkeysOf fut (Edf.pushReady
        ((job.absolute_deadline, job.release_time, ctr),
          { job with remaining_time := job.remaining_time - exec }) rdyRest)).Perm
        (fut.map (fun e => Edf.jkey e.2)
          ++ Edf.jkey job :: rdyRest.map (fun e => Edf.jkey e.2)) := by
      rw [Edf.qkeysOf]
      refine List.Perm.append_left _ ?_
      have hp := (insertS_perm (fun a b => lex3Lt a.1 b.1)
        ((job.absolute_deadline, job.release_time, ctr),
          { job with remaining_time := job.remaining_time - exec }) rdyRest).map
        (fun e => Edf.jkey e.2)
      rw [List.map_cons] at hp
      exact hp
    have hnodup2 : (fut.map (fun e => Edf.jkey e.2)
        ++ Edf.jkey job :: rdyRest.map (fun e => Edf.jkey e.2)).Nodup := by
      rw [List.nodup_middle, List.nodup_cons]
      refine ⟨?_, hkeys2⟩
      intro hmem
      rcases List.mem_append.mp hmem with h | h
      · exact hjob_nf h
      · exact hjob_nr h
    refine ⟨?_, ?_, ?_, ?_, ?_, ?_, ?_, ?_, ?_, ?_⟩
    · exact isIntQ_add hnow_int hexec_int
    · dsimp only
      linarith
    · exact hseg_le
    · intro e he
      dsimp only at he ⊢
      obtain ⟨ha, hb, hc⟩ := hfut e he
      refine ⟨ha, hb, ?_⟩
      rw [hsnoc.1 _ (hnef e he)]
      exact hc
    · intro e he
      dsimp only at he ⊢
      rcases (mem_insertS _ _ _ _).mp he with rfl | he3
      · refine ⟨?_, ?_, ?_, ?_⟩
        · obtain ⟨j0, hj0, hcore⟩ := hjoball
          exact ⟨j0, hj0, hcore⟩
        · exact isIntQ_sub hjob_int hexec_int
        · exact hrem1
        · rw [show Edf.jkey ({ job with
              remaining_time := job.remaining_time - exec } : Edf.Job)
              = Edf.jkey job from rfl]
          rw [hsnoc.2, hsegdur, hjob_sum]
          dsimp only
          ring
      · obtain ⟨ha, hb, hc, hd⟩ := hrdy e he3
        refine ⟨ha, hb, hc, ?_⟩
        rw [hsnoc.1 _ (hner e he3)]
        exact hd
    · dsimp only
      refine coversB_snoc hchain ⟨job.task.name, some job.inst, s.now,
        s.now + exec, some job.absolute_deadline,
        decide (job.remaining_time - exec ≤ EPSILON)⟩ ?_
      rfl
    · intro e he
      dsimp only at he
      rcases List.mem_append.mp he with he1 | he1
      · exact hdur e he1
      · have heq : e = ⟨job.task.name, some job.inst, s.now, s.now + exec,
            some job.absolute_deadline,
            decide (job.remaining_time - exec ≤ EPSILON)⟩ := by
          simpa using he1
        rw [heq, hsegdur]
        exact hexec_eps
    · exact (hpermk.nodup_iff).mpr hnodup2
    · intro e he hec i hei
      dsimp only at he ⊢
      rcases List.mem_append.mp he with he1 | he1
      · obtain ⟨⟨hnq, hne⟩, j0, hj0, hj0k, hj0s⟩ := hmarked e he1 hec i hei
        refine ⟨?_, j0, hj0, hj0k, ?_⟩
        · intro hmem
          have hmem2 := hpermk.subset hmem
          rcases List.mem_append.mp hmem2 with h | h
          · exact hnq (List.mem_append.mpr (Or.inl h))
          · rcases List.mem_cons.mp h with h2 | h2
            · exact hne h2
            · exact hnq (List.mem_append.mpr (Or.inr h2))
        · rw [hsnoc.1 _ hne]
          exact hj0s
      · have heq : e = ⟨job.task.name, some job.inst, s.now, s.now + exec,
            some job.absolute_deadline,
            decide (job.remaining_time - exec ≤ EPSILON)⟩ := by
          simpa using he1
        subst heq
        exact absurd (of_decide_eq_true hec) h1
    · intro j hj
      dsimp only at hj ⊢
      obtain ⟨⟨hnq, hne⟩, hsum⟩ := hmissed j hj
      refine ⟨?_, ?_⟩
      · intro hmem
        have hmem2 := hpermk.subset hmem
        rcases List.mem_append.mp hmem2 with h | h
        · exact hnq (List.mem_append.mpr (Or.inl h))
        · rcases List.mem_cons.mp h with h2 | h2
          · exact hne h2
          · exact hnq (List.mem_append.mpr (Or.inr h2))
      · rw [hsnoc.1 _ hne]
        exact hsum
  · -- job truncated at the horizon: unfinished
    refine ⟨?_, ?_, ?_, ?_, ?_, ?_, ?_, ?_, ?_, ?_⟩
    · exact isIntQ_add hnow_int hexec_int
    · dsimp only
      linarith
    · exact hseg_le
    · intro e he
      dsimp only at he ⊢
      obtain ⟨ha, hb, hc⟩ := hfut e he
      refine ⟨ha, hb, ?_⟩
      rw [hsnoc.1 _ (hnef e he)]
      exact hc
    · intro e he
      dsimp only at he ⊢
      obtain ⟨ha, hb, hc, hd⟩ := hrdy e he
      refine ⟨ha, hb, hc, ?_⟩
      rw [hsnoc.1 _ (hner e he)]
      exact hd
    · dsimp only
      refine coversB_snoc hchain ⟨job.task.name, some job.inst, s.now,
        s.now + exec, some job.absolute_deadline,
        decide (job.remaining_time - exec ≤ EPSILON)⟩ ?_
      rfl
    · intro e he
      dsimp only at he
      rcases List.mem_append.mp he with he1 | he1
      · exact hdur e he1
      · have heq : e = ⟨job.task.name, some job.inst, s.now, s.now + exec,
            some job.absolute_deadline,
            decide (job.remaining_time - exec ≤ EPSILON)⟩ := by
          simpa using he1
        rw [heq, hsegdur]
        exact hexec_eps
    · exact hkeys2
    · intro e he hec i hei
      dsimp only at he ⊢
      rcases List.mem_append.mp he with he1 | he1
      · obtain ⟨⟨hnq, hne⟩, j0, hj0, hj0k, hj0s⟩ := hmarked e he1 hec i hei
        refine ⟨hnq, j0, hj0, hj0k, ?_⟩
        rw [hsnoc.1 _ hne]
        exact hj0s
      · have heq : e = ⟨job.task.name, some job.inst, s.now, s.now + exec,
            some job.absolute_deadline,
            decide (job.remaining_time - exec ≤ EPSILON)⟩ := by
          simpa using he1
        subst heq
        exact absurd (of_decide_eq_true hec) h1
    · intro j hj
      dsimp only at hj ⊢
      obtain ⟨⟨hnq, hne⟩, hsum⟩ := hmissed j hj
      refine ⟨hnq, ?_⟩
      rw [hsnoc.1 _ hne]
      exact hsum

lemma simStepRun_acc (tasks : List Edf.Task) (horizon : ℚ) (s : Edf.SimState)
    (fut : List ((ℚ × ℕ) × Edf.Job)) (rdyRest : List ((ℚ × ℚ × ℕ) × Edf.Job))
    (ctr : ℕ) (job : Edf.Job)
    (hint : Edf.IntTasks tasks) (hhor_int : Edf.isIntQ horizon)
    (hnow_lt : s.now < horizon)
    (hnow_int : Edf.isIntQ s.now) (hnow_nonneg : 0 ≤ s.now)
    (hchain : Edf.coversB 0 s.now s.timeline = true)
    (hdur : ∀ e ∈ s.timeline, EPSILON < e.duration)
    (hfut : ∀ e ∈ fut, e.1.1 = e.2.release_time ∧
      e.2 ∈ Edf.allJobs tasks horizon ∧
      Edf.sumDur (Edf.jkey e.2) s.timeline = 0)
    (hfut_head : ∀ kj rest2, fut = kj :: rest2 → s.now < kj.1.1)
    (hrdy : ∀ e ∈ rdyRest,
      (∃ j0 ∈ Edf.allJobs tasks horizon, e.2.core = j0.core) ∧
      Edf.isIntQ e.2.remaining_time ∧ 1 ≤ e.2.remaining_time ∧
      Edf.sumDur (Edf.jkey e.2) s.timeline
        = e.2.task.computation_time - e.2.remaining_time)
    (hjoball : ∃ j0 ∈ Edf.allJobs tasks horizon, job.core = j0.core)
    (hjob_int : Edf.isIntQ job.remaining_time)
    (hjob_one : 1 ≤ job.remaining_time)
    (hjob_sum : Edf.sumDur (Edf.jkey job) s.timeline
      = job.task.computation_time - job.remaining_time)
    (hjob_nf : Edf.jkey job ∉ fut.map (fun e => Edf.jkey e.2))
    (hjob_nr : Edf.jkey job ∉ rdyRest.map (fun e => Edf.jkey e.2))
    (hkeys2 : (Edf.qkeysOf fut rdyRest).Nodup)
    (hmarked : ∀ e ∈ s.timeline, e.completed = true → ∀ i, e.job = some i →
      ((e.task, i) ∉ Edf.qkeysOf fut rdyRest ∧ (e.task, i) ≠ Edf.jkey job) ∧
      ∃ j0 ∈ Edf.allJobs tasks horizon, Edf.jkey j0 = (e.task, i) ∧
        Edf.sumDur (e.task, i) s.timeline = j0.task.computation_time)
    (hmissed : ∀ j ∈ s.missed,
      (Edf.jkey j ∉ Edf.qkeysOf fut rdyRest ∧ Edf.jkey j ≠ Edf.jkey job) ∧
      Edf.sumDur (Edf.jkey j) s.timeline = j.task.computation_time) :
    AccInv tasks horizon
      (Sum.elim id id (Edf.simStepRun horizon s fut rdyRest ctr job)) := by
  have main : ∀ nev : ℚ, Edf.isIntQ nev → s.now < nev → nev ≤ horizon →
      nev ≤ s.now + job.remaining_time →
      AccInv tasks horizon (Sum.elim id id
        (if max 0 (nev - s.now) ≤ EPSILON then
          if min job.remaining_time (horizon - s.now) ≤ EPSILON then
            Sum.inr { s with future := fut, ready := rdyRest, readyCtr := ctr }
          else
            Sum.inl (Edf.execSegment horizon s fut rdyRest ctr job
              (min job.remaining_time (horizon - s.now)))
        else
          Sum.inl (Edf.execSegment horizon s fut rdyRest ctr job
            (max 0 (nev - s.now))))) := by
    intro nev hne_int hne_gt hne_hor hne_rem
    have hone : 1 ≤ nev - s.now := by
      have := int_add_one_le hnow_int hne_int hne_gt
      linarith
    have heps1 := EPSILON_lt_one
    split_ifs with hc1 hc2
    · exfalso
      have := le_max_right (0 : ℚ) (nev - s.now)
      linarith
    · exfalso
      have := le_max_right (0 : ℚ) (nev - s.now)
      linarith
    · simp only [Sum.elim_inl, id]
      refine execSegment_acc tasks horizon s fut rdyRest ctr job _
        hnow_int hnow_nonneg hchain hdur hfut hrdy hjoball hjob_int hjob_sum
        hjob_nf hjob_nr hkeys2 hmarked hmissed
        (not_le.mp hc1) ?_ ?_ ?_
      · exact isIntQ_max isIntQ_zero (isIntQ_sub hne_int hnow_int)
      · refine max_le ?_ ?_
        · linarith
        · linarith
      · rw [max_eq_right (by linarith : (0 : ℚ) ≤ nev - s.now)]
        linarith
  cases fut with
  | nil =>
    simp only [Edf.simStepRun, List.head?_nil, Option.map_none']
    exact main (min (s.now + job.remaining_time) horizon)
      (isIntQ_min (isIntQ_add hnow_int hjob_int) hhor_int)
      (lt_min (by linarith) hnow_lt)
      (min_le_right _ _)
      (min_le_left _ _)
  | cons f fr =>
    have hfint : Edf.isIntQ f.1.1 := by
      obtain ⟨ha, hb, _⟩ := hfut f (List.mem_cons_self _ _)
      rw [ha]
      exact allJobs_release_int hint hb
    have hfgt : s.now < f.1.1 := hfut_head f fr rfl
    simp only [Edf.simStepRun, List.head?_cons, Option.map_some']
    exact main (min (s.now + job.remaining_time) (min f.1.1 horizon))
      (isIntQ_min (isIntQ_add hnow_int hjob_int) (isIntQ_min hfint hhor_int))
      (lt_min (by linarith) (lt_min hfgt hnow_lt))
      (le_trans (min_le_right _ _) (min_le_right _ _))
      (min_le_left _ _)

lemma simStep_acc (tasks : List Edf.Task) (horizon : ℚ) (s : Edf.SimState)
    (hint : Edf.IntTasks tasks) (hhor_int : Edf.isIntQ horizon)
    (hnow_lt : s.now < horizon) (hs : AccInv tasks horizon s) :
    AccInv tasks horizon (Sum.elim id id (Edf.simStep horizon s)) := by
  obtain ⟨hni, hnn, hnl, hf, hr, hch, hdu, hk, hm, hmo⟩ := hs
  have hda := drain_acc tasks horizon s.now s.timeline hint
    s.future s.ready s.readyCtr hf hr
  rcases hdrain : Edf.drain s.now s.future s.ready s.readyCtr with ⟨fut, rdyd, ctr⟩
  rw [hdrain] at hda
  obtain ⟨hdf, hdr, hdperm, hdhead⟩ := hda
  have hknd : (Edf.qkeysOf fut rdyd).Nodup := (hdperm.nodup_iff).mpr hk
  have heps1 := EPSILON_lt_one
  have hepspos := EPSILON_pos
  cases rdyd with
  | nil =>
    cases fut with
    | nil =>
      simp only [Edf.simStep, hdrain]
      rw [if_pos hnow_lt]
      simp only [Sum.elim_inr, id]
      have hidur : EPSILON < horizon - s.now := by
        have := int_add_one_le hni hhor_int hnow_lt
        linarith
      refine ⟨hhor_int, by linarith, le_refl _, by simp, by simp, ?_, ?_, ?_, ?_, ?_⟩
      · dsimp only
        refine coversB_snoc hch ⟨Edf.idleName, none, s.now, horizon, none, true⟩ ?_
        rfl
      · intro e he
        dsimp only at he
        rcases List.mem_append.mp he with he1 | he1
        · exact hdu e he1
        · have heq : e = ⟨Edf.idleName, none, s.now, horizon, none, true⟩ := by
            simpa using he1
          rw [heq, Edf.TimelineEntry.duration]
          exact hidur
      · simp [Edf.qkeys, Edf.qkeysOf]
      · intro e he hec i hei
        dsimp only at he ⊢
        rcases List.mem_append.mp he with he1 | he1
        · obtain ⟨hnq, j0, hj0, hj0k, hj0s⟩ := hm e he1 hec i hei
          refine ⟨by simp [Edf.qkeys, Edf.qkeysOf], j0, hj0, hj0k, ?_⟩
          rw [sumDur_snoc_none _ _ rfl]
          exact hj0s
        · have heq : e = ⟨Edf.idleName, none, s.now, horizon, none, true⟩ := by
            simpa using he1
          subst heq
          exact absurd hei (by simp)
      · intro j hj
        dsimp only at hj ⊢
        obtain ⟨hnq, hsum⟩ := hmo j hj
        refine ⟨by simp [Edf.qkeys, Edf.qkeysOf], ?_⟩
        rw [sumDur_snoc_none _ _ rfl]
        exact hsum
    | cons f fr =>
      have hfgt : s.now < f.1.1 := hdhead f fr rfl
      have hfint : Edf.isIntQ f.1.1 := by
        obtain ⟨ha, hb, _⟩ := hdf f (List.mem_cons_self _ _)
        rw [ha]
        exact allJobs_release_int hint hb
      have hminint : Edf.isIntQ (min f.1.1 horizon) := isIntQ_min hfint hhor_int
      have hmingt : s.now < min f.1.1 horizon := lt_min hfgt hnow_lt
      have hcond : min f.1.1 horizon > s.now + EPSILON := by
        have := int_add_one_le hni hminint hmingt
        linarith
      simp only [Edf.simStep, hdrain]
      rw [if_pos hcond]
      simp only [Sum.elim_inl, id]
      refine ⟨hminint, by linarith, min_le_right _ _, ?_, by simp, ?_, ?_, ?_, ?_, ?_⟩
      · intro e he
        dsimp only at he ⊢
        obtain ⟨ha, hb, hc⟩ := hdf e he
        refine ⟨ha, hb, ?_⟩
        rw [sumDur_snoc_none _ _ rfl]
        exact hc
      · dsimp only
        refine coversB_snoc hch
          ⟨Edf.idleName, none, s.now, min f.1.1 horizon, none, true⟩ ?_
        rfl
      · intro e he
        dsimp only at he
        rcases List.mem_append.mp he with he1 | he1
        · exact hdu e he1
        · have heq : e = ⟨Edf.idleName, none, s.now, min f.1.1 horizon,
              none, true⟩ := by simpa using he1
          rw [heq, Edf.TimelineEntry.duration]
          dsimp only
          linarith
      · exact hknd
      · intro e he hec i hei
        dsimp only at he ⊢
        rcases List.mem_append.mp he with he1 | he1
        · obtain ⟨hnq, j0, hj0, hj0k, hj0s⟩ := hm e he1 hec i hei
          refine ⟨?_, j0, hj0, hj0k, ?_⟩
          · intro hmem
            exact hnq (hdperm.subset hmem)
          · rw [sumDur_snoc_none _ _ rfl]
            exact hj0s
        · have heq : e = ⟨Edf.idleName, none, s.now, min f.1.1 horizon,
              none, true⟩ := by simpa using he1
          subst heq
          exact absurd hei (by simp)
      · intro j hj
        dsimp only at hj ⊢
        obtain ⟨hnq, hsum⟩ := hmo j hj
        refine ⟨?_, ?_⟩
        · intro hmem
          exact hnq (hdperm.subset hmem)
        · rw [sumDur_snoc_none _ _ rfl]
          exact hsum
  | cons rh rdyRest =>
    obtain ⟨rk, job0⟩ := rh
    obtain ⟨hj0all, hj0int, hj0one, hj0sum⟩ := hdr (rk, job0) (List.mem_cons_self _ _)
    have hnotle : ¬ job0.remaining_time ≤ EPSILON := by
      intro h
      linarith
    have h1 : (fut.map (fun e => Edf.jkey e.2)
        ++ Edf.jkey job0 :: rdyRest.map (fun e => Edf.jkey e.2)).Nodup := hknd
    rw [List.nodup_middle, List.nodup_cons] at h1
    have hnf : Edf.jkey job0 ∉ fut.map (fun e => Edf.jkey e.2) :=
      fun h => h1.1 (List.mem_append.mpr (Or.inl h))
    have hnr : Edf.jkey job0 ∉ rdyRest.map (fun e => Edf.jkey e.2) :=
      fun h => h1.1 (List.mem_append.mpr (Or.inr h))
    have hkeys2 : (Edf.qkeysOf fut rdyRest).Nodup := h1.2
    have hsplitmem : ∀ k : String × ℕ, k ∉ Edf.qkeys s →
        k ∉ Edf.qkeysOf fut rdyRest ∧ k ≠ Edf.jkey job0 := by
      intro k hks
      have hk2 : k ∉ Edf.qkeysOf fut ((rk, job0) :: rdyRest) :=
        fun hmem => hks (hdperm.subset hmem)
      constructor
      · intro hmem
        apply hk2
        rcases List.mem_append.mp hmem with h | h
        · exact List.mem_append.mpr (Or.inl h)
        · exact List.mem_append.mpr (Or.inr (List.mem_cons_of_mem _ h))
      · intro hkeq
        apply hk2
        rw [hkeq]
        exact List.mem_append.mpr (Or.inr (List.mem_cons_self _ _))
    have hm' : ∀ e ∈ s.timeline, e.completed = true → ∀ i, e.job = some i →
        ((e.task, i) ∉ Edf.qkeysOf fut rdyRest ∧ (e.task, i) ≠ Edf.jkey job0) ∧
        ∃ j0 ∈ Edf.allJobs tasks horizon, Edf.jkey j0 = (e.task, i) ∧
          Edf.sumDur (e.task, i) s.timeline = j0.task.computation_time := by
      intro e he hec i hei
      obtain ⟨hnq, hrest⟩ := hm e he hec i hei
      exact ⟨hsplitmem _ hnq, hrest⟩
    have hmo' : ∀ j ∈ s.missed,
        (Edf.jkey j ∉ Edf.qkeysOf fut rdyRest ∧ Edf.jkey j ≠ Edf.jkey job0) ∧
        Edf.sumDur (Edf.jkey j) s.timeline = j.task.computation_time := by
      intro j hj
      obtain ⟨hnq, hsum⟩ := hmo j hj
      exact ⟨hsplitmem _ hnq, hsum⟩
    simp only [Edf.simStep, hdrain]
    rw [if_neg hnotle]
    by_cases hst : job0.started_at = none
    · rw [if_pos hst]
      exact simStepRun_acc tasks horizon s fut rdyRest ctr
        { job0 with started_at := some s.now }
        hint hhor_int hnow_lt hni hnn hch hdu hdf hdhead
        (fun e he => hdr e (List.mem_cons_of_mem _ he))
        hj0all hj0int hj0one hj0sum hnf hnr hkeys2 hm' hmo'
    · rw [if_neg hst]
      exact simStepRun_acc tasks horizon s fut rdyRest ctr job0
        hint hhor_int hnow_lt hni hnn hch hdu hdf hdhead
        (fun e he => hdr e (List.mem_cons_of_mem _ he))
        hj0all hj0int hj0one hj0sum hnf hnr hkeys2 hm' hmo'

lemma simLoop_acc (tasks : List Edf.Task) (horizon : ℚ)
    (hint : Edf.IntTasks tasks) (hhor_int : Edf.isIntQ horizon) :
    ∀ (fuel : ℕ) (s : Edf.SimState), AccInv tasks horizon s →
      AccInv tasks horizon (Edf.simLoop horizon fuel s) := by
  intro fuel
  induction fuel with
  | zero => intro s hs; exact hs
  | succ fuel ih =>
    intro s hs
    rw [Edf.simLoop]
    by_cases hcond : (¬ s.future = [] ∨ ¬ s.ready = []) ∧ s.now < horizon
    · rw [if_pos hcond]
      have hstep := simStep_acc tasks horizon s hint hhor_int hcond.2 hs
      cases hs2 : Edf.simStep horizon s with
      | inl s2 =>
        rw [hs2] at hstep
        exact ih s2 (by simpa using hstep)
      | inr s2 =>
        rw [hs2] at hstep
        simpa using hstep
    · rw [if_neg hcond]
      exact hs

lemma init_acc (tasks : List Edf.Task) (horizon : ℚ)
    (hhor : 0 ≤ horizon)
    (hnames : (tasks.map (fun t => t.name)).Nodup) :
    AccInv tasks horizon
      ⟨(Edf.initFuture tasks horizon).1, [], 0, 0, [], [], []⟩ := by
  refine ⟨isIntQ_zero, le_refl _, hhor, ?_, by simp, by rw [Edf.coversB]; simp,
    by simp, ?_, by simp, by simp⟩
  · intro e he
    obtain ⟨ha, hb⟩ := initFuture_prop tasks horizon e he
    exact ⟨ha, hb, rfl⟩
  · have hperm := initFuture_keys tasks horizon
    have hnd := allJobs_keys_nodup tasks horizon hnames
    have : ((Edf.initFuture tasks horizon).1.map (fun e => Edf.jkey e.2)).Nodup :=
      (hperm.nodup_iff).mpr hnd
    simpa [Edf.qkeys, Edf.qkeysOf] using this

/-- C2 (amended): for integral task parameters and horizon with distinct
task names, the merged timeline of simulate_edf is an exact contiguous
chain covering [0, simulation_end] with every entry longer than EPSILON
(hence non-overlapping), and each completed job — completion-marked entry
or missed deadline — has total attributed duration exactly its task's
computation time. -/
theorem c2_amended (tasks : List Edf.Task) (horizon : ℚ)
    (hint : Edf.IntTasks tasks) (hhor_int : Edf.isIntQ horizon)
    (hhor : 0 ≤ horizon)
    (hnames : (tasks.map (fun t => t.name)).Nodup) :
    ∃ res, Edf.simulate_edf tasks horizon = Except.ok res ∧
      Edf.coversB 0 res.simulation_end res.timeline = true ∧
      (∀ e ∈ res.timeline, EPSILON < e.duration) ∧
      (∀ e ∈ res.timeline, e.completed = true → ∀ i, e.job = some i →
        ∀ t ∈ tasks, t.name = e.task →
          Edf.sumDur (e.task, i) res.timeline = t.computation_time) ∧
      (∀ j ∈ res.missed_deadlines,
        Edf.sumDur (Edf.jkey j) res.timeline = j.task.computation_time) := by
  obtain ⟨res, hres⟩ : ∃ res, Edf.simulate_edf tasks horizon = Except.ok res := by
    rw [Edf.simulate_edf, if_neg (not_lt.mpr hhor)]
    exact ⟨_, rfl⟩
  refine ⟨res, hres, ?_⟩
  set sfin := Edf.simLoop horizon (Edf.simFuel tasks horizon)
    ⟨(Edf.initFuture tasks horizon).1, [], 0, 0, [], [], []⟩ with hsfin
  have hinv : AccInv tasks horizon sfin := by
    rw [hsfin]
    exact simLoop_acc tasks horizon hint hhor_int _ _
      (init_acc tasks horizon hhor hnames)
  obtain ⟨hni, hnn, hnl, hf2, hr2, hch, hdu, hk2, hm2, hmo2⟩ := hinv
  rw [Edf.simulate_edf, if_neg (not_lt.mpr hhor)] at hres
  have hr := Except.ok.inj hres
  rw [← hr]
  have hmin : min sfin.now horizon = sfin.now := min_eq_left hnl
  obtain ⟨hcov, hdurf, hsums⟩ := mergeFold_main sfin.timeline 0 sfin.now []
    hch hdu (by rw [List.reverse_nil, Edf.coversB]; simp) (by simp) trivial
  have hsame : ∀ key, Edf.sumDur key (Edf.merge_timeline sfin.timeline)
      = Edf.sumDur key sfin.timeline := by
    intro key
    rw [Edf.merge_timeline, sumDur_reverse, hsums, sumDur_nil, zero_add]
  refine ⟨?_, ?_, ?_, ?_⟩
  · dsimp only
    rw [hmin, Edf.merge_timeline]
    exact hcov
  · intro e he
    dsimp only at he
    rw [Edf.merge_timeline, List.mem_reverse] at he
    exact hdurf e he
  · intro e he hec i hei t ht htn
    dsimp only at he ⊢
    have he2 : e ∈ sfin.timeline.foldl Edf.mergeStep [] := by
      rw [Edf.merge_timeline, List.mem_reverse] at he
      exact he
    have hQ := mergeFold_completed
      (fun name jb => ∀ i2, jb = some i2 →
        ∃ j0 ∈ Edf.allJobs tasks horizon, Edf.jkey j0 = (name, i2) ∧
          Edf.sumDur (name, i2) sfin.timeline = j0.task.computation_time)
      sfin.timeline [] (by simp)
      (fun e2 he2 hc2 i2 hei2 => (hm2 e2 he2 hc2 i2 hei2).2)
      e he2 hec
    obtain ⟨j0, hj0, hj0k, hj0s⟩ := hQ i hei
    rw [hsame, hj0s]
    obtain ⟨t2, ht2, i2, hi2, rfl⟩ := allJobs_shape _ _ _ hj0
    have htn2 : t2.name = e.task := congrArg Prod.fst hj0k
    have ht2t : t2 = t :=
      List.inj_on_of_nodup_map hnames ht2 ht (by rw [htn2, htn])
    rw [ht2t]
    rfl
  · intro j hj
    dsimp only at hj ⊢
    rw [hsame]
    exact (hmo2 j hj).2

/-- C2 counterexample: a single task with C=1, T=D=10 and offset EPSILON/2
over horizon 1 yields a timeline of one completed entry [EPSILON/2, 1]: the
entries do not cover [0, simulation_end] (nothing covers [0, EPSILON/2)),
and the completed job's summed duration is 1 - EPSILON/2, not its
computation time 1. -/
theorem c2_counterexample :
    Edf.simulate_edf [⟨"A", 1, 10, 10, EPSILON / 2⟩] 1
      = Except.ok ⟨[⟨"A", some 1, EPSILON / 2, 1, some (EPSILON / 2 + 10), true⟩],
        [], [], 1⟩ ∧
    (0 : ℚ) ≤ 1 ∧
    Edf.coversB 0 1
      [⟨"A", some 1, EPSILON / 2, 1, some (EPSILON / 2 + 10), true⟩] = false ∧
    (⟨"A", some 1, EPSILON / 2, 1, some (EPSILON / 2 + 10), true⟩ :
      Edf.TimelineEntry).completed = true ∧
    Edf.sumDur ("A", 1)
        [⟨"A", some 1, EPSILON / 2, 1, some (EPSILON / 2 + 10), true⟩]
      ≠ (⟨"A", 1, 10, 10, EPSILON / 2⟩ : Edf.Task).computation_time := by
  refine ⟨by decide, by norm_num, by decide, rfl, by decide⟩

/-- C2 witness: the amended theorem applied to the integral task B
(C=1, T=D=2, offset 0) over horizon 2. -/
theorem c2_amended_witness :
    (Edf.IntTasks [(⟨"B", 1, 2, 2, 0⟩ : Edf.Task)] ∧ Edf.isIntQ (2 : ℚ) ∧
      (0 : ℚ) ≤ 2 ∧
      (([(⟨"B", 1, 2, 2, 0⟩ : Edf.Task)]).map (fun t => t.name)).Nodup) ∧
    (∃ res, Edf.simulate_edf [(⟨"B", 1, 2, 2, 0⟩ : Edf.Task)] 2
        = Except.ok res ∧
      Edf.coversB 0 res.simulation_end res.timeline = true ∧
      (∀ e ∈ res.timeline, EPSILON < e.duration) ∧
      (∀ e ∈ res.timeline, e.completed = true → ∀ i, e.job = some i →
        ∀ t ∈ [(⟨"B", 1, 2, 2, 0⟩ : Edf.Task)], t.name = e.task →
          Edf.sumDur (e.task, i) res.timeline = t.computation_time) ∧
      (∀ j ∈ res.missed_deadlines,
        Edf.sumDur (Edf.jkey j) res.timeline = j.task.computation_time)) := by
  have h1 : Edf.IntTasks [(⟨"B", 1, 2, 2, 0⟩ : Edf.Task)] := by
    intro t ht
    have ht2 : t = ⟨"B", 1, 2, 2, 0⟩ := by simpa using ht
    subst ht2
    exact ⟨by norm_num, by norm_num, by norm_num, ⟨1, by norm_num⟩,
      ⟨2, by norm_num⟩, ⟨0, by norm_num⟩⟩
  have h2 : Edf.isIntQ (2 : ℚ) := ⟨2, by norm_num⟩
  refine ⟨⟨h1, h2, by norm_num, by simp⟩, ?_⟩
  exact c2_amended [⟨"B", 1, 2, 2, 0⟩] 2 h1 h2 (by norm_num) (by simp)
